import Mathlib

/-!
# Verification of `context` (de-husk/go-std-lib-learning)

Shallow embedding of `src/context/context.go`.

* A `Context` value is the immutable part of a context node: its kind, its
  parent, and (for cancel and deadline nodes) the identity of its `done`
  channel, (for value nodes) the key/value pair, (for deadline nodes) the
  deadline.  Channel identities are natural numbers handed out by `make`.
* The mutable part lives in `State`: which channels are closed, the `err`
  field of each deadline node (keyed by the node's `done` channel), the clock,
  and the goroutines that are still blocked in their `select`.
* Every method body that runs under `mu` is one atomic state transformer.
* `select` picks one of the ready cases; the choice is a parameter (`pick`).
-/

namespace GoCtx

/-! ## Values of type `any` -/

/-- Dynamic values stored in an `any`.  `nil` is the nil interface; `named`
is a value of a user-defined string type (as `testContextKey` in the tests);
`nan` is the `float64` value NaN; `slice` is a value of type `[]int`, a type
that is not comparable; `array1 x` is the value `[1]any\x7bx\x7d` of the array
type `[1]any`, a comparable type whose `==` compares the elements as interface
values. -/
inductive GoAny where
  | nil
  | int (n : Int)
  | str (s : String)
  | named (typeName : String) (s : String)
  | nan
  | slice (xs : List Int)
  | array1 (elem : GoAny)
  deriving DecidableEq, Repr

/-- The result of `reflect.TypeOf(key).Comparable()` for a non-nil `key`:
false for a slice type, true for the other types (an array type is comparable
when its element type is, and an interface type is). -/
def GoAny.comparable : GoAny → Bool
  | .slice _ => false
  | _ => true

/-- The `==` of two interface values: equal dynamic types and equal values.
Comparing two values of one identical non-comparable dynamic type panics; NaN
is not equal to itself; two arrays are compared element by element, so the
comparison of two `[1]any` values is the comparison of their elements. -/
def ifaceEq : GoAny → GoAny → Except String Bool
  | .slice _, .slice _ => .error "runtime error: comparing uncomparable type []int"
  | .nan, .nan => .ok false
  | .array1 a, .array1 b => ifaceEq a b
  | a, b => .ok (decide (a = b))

/-! ## Errors, contexts, state -/

/-- The two package-level error values; `Option GoError` is the type `error`
with `none` for `nil`. -/
inductive GoError where
  | ErrCanceled
  | ErrDeadlineExceeded
  deriving DecidableEq, Repr

/-- A context node: `backgroundCtx{}`, `*cancelCtx`, `*valueCtx`,
`*deadlineCtx`.  `done` is the identity of the node's `done` channel. -/
inductive Context where
  | backgroundCtx
  | cancelCtx (parent : Context) (done : Nat)
  | valueCtx (parent : Context) (key value : GoAny)
  | deadlineCtx (parent : Context) (done : Nat) (deadline : Int)
  deriving DecidableEq, Repr

/-- The goroutine started by a derivation, blocked in its `select`.  It
captures `ctx` (its parent and its `done` channel) and, for a deadline
context, the timer `t`, represented by the instant at which `t.C` delivers. -/
inductive Goroutine where
  | cancelObserver (parent : Context) (done : Nat)
  | deadlineObserver (parent : Context) (done : Nat) (timer : Int)
  deriving DecidableEq, Repr

/-- The mutable state: clock, channel allocator, closed flags of the `done`
channels, `err` fields of the deadline nodes, pending goroutines. -/
structure State where
  now : Int
  nextChan : Nat
  closed : Nat → Bool
  err : Nat → Option GoError
  goroutines : List Goroutine

/-- Pointwise update of a store. -/
def setAt {α : Type} (f : Nat → α) (i : Nat) (v : α) : Nat → α :=
  fun j => if j = i then v else f j

/-! ## The `Context` interface -/

/-- The method `Deadline()`: `(deadline, ok)`; the zero `time.Time` is `0`.
`valueCtx` embeds its parent and forwards. -/
def Context.Deadline : Context → Int × Bool
  | .backgroundCtx => (0, false)
  | .cancelCtx _ _ => (0, false)
  | .valueCtx p _ _ => p.Deadline
  | .deadlineCtx _ _ d => (d, true)

/-- The method `Done()`: `none` is the nil channel. -/
def Context.Done : Context → Option Nat
  | .backgroundCtx => none
  | .cancelCtx _ c => some c
  | .valueCtx p _ _ => p.Done
  | .deadlineCtx _ c _ => some c

/-- The method `Err()`.  `cancelCtx.Err` polls `done`; `deadlineCtx.Err` reads
the `err` field under the lock; `valueCtx` forwards to its parent. -/
def Context.Err : Context → State → Option GoError
  | .backgroundCtx, _ => none
  | .cancelCtx _ c, s => if s.closed c then some .ErrCanceled else none
  | .valueCtx p _ _, s => p.Err s
  | .deadlineCtx _ c _, s => s.err c

/-- The method `Value(key)`; `.error` is a panic.  `deadlineCtx` gets it from
the embedded `cancelCtx`. -/
def Context.Value : Context → GoAny → Except String GoAny
  | .backgroundCtx, _ => .ok .nil
  | .cancelCtx p _, key => p.Value key
  | .valueCtx p k v, key =>
    if key = .nil then .error "key cannot be nil"
    else
      match ifaceEq k key with
      | .error e => .error e
      | .ok true => .ok v
      | .ok false => p.Value key
  | .deadlineCtx p _ _, key => p.Value key

/-- Whether a receive from the channel can proceed: never on the nil channel,
always on a closed one; nothing is ever sent on a `done` channel. -/
def chanReady (ch : Option Nat) (s : State) : Bool :=
  match ch with
  | none => false
  | some c => s.closed c

/-- Whether the context's `Done()` channel has been closed. -/
def Context.fired (c : Context) (s : State) : Bool :=
  chanReady c.Done s

/-! ## Closing -/

/-- The method `cancelCtx.close`. -/
def cancelCtx_close (done : Nat) (s : State) : State :=
  if s.closed done then s
  else { s with closed := setAt s.closed done true }

/-- The method `deadlineCtx.closeErr`. -/
def deadlineCtx_closeErr (done : Nat) (err : Option GoError) (s : State) : State :=
  if s.closed done then s
  else { s with closed := setAt s.closed done true, err := setAt s.err done err }

/-- The method `deadlineCtx.close`. -/
def deadlineCtx_close (done : Nat) (s : State) : State :=
  deadlineCtx_closeErr done (some .ErrCanceled) s

/-- A `CancelFunc` value: the method value `ctx.close` bound to its receiver. -/
inductive CancelFunc where
  | cancelCtx_close (done : Nat)
  | deadlineCtx_close (done : Nat)
  deriving DecidableEq, Repr

/-- Calling a `CancelFunc`. -/
def CancelFunc.call : CancelFunc → State → State
  | .cancelCtx_close c, s => GoCtx.cancelCtx_close c s
  | .deadlineCtx_close c, s => GoCtx.deadlineCtx_close c s

/-! ## Derivations -/

/-- Allocation of a node with `done: make(chan struct\x7b\x7d)` and a nil `err`:
a fresh open channel. -/
def State.makeChan (s : State) : Nat × State :=
  (s.nextChan,
   { s with nextChan := s.nextChan + 1,
            closed := setAt s.closed s.nextChan false,
            err := setAt s.err s.nextChan none })

/-- The statement `go func() ...`: one more pending goroutine. -/
def State.spawn (s : State) (g : Goroutine) : State :=
  { s with goroutines := g :: s.goroutines }

/-- The function `WithCancel`; `none` is a nil parent, `.error` a panic. -/
def WithCancel (parent : Option Context) (s : State) :
    Except String (Context × CancelFunc × State) :=
  match parent with
  | none => .error "cannot create cancel context with a nil parent"
  | some p =>
    let (ch, s1) := s.makeChan
    .ok (.cancelCtx p ch, .cancelCtx_close ch, s1.spawn (.cancelObserver p ch))

/-- The function `WithValue`. -/
def WithValue (parent : Option Context) (key val : GoAny) : Except String Context :=
  match parent with
  | none => .error "cannot create a new context kv with a nil parent"
  | some p =>
    if key = .nil then .error "key cannot be nil"
    else if !key.comparable then .error "key is not comparable"
    else .ok (.valueCtx p key val)

/-- The function `WithTimeout`.  The timer `time.NewTimer(timeout)` delivers at
`now + timeout`. -/
def WithTimeout (parent : Option Context) (timeout : Int) (s : State) :
    Except String (Context × CancelFunc × State) :=
  match parent with
  | none => .error "cannot create a new timeout context with a nil parent"
  | some p =>
    let d := s.now + timeout
    let (ch, s1) := s.makeChan
    let t := s1.now + timeout
    .ok (.deadlineCtx p ch d, .deadlineCtx_close ch, s1.spawn (.deadlineObserver p ch t))

/-- The function `WithDeadline`. -/
def WithDeadline (parent : Option Context) (d : Int) (s : State) :
    Except String (Context × CancelFunc × State) :=
  match parent with
  | none => .error "cannot create a new timeout context with a nil parent"
  | some p =>
    let n := s.now
    if d < n then
      let (ch, s1) := s.makeChan
      let s2 := { s1 with closed := setAt s1.closed ch true }
      let s3 := { s2 with err := setAt s2.err ch (some .ErrDeadlineExceeded) }
      .ok (.deadlineCtx p ch d, .deadlineCtx_close ch, s3)
    else
      let tt := d - n
      let (ch, s1) := s.makeChan
      let t := s1.now + tt
      .ok (.deadlineCtx p ch d, .deadlineCtx_close ch, s1.spawn (.deadlineObserver p ch t))

/-! ## The observer goroutines -/

/-- The cases of the observers' `select`, in source order. -/
inductive SelectCase where
  | parentDone
  | timer
  | ownDone
  deriving DecidableEq, Repr

/-- Whether a case of the goroutine's `select` can proceed. -/
def Goroutine.ready : Goroutine → SelectCase → State → Bool
  | .cancelObserver p _, .parentDone, s => chanReady p.Done s
  | .cancelObserver _ _, .timer, _ => false
  | .cancelObserver _ c, .ownDone, s => s.closed c
  | .deadlineObserver p _ _, .parentDone, s => chanReady p.Done s
  | .deadlineObserver _ _ t, .timer, s => decide (t ≤ s.now)
  | .deadlineObserver _ c _, .ownDone, s => s.closed c

/-- The cases that can proceed, in source order. -/
def Goroutine.readyCases (g : Goroutine) (s : State) : List SelectCase :=
  [SelectCase.parentDone, SelectCase.timer, SelectCase.ownDone].filter (fun c => g.ready c s)

/-- The case `select` runs: one of the ready cases, chosen by `pick`; `none`
when the goroutine stays blocked. -/
def Goroutine.select (g : Goroutine) (pick : Nat) (s : State) : Option SelectCase :=
  (g.readyCases s).get? (pick % (g.readyCases s).length)

/-- The body of the chosen case. -/
def Goroutine.runCase : Goroutine → SelectCase → State → State
  | .cancelObserver _ c, .parentDone, s => cancelCtx_close c s
  | .cancelObserver _ _, _, s => s
  | .deadlineObserver _ c _, .parentDone, s => deadlineCtx_closeErr c (some .ErrCanceled) s
  | .deadlineObserver _ c _, .timer, s => deadlineCtx_closeErr c (some .ErrDeadlineExceeded) s
  | .deadlineObserver _ _ _, .ownDone, s => s

/-- One scheduling of a pending goroutine: if a case can proceed it runs and
the goroutine returns (it is no longer pending); otherwise nothing happens. -/
def State.observe (s : State) (g : Goroutine) (pick : Nat) : State :=
  if g ∈ s.goroutines then
    match g.select pick s with
    | none => s
    | some c => g.runCase c { s with goroutines := s.goroutines.erase g }
  else s

/-! ## Programs using the package -/

/-- What a client program holds: the package state, the contexts and the
cancel functions it has been handed. -/
structure World where
  st : State
  ctxs : List Context
  cancels : List CancelFunc

/-- The start of a program at clock reading `t0`: `Background()` and `TODO()`
both give `backgroundCtx`. -/
def World.init (t0 : Int) : World :=
  { st := { now := t0, nextChan := 0, closed := fun _ => false,
            err := fun _ => none, goroutines := [] },
    ctxs := [.backgroundCtx], cancels := [] }

/-- What can happen next: a derivation from a context the program holds, a
call of a cancel function it holds, a scheduling of a goroutine, the clock
advancing. -/
inductive Event where
  | withCancel (parent : Context)
  | withValue (parent : Context) (key val : GoAny)
  | withDeadline (parent : Context) (d : Int)
  | withTimeout (parent : Context) (timeout : Int)
  | cancel (f : CancelFunc)
  | observe (g : Goroutine) (pick : Nat)
  | tick (dt : Nat)
  deriving DecidableEq, Repr

/-- Records the result of a derivation that returns a cancel function; a
panic ends the program, so it adds no state. -/
def World.record (w : World) (r : Except String (Context × CancelFunc × State)) : World :=
  match r with
  | .error _ => w
  | .ok (c, f, s) => { st := s, ctxs := c :: w.ctxs, cancels := f :: w.cancels }

/-- The effect of one event.  An event that is not available (a context or
cancel function the program does not hold) changes nothing. -/
def World.step (w : World) : Event → World
  | .withCancel p =>
    if p ∈ w.ctxs then w.record (WithCancel (some p) w.st) else w
  | .withValue p k v =>
    if p ∈ w.ctxs then
      match WithValue (some p) k v with
      | .error _ => w
      | .ok c => { w with ctxs := c :: w.ctxs }
    else w
  | .withDeadline p d =>
    if p ∈ w.ctxs then w.record (WithDeadline (some p) d w.st) else w
  | .withTimeout p t =>
    if p ∈ w.ctxs then w.record (WithTimeout (some p) t w.st) else w
  | .cancel f =>
    if f ∈ w.cancels then { w with st := f.call w.st } else w
  | .observe g pick => { w with st := w.st.observe g pick }
  | .tick dt => { w with st := { w.st with now := w.st.now + dt } }

/-- Running a list of events, first to last. -/
def World.run (w : World) (evs : List Event) : World :=
  evs.foldl World.step w

/-! ## Specification-side definitions -/

/-- The key/value pairs bound by the value contexts on the path from a node to
the root, nearest first. -/
def Context.bindings : Context → List (GoAny × GoAny)
  | .backgroundCtx => []
  | .cancelCtx p _ => p.bindings
  | .valueCtx p k v => (k, v) :: p.bindings
  | .deadlineCtx p _ _ => p.bindings

/-- Whether `a == b` returns true. -/
def goEq (a b : GoAny) : Bool :=
  match ifaceEq a b with
  | .ok true => true
  | _ => false

/-- The value of the first binding whose key is `==` to `k`; nil when there
is none. -/
def nearest (k : GoAny) (bs : List (GoAny × GoAny)) : GoAny :=
  match bs.find? (fun b => goEq b.1 k) with
  | some b => b.2
  | none => .nil

/-- The parent reference of a node. -/
def Context.parent? : Context → Option Context
  | .backgroundCtx => none
  | .cancelCtx p _ => some p
  | .valueCtx p _ _ => some p
  | .deadlineCtx p _ _ => some p

/-- The node's own `done` channel (value contexts and the root have none). -/
def Context.ownChan : Context → Option Nat
  | .cancelCtx _ c => some c
  | .deadlineCtx _ c _ => some c
  | _ => none

/-- The `done` channel of the node a goroutine observes. -/
def Goroutine.chan : Goroutine → Nat
  | .cancelObserver _ c => c
  | .deadlineObserver _ c _ => c

/-- What holds of every world a program can reach. -/
structure Inv (w : World) : Prop where
  parent_mem : ∀ c ∈ w.ctxs, ∀ p, c.parent? = some p → p ∈ w.ctxs
  keys : ∀ p k v, Context.valueCtx p k v ∈ w.ctxs → k ≠ .nil ∧ k.comparable = true
  chan_lt : ∀ c ∈ w.ctxs, ∀ i, c.ownChan = some i → i < w.st.nextChan
  chan_inj : ∀ c ∈ w.ctxs, ∀ c2 ∈ w.ctxs, ∀ i,
    c.ownChan = some i → c2.ownChan = some i → c = c2
  err_iff : ∀ p i d, Context.deadlineCtx p i d ∈ w.ctxs →
    (w.st.err i = none ↔ w.st.closed i = false)
  cancel_c : ∀ i, CancelFunc.cancelCtx_close i ∈ w.cancels →
    ∃ p, Context.cancelCtx p i ∈ w.ctxs
  cancel_d : ∀ i, CancelFunc.deadlineCtx_close i ∈ w.cancels →
    ∃ p d, Context.deadlineCtx p i d ∈ w.ctxs
  gor_c : ∀ p i, Goroutine.cancelObserver p i ∈ w.st.goroutines →
    Context.cancelCtx p i ∈ w.ctxs
  gor_d : ∀ p i t, Goroutine.deadlineObserver p i t ∈ w.st.goroutines →
    ∃ d, Context.deadlineCtx p i d ∈ w.ctxs
  pending_c : ∀ p i, Context.cancelCtx p i ∈ w.ctxs →
    w.st.closed i = true ∨ Goroutine.cancelObserver p i ∈ w.st.goroutines
  pending_d : ∀ p i d, Context.deadlineCtx p i d ∈ w.ctxs →
    w.st.closed i = true ∨ ∃ t, Goroutine.deadlineObserver p i t ∈ w.st.goroutines
  gor_lt : ∀ g ∈ w.st.goroutines, g.chan < w.st.nextChan
  nodup : w.st.goroutines.Nodup

/-- The state `s2` extends `s`: channels allocated in `s` that are closed stay
closed and keep their `err` field. -/
def State.Extends (s s2 : State) : Prop :=
  s.nextChan ≤ s2.nextChan ∧
    ∀ j, j < s.nextChan → s.closed j = true → s2.closed j = true ∧ s2.err j = s.err j

/-- The cancel contexts `C1, ..., Cn` derived one below the other from `P`,
with `done` channels `ids`. -/
def chainNodes (P : Context) : List Nat → List Context
  | [] => []
  | i :: ids => .cancelCtx P i :: chainNodes (.cancelCtx P i) ids

/-- The observer goroutines of `C1, ..., Cn`, in that order. -/
def chainObservers (P : Context) : List Nat → List Goroutine
  | [] => []
  | i :: ids => .cancelObserver P i :: chainObservers (.cancelCtx P i) ids

/-- One scheduling of each observer of the chain, from `C1` down to `Cn`; the
`select` choices are `picks`. -/
def chainSchedule (P : Context) (ids picks : List Nat) : List Event :=
  List.zipWith Event.observe (chainObservers P ids) picks

/-- The node itself and its ancestors, up to the root. -/
def Context.ancestors : Context → List Context
  | .backgroundCtx => [.backgroundCtx]
  | .cancelCtx p i => .cancelCtx p i :: p.ancestors
  | .valueCtx p k v => .valueCtx p k v :: p.ancestors
  | .deadlineCtx p i d => .deadlineCtx p i d :: p.ancestors

/-- Whether the node is, or lies below, the node whose `done` channel is `i`. -/
def Context.under (i : Nat) (c : Context) : Bool :=
  c.ancestors.any (fun q => decide (q.ownChan = some i))

/-- The parent of the node a goroutine observes. -/
def Goroutine.parent : Goroutine → Context
  | .cancelObserver p _ => p
  | .deadlineObserver p _ _ => p

/-- Whether the node a goroutine observes is, or lies below, the node whose
`done` channel is `i`. -/
def Goroutine.under (i : Nat) (g : Goroutine) : Bool :=
  decide (g.chan = i) || g.parent.under i

/-- Two worlds that differ at most in the subtree of the node whose `done`
channel is `i`: same contexts, cancel functions, clock and allocator; the same
channel state, `err` fields and pending observers outside that subtree. -/
structure Sim (i : Nat) (a b : World) : Prop where
  inv_a : Inv a
  inv_b : Inv b
  ctxs_eq : a.ctxs = b.ctxs
  cancels_eq : a.cancels = b.cancels
  next_eq : a.st.nextChan = b.st.nextChan
  now_eq : a.st.now = b.st.now
  closed_eq : ∀ c ∈ a.ctxs, c.under i = false → ∀ j, c.ownChan = some j →
    a.st.closed j = b.st.closed j
  err_eq : ∀ c ∈ a.ctxs, c.under i = false → ∀ j, c.ownChan = some j →
    a.st.err j = b.st.err j
  gor_eq : ∀ g, g.under i = false → (g ∈ a.st.goroutines ↔ g ∈ b.st.goroutines)

/-- The world after a call of the cancel function `f`. -/
def World.call (w : World) (f : CancelFunc) : World :=
  { w with st := f.call w.st }

end GoCtx

namespace GoCtx

/-! ## Roots and panics -/

/-- The function `Background`. -/
def Background : Context := .backgroundCtx

/-- The function `TODO`. -/
def TODO : Context := .backgroundCtx

/-- Whether a call ended in a panic. -/
def panics {α : Type} : Except String α → Bool
  | .error _ => true
  | .ok _ => false

end GoCtx

/-! # The packages `ring` and `list`

Both packages build pointer structures.  A pointer is the address of a cell in
a heap (`none` is a nil pointer); allocation hands out fresh addresses.  Loops
that follow pointers are run with a step budget (`fuel`): `outOfFuel` is what a
loop that has not finished within the budget returns. -/

/-- How a call ends: it returns, it panics, or its loop is still running when
the step budget is used up. -/
inductive GoOutcome (α : Type) where
  | done (a : α)
  | panic (msg : String)
  | outOfFuel
  deriving DecidableEq, Repr

namespace GoRing

open GoCtx (GoAny setAt)

/-- The struct `Ring`. -/
structure Ring where
  Value : GoAny
  next : Option Nat
  prev : Option Nat
  deriving DecidableEq, Repr

/-- The zero value `Ring\x7b\x7d`. -/
def zeroRing : Ring := { Value := .nil, next := none, prev := none }

/-- The `Ring` cells allocated so far. -/
structure Heap where
  mem : Nat → Ring
  nextAddr : Nat

/-- The expression `&Ring\x7b\x7d`, and `var r Ring`: a fresh zero cell. -/
def Heap.alloc (h : Heap) : Nat × Heap :=
  (h.nextAddr, { mem := setAt h.mem h.nextAddr zeroRing, nextAddr := h.nextAddr + 1 })

/-- The assignment `a.next = v`. -/
def Heap.setNext (h : Heap) (a : Nat) (v : Option Nat) : Heap :=
  { h with mem := setAt h.mem a { h.mem a with next := v } }

/-- The assignment `a.prev = v`. -/
def Heap.setPrev (h : Heap) (a : Nat) (v : Option Nat) : Heap :=
  { h with mem := setAt h.mem a { h.mem a with prev := v } }

/-- The assignment `a.Value = v` (the field is exported). -/
def Heap.setValue (h : Heap) (a : Nat) (v : GoAny) : Heap :=
  { h with mem := setAt h.mem a { h.mem a with Value := v } }

/-- The function `empty`. -/
def empty (h : Heap) : Nat × Heap :=
  let (r, h1) := h.alloc
  let h2 := h1.setNext r (some r)
  let h3 := h2.setPrev r (some r)
  (r, h3)

/-- The loop of `New`, with the number of iterations still to run. -/
def newLoop : Nat → Nat → Heap → Nat × Heap
  | 0, cur, h => (cur, h)
  | k + 1, cur, h =>
    let (next, h1) := h.alloc
    let h2 := h1.setPrev next (some cur)
    let h3 := h2.setNext cur (some next)
    newLoop k next h3

/-- The function `New`.  The loop `for i := 1; i < n; i++` runs `n - 1` times,
and not at all when `n < 1`. -/
def New (n : Int) (h : Heap) : Nat × Heap :=
  let (r, h1) := empty h
  let (cur, h2) := newLoop (n - 1).toNat r h1
  let h3 := h2.setNext cur (some r)
  let h4 := h3.setPrev r (some cur)
  (r, h4)

/-- The method `Next`. -/
def Ring.Next (r : Nat) (h : Heap) : Nat × Heap :=
  match (h.mem r).next with
  | none => empty h
  | some x => (x, h)

/-- The method `Prev`. -/
def Ring.Prev (r : Nat) (h : Heap) : Nat × Heap :=
  match (h.mem r).prev with
  | none => empty h
  | some x => (x, h)

/-- The loop `for ...; rr != r; rr = rr.next` of `Len`. -/
def lenLoop : Nat → Heap → Nat → Option Nat → Nat → GoOutcome Nat
  | fuel, h, r, rr, count =>
    if rr = some r then .done count
    else
      match fuel, rr with
      | 0, _ => .outOfFuel
      | _ + 1, none => .panic "nil pointer dereference"
      | fuel + 1, some x => lenLoop fuel h r (h.mem x).next (count + 1)

/-- The method `Len`. -/
def Ring.Len (r : Nat) (h : Heap) (fuel : Nat) : GoOutcome Nat :=
  if (h.mem r).next = none then .done 1
  else
    let (rr, h1) := Ring.Next r h
    lenLoop fuel h1 r (some rr) 1

/-- The loop of `Do`.  What `f` does is a transformer of `σ`; `f` does not
write to the ring. -/
def doLoop {σ : Type} (f : GoAny → σ → σ) : Nat → Heap → Nat → Option Nat → σ → GoOutcome σ
  | fuel, h, r, rr, acc =>
    if rr = some r then .done acc
    else
      match fuel, rr with
      | 0, _ => .outOfFuel
      | _ + 1, none => .panic "nil pointer dereference"
      | fuel + 1, some x => doLoop f fuel h r (h.mem x).next (f (h.mem x).Value acc)

/-- The method `Do`. -/
def Ring.Do {σ : Type} (r : Nat) (h : Heap) (f : GoAny → σ → σ) (acc : σ) (fuel : Nat) :
    GoOutcome σ :=
  if (h.mem r).next = none then .done acc
  else
    let acc1 := f (h.mem r).Value acc
    let (rr, h1) := Ring.Next r h
    doLoop f fuel h1 r (some rr) acc1

/-! ### Specification side -/

/-- The index after `k` on a circle of `n` positions. -/
def succIdx (n k : Nat) : Nat := if k + 1 = n then 0 else k + 1

/-- The index before `k` on a circle of `n` positions. -/
def predIdx (n k : Nat) : Nat := if k = 0 then n - 1 else k - 1

/-- The cells `a, ..., a + n - 1` form a ring: each one's `next` is the
following cell, the last one's is the first; each one's `prev` is the cell
before, the first one's is the last. -/
def IsRing (h : Heap) (a n : Nat) : Prop :=
  ∀ k, k < n → (h.mem (a + k)).next = some (a + succIdx n k) ∧
    (h.mem (a + k)).prev = some (a + predIdx n k)

/-- The indices visited from `i` forwards until `j` is reached, `j` excluded. -/
def arc (n j : Nat) : Nat → Nat → List Nat
  | 0, _ => []
  | fuel + 1, i => if i = j then [] else i :: arc n j fuel (succIdx n i)

/-- An empty heap. -/
def Heap.init : Heap := { mem := fun _ => zeroRing, nextAddr := 0 }

end GoRing

namespace GoRing

/-- The result of `t` calls of `Next`, each on the result of the one before,
starting at `r`. -/
def nextN (t : Nat) (r : Nat) (h : Heap) : Nat × Heap :=
  (fun p : Nat × Heap => Ring.Next p.1 p.2)^[t] (r, h)

end GoRing

namespace GoRing

open GoCtx (GoAny)

/-- The `Value`s of the `n` elements met from `r` on in `Next` order, `r`
first. -/
def ringValues (h : Heap) (r n : Nat) : List GoAny :=
  (List.range n).map (fun t => (h.mem (nextN t r h).1).Value)

end GoRing

namespace GoList

open GoCtx (GoAny ifaceEq setAt)

/-- The struct `Element`. -/
structure Element where
  Value : GoAny
  next : Option Nat
  prev : Option Nat
  deriving DecidableEq, Repr

/-- The `Element` cells allocated so far. -/
structure Heap where
  mem : Nat → Element
  nextAddr : Nat

/-- The struct `List` (front and back pointers). -/
structure LinkedList where
  front : Option Nat
  back : Option Nat
  deriving DecidableEq, Repr

/-- The expression `&Element\x7bValue: v\x7d`: a fresh cell with nil links. -/
def Heap.alloc (h : Heap) (v : GoAny) : Nat × Heap :=
  (h.nextAddr,
   { mem := setAt h.mem h.nextAddr { Value := v, next := none, prev := none },
     nextAddr := h.nextAddr + 1 })

/-- The assignment `a.next = v`. -/
def Heap.setNext (h : Heap) (a : Nat) (v : Option Nat) : Heap :=
  { h with mem := setAt h.mem a { h.mem a with next := v } }

/-- The assignment `a.prev = v`. -/
def Heap.setPrev (h : Heap) (a : Nat) (v : Option Nat) : Heap :=
  { h with mem := setAt h.mem a { h.mem a with prev := v } }

/-- The method `Next`.  (Its call of the standard library's
`context.WithCancel`, whose result is dropped, does not touch the list.) -/
def Element.Next (e : Nat) (h : Heap) : Option Nat := (h.mem e).next

/-- The method `Prev`. -/
def Element.Prev (e : Nat) (h : Heap) : Option Nat := (h.mem e).prev

/-- The zero value of `List`. -/
def zeroList : LinkedList := { front := none, back := none }

/-- The method `Init`. -/
def LinkedList.Init (_l : LinkedList) : LinkedList := { front := none, back := none }

/-- The function `New`. -/
def New : LinkedList := zeroList.Init

/-- The method `Back`. -/
def LinkedList.Back (l : LinkedList) : Option Nat :=
  match l.back with
  | none => none
  | some b => some b

/-- The method `Front`. -/
def LinkedList.Front (l : LinkedList) : Option Nat :=
  match l.front with
  | none => none
  | some f => some f

/-- The loop of `Len`. -/
def lenLoop : Nat → Heap → Option Nat → Nat → GoOutcome Nat
  | _, _, none, count => .done count
  | 0, _, some _, _ => .outOfFuel
  | fuel + 1, h, some e, count => lenLoop fuel h (Element.Next e h) (count + 1)

/-- The method `Len`. -/
def LinkedList.Len (l : LinkedList) (h : Heap) (fuel : Nat) : GoOutcome Nat :=
  lenLoop fuel h l.Front 0

/-- The method `PushBack`: the new element, the list and the heap after. -/
def LinkedList.PushBack (l : LinkedList) (v : GoAny) (h : Heap) : Nat × LinkedList × Heap :=
  let (e, h1) := h.alloc v
  match l.back with
  | none => (e, { front := some e, back := some e }, h1)
  | some b =>
    let h2 := h1.setPrev e (some b)
    let h3 := h2.setNext b (some e)
    (e, { l with back := some e }, h3)

/-- The body of the `if ee.Value == e.Value` branch of `Remove`: unlink `ee`
and return its `Value`. -/
def unlink (l : LinkedList) (h : Heap) (ee : Nat) : GoAny × LinkedList × Heap :=
  let h1 := match (h.mem ee).prev with
    | some p => h.setNext p (h.mem ee).next
    | none => h
  let l1 := if l.front = some ee then { l with front := (h1.mem ee).next } else l
  let h2 := match (h1.mem ee).next with
    | some n => h1.setPrev n (h1.mem ee).prev
    | none => h1
  let l2 := if l1.back = some ee then { l1 with back := (h2.mem ee).prev } else l1
  ((h2.mem ee).Value, l2, h2)

/-- The loop of `Remove`; `e` is the (non-nil) argument, `ee` the loop
variable. -/
def removeLoop : Nat → LinkedList → Heap → Nat → Option Nat →
    GoOutcome (GoAny × LinkedList × Heap)
  | _, l, h, _, none => .done (.nil, l, h)
  | 0, _, _, _, some _ => .outOfFuel
  | fuel + 1, l, h, e, some ee =>
    match ifaceEq (h.mem ee).Value (h.mem e).Value with
    | .error msg => .panic msg
    | .ok true => .done (unlink l h ee)
    | .ok false => removeLoop fuel l h e (Element.Next ee h)

/-- The method `Remove`: the returned value, the list and the heap after. -/
def LinkedList.Remove (l : LinkedList) (e : Option Nat) (h : Heap) (fuel : Nat) :
    GoOutcome (GoAny × LinkedList × Heap) :=
  match e with
  | none => .done (.nil, l, h)
  | some ea =>
    if (h.mem ea).Value = .nil then .done (.nil, l, h)
    else removeLoop fuel l h ea l.Front

/-! ### Programs using a list -/

/-- A list and the heap its elements live in. -/
structure LState where
  l : LinkedList
  h : Heap

/-- An empty heap. -/
def Heap.init : Heap :=
  { mem := fun _ => { Value := .nil, next := none, prev := none }, nextAddr := 0 }

/-- The start: the list is `New()`, which is also the zero value. -/
def LState.init : LState := { l := New, h := Heap.init }

/-- What a program does with its list: the three mutating methods, and
making an element of its own (`&Element\x7bValue: v\x7d`) to pass to `Remove`. -/
inductive ListOp where
  | pushBack (v : GoAny)
  | remove (e : Option Nat)
  | init
  | newElement (v : GoAny)
  deriving DecidableEq, Repr

/-- The effect of one operation.  `Remove` runs with a step budget above the
number of cells; a call that panics ends the program and adds no state. -/
def LState.step (s : LState) : ListOp → LState
  | .pushBack v => { l := (s.l.PushBack v s.h).2.1, h := (s.l.PushBack v s.h).2.2 }
  | .remove e =>
    match s.l.Remove e s.h (s.h.nextAddr + 1) with
    | .done r => { l := r.2.1, h := r.2.2 }
    | _ => s
  | .init => { s with l := s.l.Init }
  | .newElement v => { s with h := (s.h.alloc v).2 }

/-- Running a list of operations, first to last. -/
def LState.run (s : LState) (ops : List ListOp) : LState :=
  ops.foldl LState.step s

/-! ### Specification side -/

/-- The cells met following `next` from `p`, in order; `none` when the walk
is still going after `fuel` cells. -/
def walkNext : Nat → Heap → Option Nat → Option (List Nat)
  | _, _, none => some []
  | 0, _, some _ => none
  | fuel + 1, h, some e => (walkNext fuel h (h.mem e).next).map (fun t => e :: t)

/-- The cells met following `prev` from `p`, in order. -/
def walkPrev : Nat → Heap → Option Nat → Option (List Nat)
  | _, _, none => some []
  | 0, _, some _ => none
  | fuel + 1, h, some e => (walkPrev fuel h (h.mem e).prev).map (fun t => e :: t)

/-- The front-to-back sequence of the list's `Value`s. -/
def LinkedList.values (l : LinkedList) (h : Heap) (fuel : Nat) : Option (List GoAny) :=
  (walkNext fuel h l.front).map (fun xs => xs.map (fun x => (h.mem x).Value))

/-- The cells `xs`, in this order, are the list `l` in heap `h`. -/
structure IsList (l : LinkedList) (h : Heap) (xs : List Nat) : Prop where
  front : l.front = xs[0]?
  back : l.back = xs[xs.length - 1]?
  nodup : xs.Nodup
  lt : ∀ x ∈ xs, x < h.nextAddr
  len_le : xs.length ≤ h.nextAddr
  next : ∀ k x, xs[k]? = some x → (h.mem x).next = xs[k + 1]?
  prev : ∀ k x, xs[k]? = some x → (h.mem x).prev = if k = 0 then none else xs[k - 1]?

end GoList

namespace GoCtx

/-! ## How the operations change the state -/

@[simp] theorem setAt_same {α : Type} (f : Nat → α) (i : Nat) (v : α) : setAt f i v i = v := by
  simp [setAt]

@[simp] theorem setAt_other {α : Type} (f : Nat → α) (i j : Nat) (v : α) (h : j ≠ i) :
    setAt f i v j = f j := by
  simp [setAt, h]

theorem cancelCtx_close_closed (i : Nat) (s : State) (j : Nat) :
    (cancelCtx_close i s).closed j = if j = i then true else s.closed j := by
  unfold cancelCtx_close
  by_cases h : s.closed i = true
  · simp only [h, if_true]
    by_cases hj : j = i
    · simp [hj, h]
    · simp [hj]
  · simp only [h]
    by_cases hj : j = i
    · simp [hj]
    · simp [hj, setAt]

@[simp] theorem cancelCtx_close_err (i : Nat) (s : State) : (cancelCtx_close i s).err = s.err := by
  unfold cancelCtx_close; split <;> rfl

@[simp] theorem cancelCtx_close_goroutines (i : Nat) (s : State) :
    (cancelCtx_close i s).goroutines = s.goroutines := by
  unfold cancelCtx_close; split <;> rfl

@[simp] theorem cancelCtx_close_nextChan (i : Nat) (s : State) :
    (cancelCtx_close i s).nextChan = s.nextChan := by
  unfold cancelCtx_close; split <;> rfl

@[simp] theorem cancelCtx_close_now (i : Nat) (s : State) :
    (cancelCtx_close i s).now = s.now := by
  unfold cancelCtx_close; split <;> rfl

theorem closeErr_closed (i : Nat) (e : Option GoError) (s : State) (j : Nat) :
    (deadlineCtx_closeErr i e s).closed j = if j = i then true else s.closed j := by
  unfold deadlineCtx_closeErr
  by_cases h : s.closed i = true
  · simp only [h, if_true]
    by_cases hj : j = i
    · simp [hj, h]
    · simp [hj]
  · simp only [h]
    by_cases hj : j = i
    · simp [hj]
    · simp [hj, setAt]

theorem closeErr_err (i : Nat) (e : Option GoError) (s : State) (j : Nat) :
    (deadlineCtx_closeErr i e s).err j =
      if j = i ∧ s.closed i = false then e else s.err j := by
  unfold deadlineCtx_closeErr
  by_cases h : s.closed i = true
  · simp [h]
  · simp only [h]
    by_cases hj : j = i
    · simp [hj, h]
    · simp [hj, setAt]

@[simp] theorem closeErr_goroutines (i : Nat) (e : Option GoError) (s : State) :
    (deadlineCtx_closeErr i e s).goroutines = s.goroutines := by
  unfold deadlineCtx_closeErr; split <;> rfl

@[simp] theorem closeErr_nextChan (i : Nat) (e : Option GoError) (s : State) :
    (deadlineCtx_closeErr i e s).nextChan = s.nextChan := by
  unfold deadlineCtx_closeErr; split <;> rfl

@[simp] theorem closeErr_now (i : Nat) (e : Option GoError) (s : State) :
    (deadlineCtx_closeErr i e s).now = s.now := by
  unfold deadlineCtx_closeErr; split <;> rfl

end GoCtx

namespace GoCtx

/-! ## The invariant holds in every reachable world -/

theorem inv_init (t0 : Int) : Inv (World.init t0) := by
  constructor <;> simp [World.init, Context.parent?, Context.ownChan]

/-- A firing of node `i` (or a step that fires nothing new) keeps the invariant. -/
theorem Inv.fire {w : World} (h : Inv w) (st2 : State) (i : Nat)
    (hnext : st2.nextChan = w.st.nextChan)
    (hclosed : ∀ j, st2.closed j = if j = i then true else w.st.closed j)
    (herr : ∀ j, j ≠ i → st2.err j = w.st.err j)
    (herr_i : ∀ p d, Context.deadlineCtx p i d ∈ w.ctxs → st2.err i ≠ none)
    (hsub : ∀ g ∈ st2.goroutines, g ∈ w.st.goroutines)
    (hkeep : ∀ g ∈ w.st.goroutines, g ∈ st2.goroutines ∨ g.chan = i)
    (hnodup : st2.goroutines.Nodup) :
    Inv { w with st := st2 } where
  parent_mem := h.parent_mem
  keys := h.keys
  chan_lt := by
    intro c hc j hj
    show j < st2.nextChan
    rw [hnext]; exact h.chan_lt c hc j hj
  chan_inj := h.chan_inj
  err_iff := by
    intro p j d hc
    show st2.err j = none ↔ st2.closed j = false
    by_cases hj : j = i
    · subst hj
      have h1 := herr_i p d hc
      have h2 := hclosed j
      simp at h2
      simp [h1, h2]
    · rw [herr j hj, hclosed j]
      simp only [hj, if_false]
      exact h.err_iff p j d hc
  cancel_c := h.cancel_c
  cancel_d := h.cancel_d
  gor_c := fun p j hg => h.gor_c p j (hsub _ hg)
  gor_d := fun p j t hg => h.gor_d p j t (hsub _ hg)
  pending_c := by
    intro p j hc
    show st2.closed j = true ∨ _ ∈ st2.goroutines
    rcases h.pending_c p j hc with h1 | h1
    · left; rw [hclosed j, h1]; simp
    · rcases hkeep _ h1 with h2 | h2
      · right; exact h2
      · left
        simp only [Goroutine.chan] at h2
        rw [hclosed j]; simp [h2]
  pending_d := by
    intro p j d hc
    show st2.closed j = true ∨ ∃ t, _ ∈ st2.goroutines
    rcases h.pending_d p j d hc with h1 | ⟨t, h1⟩
    · left; rw [hclosed j, h1]; simp
    · rcases hkeep _ h1 with h2 | h2
      · right; exact ⟨t, h2⟩
      · left
        simp only [Goroutine.chan] at h2
        rw [hclosed j]; simp [h2]
  gor_lt := by
    intro g hg
    show g.chan < st2.nextChan
    rw [hnext]; exact h.gor_lt g (hsub g hg)
  nodup := hnodup

/-- A step that touches neither channels nor `err` fields nor goroutines. -/
theorem Inv.frame {w : World} (h : Inv w) (st2 : State)
    (hnext : st2.nextChan = w.st.nextChan)
    (hclosed : st2.closed = w.st.closed)
    (herr : st2.err = w.st.err)
    (hgor : st2.goroutines = w.st.goroutines) :
    Inv { w with st := st2 } where
  parent_mem := h.parent_mem
  keys := h.keys
  chan_lt := by
    intro c hc j hj
    show j < st2.nextChan
    rw [hnext]; exact h.chan_lt c hc j hj
  chan_inj := h.chan_inj
  err_iff := by
    intro p j d hc
    show st2.err j = none ↔ st2.closed j = false
    rw [herr, hclosed]; exact h.err_iff p j d hc
  cancel_c := h.cancel_c
  cancel_d := h.cancel_d
  gor_c := by
    intro p j hg
    have hg2 : _ ∈ st2.goroutines := hg
    rw [hgor] at hg2; exact h.gor_c p j hg2
  gor_d := by
    intro p j t hg
    have hg2 : _ ∈ st2.goroutines := hg
    rw [hgor] at hg2; exact h.gor_d p j t hg2
  pending_c := by
    intro p j hc
    show st2.closed j = true ∨ _ ∈ st2.goroutines
    rw [hclosed, hgor]; exact h.pending_c p j hc
  pending_d := by
    intro p j d hc
    show st2.closed j = true ∨ ∃ t, _ ∈ st2.goroutines
    rw [hclosed, hgor]; exact h.pending_d p j d hc
  gor_lt := by
    intro g hg
    have hg2 : g ∈ st2.goroutines := hg
    show g.chan < st2.nextChan
    rw [hgor] at hg2
    rw [hnext]; exact h.gor_lt g hg2
  nodup := by
    show st2.goroutines.Nodup
    rw [hgor]; exact h.nodup

end GoCtx

namespace GoCtx

theorem inv_cancel {w : World} (h : Inv w) (f : CancelFunc) (hf : f ∈ w.cancels) :
    Inv { w with st := f.call w.st } := by
  cases f with
  | cancelCtx_close i =>
    obtain ⟨p, hp⟩ := h.cancel_c i hf
    refine h.fire _ i (by simp [CancelFunc.call]) (cancelCtx_close_closed i w.st)
      (by simp [CancelFunc.call]) ?_ (by simp [CancelFunc.call]) (fun g hg => Or.inl (by simpa [CancelFunc.call] using hg))
      (by simpa [CancelFunc.call] using h.nodup)
    intro p2 d hd
    have := h.chan_inj _ hp _ hd i rfl rfl
    cases this
  | deadlineCtx_close i =>
    obtain ⟨p, d, hp⟩ := h.cancel_d i hf
    refine h.fire _ i (by simp [CancelFunc.call, deadlineCtx_close])
      (closeErr_closed i _ w.st)
      (fun j hj => by simp [CancelFunc.call, deadlineCtx_close, closeErr_err, hj]) ?_
      (by simp [CancelFunc.call, deadlineCtx_close])
      (fun g hg => Or.inl (by simpa [CancelFunc.call, deadlineCtx_close] using hg))
      (by simpa [CancelFunc.call, deadlineCtx_close] using h.nodup)
    intro p2 d2 hd
    simp only [CancelFunc.call, deadlineCtx_close, closeErr_err]
    by_cases hc : w.st.closed i = false
    · simp [hc]
    · simp only [hc, and_false, if_false]
      intro hn
      exact hc ((h.err_iff p2 i d2 hd).1 hn)

theorem mem_readyCases {g : Goroutine} {c : SelectCase} {s : State} :
    c ∈ g.readyCases s ↔ g.ready c s = true := by
  cases c <;> simp [Goroutine.readyCases]

theorem select_ready {g : Goroutine} {pick : Nat} {s : State} {c : SelectCase}
    (h : g.select pick s = some c) : g.ready c s = true := by
  unfold Goroutine.select at h
  exact mem_readyCases.1 (List.get?_mem h)

theorem inv_observe {w : World} (h : Inv w) (g : Goroutine) (pick : Nat) :
    Inv { w with st := w.st.observe g pick } := by
  unfold State.observe
  by_cases hg : g ∈ w.st.goroutines
  · rw [if_pos hg]
    cases hsel : g.select pick w.st with
    | none => exact h.frame _ rfl rfl rfl rfl
    | some c =>
      dsimp only
      have hr := select_ready hsel
      have hsub : ∀ g2 ∈ w.st.goroutines.erase g, g2 ∈ w.st.goroutines :=
        fun g2 h2 => List.mem_of_mem_erase h2
      have hkeep : ∀ g2 ∈ w.st.goroutines, g2 ∈ w.st.goroutines.erase g ∨ g2.chan = g.chan := by
        intro g2 h2
        by_cases he : g2 = g
        · right; rw [he]
        · left; exact (List.mem_erase_of_ne he).2 h2
      have hnd : (w.st.goroutines.erase g).Nodup := h.nodup.erase g
      cases g with
      | cancelObserver p i =>
        have hp := h.gor_c p i hg
        have herr_i : ∀ p2 d, Context.deadlineCtx p2 i d ∈ w.ctxs → w.st.err i ≠ none := by
          intro p2 d hd
          have := h.chan_inj _ hp _ hd i rfl rfl
          cases this
        cases c with
        | parentDone =>
          refine h.fire _ i (by simp [Goroutine.runCase]) ?_ (by simp [Goroutine.runCase])
            (by simpa [Goroutine.runCase] using herr_i)
            (by simpa [Goroutine.runCase] using hsub)
            (by simpa [Goroutine.runCase, Goroutine.chan] using hkeep)
            (by simpa [Goroutine.runCase] using hnd)
          intro j
          simp [Goroutine.runCase, cancelCtx_close_closed]
        | timer => simp [Goroutine.ready] at hr
        | ownDone =>
          simp only [Goroutine.ready] at hr
          refine h.fire _ i rfl ?_ (fun _ _ => rfl) herr_i hsub
            (by simpa [Goroutine.chan] using hkeep) hnd
          intro j
          by_cases hj : j = i
          · simp [Goroutine.runCase, hj, hr]
          · simp [Goroutine.runCase, hj]
      | deadlineObserver p i t =>
        obtain ⟨d, hp⟩ := h.gor_d p i t hg
        have hold : ∀ p2 d2, Context.deadlineCtx p2 i d2 ∈ w.ctxs →
            w.st.closed i = true → w.st.err i ≠ none := by
          intro p2 d2 hd hc hn
          have := (h.err_iff p2 i d2 hd).1 hn
          simp [hc] at this
        have key : ∀ e : GoError, Inv (World.mk (deadlineCtx_closeErr i (some e)
            (State.mk w.st.now w.st.nextChan w.st.closed w.st.err
              (w.st.goroutines.erase (.deadlineObserver p i t)))) w.ctxs w.cancels) := by
          intro e
          refine h.fire _ i (by simp) ?_ ?_ ?_ (by simpa using hsub)
            (by simpa [Goroutine.chan] using hkeep) (by simpa using hnd)
          · intro j; simp [closeErr_closed]
          · intro j hj; simp [closeErr_err, hj]
          · intro p2 d2 hd
            simp only [closeErr_err]
            by_cases hc : w.st.closed i = false
            · simp [hc]
            · simp only [hc, and_false, if_false]
              exact hold p2 d2 hd (by simpa using hc)
        cases c with
        | parentDone => exact key _
        | timer => exact key _
        | ownDone =>
          simp only [Goroutine.ready] at hr
          refine h.fire _ i rfl ?_ (fun _ _ => rfl) (fun p2 d2 hd => hold p2 d2 hd hr) hsub
            (by simpa [Goroutine.chan] using hkeep) hnd
          intro j
          by_cases hj : j = i
          · simp [Goroutine.runCase, hj, hr]
          · simp [Goroutine.runCase, hj]
  · rw [if_neg hg]
    exact h.frame _ rfl rfl rfl rfl

end GoCtx

namespace GoCtx

theorem inv_withValue {w : World} (h : Inv w) (p : Context) (k v : GoAny)
    (hp : p ∈ w.ctxs) (hk : k ≠ .nil) (hcmp : k.comparable = true) :
    Inv { w with ctxs := .valueCtx p k v :: w.ctxs } where
  parent_mem := by
    intro c hc q hq
    rcases List.mem_cons.1 hc with rfl | hc
    · simp only [Context.parent?, Option.some.injEq] at hq
      subst hq
      exact List.mem_cons_of_mem _ hp
    · exact List.mem_cons_of_mem _ (h.parent_mem c hc q hq)
  keys := by
    intro q k2 v2 hc
    rcases List.mem_cons.1 hc with heq | hc
    · cases heq; exact ⟨hk, hcmp⟩
    · exact h.keys q k2 v2 hc
  chan_lt := by
    intro c hc i hi
    rcases List.mem_cons.1 hc with rfl | hc
    · simp [Context.ownChan] at hi
    · exact h.chan_lt c hc i hi
  chan_inj := by
    intro c hc c2 hc2 i hi hi2
    rcases List.mem_cons.1 hc with rfl | hc
    · simp [Context.ownChan] at hi
    · rcases List.mem_cons.1 hc2 with rfl | hc2
      · simp [Context.ownChan] at hi2
      · exact h.chan_inj c hc c2 hc2 i hi hi2
  err_iff := by
    intro q i d hc
    rcases List.mem_cons.1 hc with heq | hc
    · cases heq
    · exact h.err_iff q i d hc
  cancel_c := fun i hi => (h.cancel_c i hi).imp fun _ hq => List.mem_cons_of_mem _ hq
  cancel_d := fun i hi =>
    (h.cancel_d i hi).imp fun _ hq => hq.imp fun _ hq2 => List.mem_cons_of_mem _ hq2
  gor_c := fun q i hg => List.mem_cons_of_mem _ (h.gor_c q i hg)
  gor_d := fun q i t hg => (h.gor_d q i t hg).imp fun _ hq => List.mem_cons_of_mem _ hq
  pending_c := by
    intro q i hc
    rcases List.mem_cons.1 hc with heq | hc
    · cases heq
    · exact h.pending_c q i hc
  pending_d := by
    intro q i d hc
    rcases List.mem_cons.1 hc with heq | hc
    · cases heq
    · exact h.pending_d q i d hc
  gor_lt := h.gor_lt
  nodup := h.nodup

/-- Allocation of a node with a fresh `done` channel keeps the invariant. -/
theorem Inv.alloc {w : World} (h : Inv w) (c p : Context) (f : CancelFunc) (st2 : State)
    (gs : List Goroutine)
    (hp : p ∈ w.ctxs) (hpar : c.parent? = some p)
    (hown : c.ownChan = some w.st.nextChan)
    (hnext : st2.nextChan = w.st.nextChan + 1)
    (hclosed : ∀ j, j ≠ w.st.nextChan → st2.closed j = w.st.closed j)
    (herr : ∀ j, j ≠ w.st.nextChan → st2.err j = w.st.err j)
    (herrn : st2.err w.st.nextChan = none ↔ st2.closed w.st.nextChan = false)
    (hgor : st2.goroutines = gs ++ w.st.goroutines)
    (hgs_c : ∀ q i, Goroutine.cancelObserver q i ∈ gs → c = .cancelCtx q i)
    (hgs_d : ∀ q i t, Goroutine.deadlineObserver q i t ∈ gs → ∃ d, c = .deadlineCtx q i d)
    (hgs_nodup : gs.Nodup)
    (hf_c : ∀ i, f = .cancelCtx_close i → ∃ q, c = .cancelCtx q i)
    (hf_d : ∀ i, f = .deadlineCtx_close i → ∃ q d, c = .deadlineCtx q i d)
    (hpend : ∀ q i, c = .cancelCtx q i → Goroutine.cancelObserver q i ∈ gs)
    (hpend_d : ∀ q i d, c = .deadlineCtx q i d →
      st2.closed i = true ∨ ∃ t, Goroutine.deadlineObserver q i t ∈ gs) :
    Inv { st := st2, ctxs := c :: w.ctxs, cancels := f :: w.cancels } := by
  have hfresh : ∀ c2 ∈ w.ctxs, c2.ownChan ≠ some w.st.nextChan := by
    intro c2 hc2 he
    exact Nat.lt_irrefl _ (h.chan_lt c2 hc2 _ he)
  have hgchan : ∀ g ∈ gs, g.chan = w.st.nextChan := by
    intro g hg
    cases g with
    | cancelObserver q i =>
      have := hgs_c q i hg
      subst this
      simp only [Context.ownChan, Option.some.injEq] at hown
      simp [Goroutine.chan, hown]
    | deadlineObserver q i t =>
      obtain ⟨d, hd⟩ := hgs_d q i t hg
      subst hd
      simp only [Context.ownChan, Option.some.injEq] at hown
      simp [Goroutine.chan, hown]
  constructor
  · intro c2 hc2 q hq
    rcases List.mem_cons.1 hc2 with rfl | hc2
    · rw [hpar] at hq; cases hq
      exact List.mem_cons_of_mem _ hp
    · exact List.mem_cons_of_mem _ (h.parent_mem c2 hc2 q hq)
  · intro q k v hc
    rcases List.mem_cons.1 hc with heq | hc
    · rw [← heq] at hown; simp [Context.ownChan] at hown
    · exact h.keys q k v hc
  · intro c2 hc2 i hi
    show i < st2.nextChan
    rw [hnext]
    rcases List.mem_cons.1 hc2 with rfl | hc2
    · rw [hown] at hi; cases hi; exact Nat.lt_succ_self _
    · exact Nat.lt_succ_of_lt (h.chan_lt c2 hc2 i hi)
  · intro c1 hc1 c2 hc2 i hi1 hi2
    rcases List.mem_cons.1 hc1 with he1 | hm1
    · rcases List.mem_cons.1 hc2 with he2 | hm2
      · rw [he1, he2]
      · rw [he1, hown] at hi1; cases hi1
        exact absurd hi2 (hfresh c2 hm2)
    · rcases List.mem_cons.1 hc2 with he2 | hm2
      · rw [he2, hown] at hi2; cases hi2
        exact absurd hi1 (hfresh c1 hm1)
      · exact h.chan_inj c1 hm1 c2 hm2 i hi1 hi2
  · intro q i d hc
    show st2.err i = none ↔ st2.closed i = false
    rcases List.mem_cons.1 hc with heq | hc
    · rw [← heq] at hown
      simp only [Context.ownChan, Option.some.injEq] at hown
      rw [hown]; exact herrn
    · have hne : i ≠ w.st.nextChan := Nat.ne_of_lt (h.chan_lt _ hc i rfl)
      rw [herr i hne, hclosed i hne]
      exact h.err_iff q i d hc
  · intro i hi
    rcases List.mem_cons.1 hi with heq | hi
    · obtain ⟨q, hq⟩ := hf_c i heq.symm
      exact ⟨q, by rw [hq]; exact List.mem_cons_self _ _⟩
    · exact (h.cancel_c i hi).imp fun _ hq => List.mem_cons_of_mem _ hq
  · intro i hi
    rcases List.mem_cons.1 hi with heq | hi
    · obtain ⟨q, d, hq⟩ := hf_d i heq.symm
      exact ⟨q, d, by rw [hq]; exact List.mem_cons_self _ _⟩
    · exact (h.cancel_d i hi).imp fun _ hq => hq.imp fun _ hq2 => List.mem_cons_of_mem _ hq2
  · intro q i hg
    have hg2 : _ ∈ st2.goroutines := hg
    rw [hgor] at hg2
    rcases List.mem_append.1 hg2 with hg2 | hg2
    · rw [hgs_c q i hg2]; exact List.mem_cons_self _ _
    · exact List.mem_cons_of_mem _ (h.gor_c q i hg2)
  · intro q i t hg
    have hg2 : _ ∈ st2.goroutines := hg
    rw [hgor] at hg2
    rcases List.mem_append.1 hg2 with hg2 | hg2
    · obtain ⟨d, hd⟩ := hgs_d q i t hg2
      exact ⟨d, by rw [hd]; exact List.mem_cons_self _ _⟩
    · exact (h.gor_d q i t hg2).imp fun _ hq => List.mem_cons_of_mem _ hq
  · intro q i hc
    show st2.closed i = true ∨ _ ∈ st2.goroutines
    rw [hgor]
    rcases List.mem_cons.1 hc with heq | hc
    · right; exact List.mem_append_left _ (hpend q i heq.symm)
    · have hne : i ≠ w.st.nextChan := Nat.ne_of_lt (h.chan_lt _ hc i rfl)
      rw [hclosed i hne]
      exact (h.pending_c q i hc).imp id fun hq => List.mem_append_right _ hq
  · intro q i d hc
    show st2.closed i = true ∨ ∃ t, _ ∈ st2.goroutines
    rw [hgor]
    rcases List.mem_cons.1 hc with heq | hc
    · exact (hpend_d q i d heq.symm).imp id
        fun ⟨t, ht⟩ => ⟨t, List.mem_append_left _ ht⟩
    · have hne : i ≠ w.st.nextChan := Nat.ne_of_lt (h.chan_lt _ hc i rfl)
      rw [hclosed i hne]
      exact (h.pending_d q i d hc).imp id
        fun ⟨t, ht⟩ => ⟨t, List.mem_append_right _ ht⟩
  · intro g hg
    have hg2 : g ∈ st2.goroutines := hg
    show g.chan < st2.nextChan
    rw [hgor] at hg2
    rw [hnext]
    rcases List.mem_append.1 hg2 with hg2 | hg2
    · rw [hgchan g hg2]; exact Nat.lt_succ_self _
    · exact Nat.lt_succ_of_lt (h.gor_lt g hg2)
  · show st2.goroutines.Nodup
    rw [hgor]
    refine List.Nodup.append hgs_nodup h.nodup ?_
    intro g hg1 hg2
    have := h.gor_lt g hg2
    rw [hgchan g hg1] at this
    exact Nat.lt_irrefl _ this

end GoCtx

namespace GoCtx

theorem inv_withCancel {w : World} (h : Inv w) (p : Context) (hp : p ∈ w.ctxs) :
    Inv (w.record (WithCancel (some p) w.st)) := by
  refine h.alloc (.cancelCtx p w.st.nextChan) p (.cancelCtx_close w.st.nextChan) _
    [.cancelObserver p w.st.nextChan] hp rfl rfl rfl ?_ ?_ ?_ rfl ?_ ?_ ?_ ?_ ?_ ?_ ?_
  · intro j hj; simp [State.makeChan, State.spawn, hj]
  · intro j hj; simp [State.makeChan, State.spawn, hj]
  · simp [State.makeChan, State.spawn]
  · intro q i hg; simp at hg; simp [hg]
  · intro q i t hg; simp at hg
  · simp
  · intro i hi; cases hi; exact ⟨p, rfl⟩
  · intro i hi; cases hi
  · intro q i hc; cases hc; simp
  · intro q i d hc; cases hc

theorem inv_withTimeout {w : World} (h : Inv w) (p : Context) (t : Int) (hp : p ∈ w.ctxs) :
    Inv (w.record (WithTimeout (some p) t w.st)) := by
  refine h.alloc (.deadlineCtx p w.st.nextChan (w.st.now + t)) p
    (.deadlineCtx_close w.st.nextChan) _
    [.deadlineObserver p w.st.nextChan (w.st.now + t)] hp rfl rfl rfl ?_ ?_ ?_ rfl ?_ ?_ ?_ ?_ ?_ ?_ ?_
  · intro j hj; simp [State.makeChan, State.spawn, hj]
  · intro j hj; simp [State.makeChan, State.spawn, hj]
  · simp [State.makeChan, State.spawn]
  · intro q i hg; simp at hg
  · intro q i t2 hg; simp at hg; obtain ⟨h1, h2, _⟩ := hg; subst h1 h2; exact ⟨_, rfl⟩
  · simp
  · intro i hi; cases hi
  · intro i hi; cases hi; exact ⟨p, _, rfl⟩
  · intro q i hc; cases hc
  · intro q i d hc; cases hc; right; exact ⟨_, List.mem_cons_self _ _⟩

theorem inv_withDeadline {w : World} (h : Inv w) (p : Context) (d : Int) (hp : p ∈ w.ctxs) :
    Inv (w.record (WithDeadline (some p) d w.st)) := by
  by_cases hd : d < w.st.now
  · have hrec : w.record (WithDeadline (some p) d w.st) =
        { st := { now := w.st.now, nextChan := w.st.nextChan + 1,
                  closed := setAt (setAt w.st.closed w.st.nextChan false) w.st.nextChan true,
                  err := setAt (setAt w.st.err w.st.nextChan none) w.st.nextChan
                    (some .ErrDeadlineExceeded),
                  goroutines := w.st.goroutines },
          ctxs := .deadlineCtx p w.st.nextChan d :: w.ctxs,
          cancels := .deadlineCtx_close w.st.nextChan :: w.cancels } := by
      simp [WithDeadline, hd, State.makeChan, World.record]
    rw [hrec]
    refine h.alloc (.deadlineCtx p w.st.nextChan d) p (.deadlineCtx_close w.st.nextChan) _
      [] hp rfl rfl rfl ?_ ?_ ?_ rfl ?_ ?_ ?_ ?_ ?_ ?_ ?_
    · intro j hj; simp [hj]
    · intro j hj; simp [hj]
    · simp
    · intro q i hg; simp at hg
    · intro q i t2 hg; simp at hg
    · simp
    · intro i hi; cases hi
    · intro i hi; cases hi; exact ⟨p, _, rfl⟩
    · intro q i hc; cases hc
    · intro q i d2 hc; cases hc; left; simp
  · have hrec : w.record (WithDeadline (some p) d w.st) =
        { st := (w.st.makeChan.2).spawn
            (.deadlineObserver p w.st.nextChan (w.st.now + (d - w.st.now))),
          ctxs := .deadlineCtx p w.st.nextChan d :: w.ctxs,
          cancels := .deadlineCtx_close w.st.nextChan :: w.cancels } := by
      simp [WithDeadline, hd, State.makeChan, World.record]
    rw [hrec]
    refine h.alloc (.deadlineCtx p w.st.nextChan d) p (.deadlineCtx_close w.st.nextChan) _
      [.deadlineObserver p w.st.nextChan (w.st.now + (d - w.st.now))]
      hp rfl rfl rfl ?_ ?_ ?_ rfl ?_ ?_ ?_ ?_ ?_ ?_ ?_
    · intro j hj; simp [State.makeChan, State.spawn, hj]
    · intro j hj; simp [State.makeChan, State.spawn, hj]
    · simp [State.makeChan, State.spawn]
    · intro q i hg; simp at hg
    · intro q i t2 hg; simp at hg; obtain ⟨h1, h2, _⟩ := hg; subst h1 h2; exact ⟨_, rfl⟩
    · simp
    · intro i hi; cases hi
    · intro i hi; cases hi; exact ⟨p, _, rfl⟩
    · intro q i hc; cases hc
    · intro q i d2 hc; cases hc; right; exact ⟨_, List.mem_cons_self _ _⟩

theorem inv_step {w : World} (h : Inv w) (e : Event) : Inv (w.step e) := by
  cases e with
  | withCancel p =>
    simp only [World.step]
    split
    · exact inv_withCancel h p (by assumption)
    · exact h
  | withValue p k v =>
    simp only [World.step]
    by_cases hp : p ∈ w.ctxs
    · rw [if_pos hp]
      by_cases hk : k = .nil
      · simpa [WithValue, hk] using h
      · by_cases hc : k.comparable = true
        · simpa [WithValue, hk, hc] using inv_withValue h p k v hp hk hc
        · simpa [WithValue, hk, hc] using h
    · rw [if_neg hp]; exact h
  | withDeadline p d =>
    simp only [World.step]
    split
    · exact inv_withDeadline h p d (by assumption)
    · exact h
  | withTimeout p t =>
    simp only [World.step]
    split
    · exact inv_withTimeout h p t (by assumption)
    · exact h
  | cancel f =>
    simp only [World.step]
    split
    · exact inv_cancel h f (by assumption)
    · exact h
  | observe g pick => exact inv_observe h g pick
  | tick dt => exact h.frame _ rfl rfl rfl rfl

theorem World.run_nil (w : World) : w.run [] = w := rfl

theorem World.run_cons (w : World) (e : Event) (evs : List Event) :
    w.run (e :: evs) = (w.step e).run evs := rfl

theorem World.run_append (w : World) (evs1 evs2 : List Event) :
    w.run (evs1 ++ evs2) = (w.run evs1).run evs2 := by
  simp [World.run, List.foldl_append]

theorem inv_run {w : World} (h : Inv w) (evs : List Event) : Inv (w.run evs) := by
  induction evs generalizing w with
  | nil => exact h
  | cons e evs ih => exact ih (inv_step h e)

theorem inv_reachable (t0 : Int) (evs : List Event) : Inv ((World.init t0).run evs) :=
  inv_run (inv_init t0) evs

end GoCtx

namespace GoCtx

/-! ## Value lookup -/

theorem value_found (k : GoAny) (hk : k ≠ .nil) :
    ∀ (c : Context) (pre : List (GoAny × GoAny)) (b : GoAny × GoAny)
      (post : List (GoAny × GoAny)),
      c.bindings = pre ++ b :: post → (∀ a ∈ pre, ifaceEq a.1 k = .ok false) →
      ifaceEq b.1 k = .ok true → c.Value k = .ok b.2 := by
  intro c
  induction c with
  | backgroundCtx =>
    intro pre b post h
    simp [Context.bindings] at h
  | cancelCtx p i ih =>
    intro pre b post h h1 h2
    simpa [Context.Value] using ih pre b post (by simpa [Context.bindings] using h) h1 h2
  | valueCtx p k2 v ih =>
    intro pre b post h h1 h2
    simp only [Context.bindings] at h
    cases pre with
    | nil =>
      simp only [List.nil_append, List.cons.injEq] at h
      obtain ⟨hb, _⟩ := h
      subst hb
      simp only at h2
      simp [Context.Value, hk, h2]
    | cons a pre =>
      simp only [List.cons_append, List.cons.injEq] at h
      obtain ⟨ha, hrest⟩ := h
      subst ha
      have h3 := h1 (k2, v) (List.mem_cons_self _ _)
      simp only at h3
      simp only [Context.Value, if_neg hk, h3]
      exact ih pre b post hrest (fun a ha => h1 a (List.mem_cons_of_mem _ ha)) h2
  | deadlineCtx p i d ih =>
    intro pre b post h h1 h2
    simpa [Context.Value] using ih pre b post (by simpa [Context.bindings] using h) h1 h2

theorem value_not_found (k : GoAny) (hk : k ≠ .nil) :
    ∀ c : Context, (∀ a ∈ c.bindings, ifaceEq a.1 k = .ok false) → c.Value k = .ok .nil := by
  intro c
  induction c with
  | backgroundCtx => intro _; rfl
  | cancelCtx p i ih =>
    intro h
    simpa [Context.Value] using ih (by simpa [Context.bindings] using h)
  | valueCtx p k2 v ih =>
    intro h
    have h3 := h (k2, v) (by simp [Context.bindings])
    simp only at h3
    simp only [Context.Value, if_neg hk, h3]
    exact ih (fun a ha => h a (by simp [Context.bindings, ha]))
  | deadlineCtx p i d ih =>
    intro h
    simpa [Context.Value] using ih (by simpa [Context.bindings] using h)

theorem value_eq_nearest (k : GoAny) (hk : k ≠ .nil) :
    ∀ c : Context, (∀ a ∈ c.bindings, ∀ msg, ifaceEq a.1 k ≠ .error msg) →
      c.Value k = .ok (nearest k c.bindings) := by
  intro c
  induction c with
  | backgroundCtx => intro _; rfl
  | cancelCtx p i ih =>
    intro h
    simpa [Context.Value, Context.bindings] using ih (by simpa [Context.bindings] using h)
  | valueCtx p k2 v ih =>
    intro h
    have h3 := h (k2, v) (by simp [Context.bindings])
    simp only at h3
    have ihp := ih (fun a ha => h a (by simp [Context.bindings, ha]))
    cases hq : ifaceEq k2 k with
    | error msg => exact absurd hq (h3 msg)
    | ok r =>
      cases r with
      | true => simp [Context.Value, hk, hq, Context.bindings, nearest, goEq]
      | false =>
        simp only [Context.Value, if_neg hk, hq, Context.bindings]
        rw [ihp]
        simp [nearest, List.find?, goEq, hq]
  | deadlineCtx p i d ih =>
    intro h
    simpa [Context.Value, Context.bindings] using ih (by simpa [Context.bindings] using h)

/-- C1, as stated, fails for a key of a comparable type whose `==` panics:
`WithValue(Background(), [1]any\x7b[]int\x7b1\x7d\x7d, 7)` passes the `reflect` check
and returns a value context, the program holds it, and `Value` of the same
non-nil key panics in `v.key == key` instead of returning 7. -/
theorem value_panics_on_array_key :
    WithValue (some .backgroundCtx) (.array1 (.slice [1])) (.int 7) =
      .ok (.valueCtx .backgroundCtx (.array1 (.slice [1])) (.int 7)) ∧
    Context.valueCtx .backgroundCtx (.array1 (.slice [1])) (.int 7) ∈
      ((World.init 0).run [.withValue .backgroundCtx (.array1 (.slice [1])) (.int 7)]).ctxs ∧
    GoAny.array1 (.slice [1]) ≠ .nil ∧
    (Context.valueCtx .backgroundCtx (.array1 (.slice [1])) (.int 7)).Value
        (.array1 (.slice [1])) =
      .error "runtime error: comparing uncomparable type []int" := by
  refine ⟨rfl, by decide, by decide, rfl⟩

/-- C1, amended: for every context a program can build from the root by
`WithValue`, `WithCancel`, `WithDeadline` and `WithTimeout`, and every non-nil
key `k`: if the keys of the value contexts nearer than some value context on
the path compare unequal to `k` and that context's key compares equal, then
`Value(k)` returns that context's value (a later binding shadows an earlier
one); if every key on the path compares unequal to `k`, `Value(k)` returns nil;
and whenever no comparison of `k` with a key on the path panics, `Value(k)` is
the value of the nearest binding whose key is `==` to `k`, nil when there is
none. -/
theorem value_returns_nearest_binding (t0 : Int) (evs : List Event) (c : Context) (k : GoAny)
    (hc : c ∈ ((World.init t0).run evs).ctxs) (hk : k ≠ .nil) :
    (∀ (pre : List (GoAny × GoAny)) (b : GoAny × GoAny) (post : List (GoAny × GoAny)),
      c.bindings = pre ++ b :: post → (∀ a ∈ pre, ifaceEq a.1 k = .ok false) →
      ifaceEq b.1 k = .ok true → c.Value k = .ok b.2) ∧
    ((∀ a ∈ c.bindings, ifaceEq a.1 k = .ok false) → c.Value k = .ok .nil) ∧
    ((∀ a ∈ c.bindings, ∀ msg, ifaceEq a.1 k ≠ .error msg) →
      c.Value k = .ok (nearest k c.bindings)) :=
  have _ := hc
  ⟨value_found k hk c, value_not_found k hk c, value_eq_nearest k hk c⟩

/-- Witness for C1: the spec's example, `"a"` bound to 1, then `"b"` to 2 below
a cancel context, then `"a"` shadowed by 9; the lookup of `"a"` returns 9. -/
theorem value_returns_nearest_binding_witness :
    (Context.valueCtx (.valueCtx (.cancelCtx (.valueCtx .backgroundCtx (.str "a") (.int 1)) 0)
        (.str "b") (.int 2)) (.str "a") (.int 9)).Value (.str "a") = .ok (.int 9) :=
  (value_returns_nearest_binding 0
    [.withValue .backgroundCtx (.str "a") (.int 1),
     .withCancel (.valueCtx .backgroundCtx (.str "a") (.int 1)),
     .withValue (.cancelCtx (.valueCtx .backgroundCtx (.str "a") (.int 1)) 0) (.str "b") (.int 2),
     .withValue (.valueCtx (.cancelCtx (.valueCtx .backgroundCtx (.str "a") (.int 1)) 0)
        (.str "b") (.int 2)) (.str "a") (.int 9)]
    _ (.str "a") (by decide) (by decide)).1 [] (.str "a", .int 9)
      [(.str "b", .int 2), (.str "a", .int 1)] rfl (fun _ ha => nomatch ha) rfl

end GoCtx

namespace GoCtx

/-! ## `Err` and `Done` -/

theorem err_nil_iff_of_inv {w : World} (h : Inv w) :
    ∀ c : Context, c ∈ w.ctxs → (c.Err w.st = none ↔ c.fired w.st = false) := by
  intro c
  induction c with
  | backgroundCtx => intro _; simp [Context.Err, Context.fired, Context.Done, chanReady]
  | cancelCtx p i ih =>
    intro _
    by_cases hcl : w.st.closed i = true <;>
      simp [Context.Err, Context.fired, Context.Done, chanReady, hcl]
  | valueCtx p k v ih =>
    intro hc
    have hp := h.parent_mem _ hc p rfl
    simpa [Context.Err, Context.fired, Context.Done] using ih hp
  | deadlineCtx p i d ih =>
    intro hc
    simpa [Context.Err, Context.fired, Context.Done, chanReady] using h.err_iff p i d hc

/-- C2: in every state a program can reach (derivations, including the
past-deadline path of `WithDeadline`, calls of cancel functions, observer
goroutines taking the parent case or the timer case, clock ticks), for every
context the program holds (root, cancel, value, deadline), `Err()` is nil
exactly when the context's `Done()` channel has not been closed. -/
theorem err_nil_iff_done_open (t0 : Int) (evs : List Event) (c : Context)
    (hc : c ∈ ((World.init t0).run evs).ctxs) :
    c.Err ((World.init t0).run evs).st = none ↔ c.fired ((World.init t0).run evs).st = false :=
  err_nil_iff_of_inv (inv_reachable t0 evs) c hc

/-- Witness for C2: a deadline context below a cancel context whose cancel
function has been called and whose observer has run. -/
theorem err_nil_iff_done_open_witness :
    (Context.deadlineCtx (.cancelCtx .backgroundCtx 0) 1 10).Err ((World.init 0).run
        [.withCancel .backgroundCtx, .withTimeout (.cancelCtx .backgroundCtx 0) 10,
         .cancel (.cancelCtx_close 0),
         .observe (.deadlineObserver (.cancelCtx .backgroundCtx 0) 1 10) 0]).st = none ↔
      (Context.deadlineCtx (.cancelCtx .backgroundCtx 0) 1 10).fired ((World.init 0).run
        [.withCancel .backgroundCtx, .withTimeout (.cancelCtx .backgroundCtx 0) 10,
         .cancel (.cancelCtx_close 0),
         .observe (.deadlineObserver (.cancelCtx .backgroundCtx 0) 1 10) 0]).st = false :=
  err_nil_iff_done_open 0 _ _ (by decide)

end GoCtx

namespace GoCtx

/-! ## Cancel functions -/

theorem cancelCtx_close_idem (i : Nat) (s : State) :
    cancelCtx_close i (cancelCtx_close i s) = cancelCtx_close i s := by
  have h : (cancelCtx_close i s).closed i = true := by simp [cancelCtx_close_closed]
  generalize cancelCtx_close i s = s2 at h
  simp [cancelCtx_close, h]

theorem closeErr_of_closed (i : Nat) (e : Option GoError) (s : State)
    (h : s.closed i = true) : deadlineCtx_closeErr i e s = s := by
  simp [deadlineCtx_closeErr, h]

theorem call_idem (f : CancelFunc) (s : State) : f.call (f.call s) = f.call s := by
  cases f with
  | cancelCtx_close i => exact cancelCtx_close_idem i s
  | deadlineCtx_close i =>
    simp only [CancelFunc.call, deadlineCtx_close]
    exact closeErr_of_closed i _ _ (by simp [closeErr_closed])

theorem call_iterate (f : CancelFunc) (s : State) (n : Nat) :
    f.call^[n + 1] s = f.call s := by
  induction n with
  | zero => rfl
  | succ n ih => rw [Function.iterate_succ_apply', ih, call_idem]

/-- The context and cancel function a derivation returns. -/
theorem derived_shape {p : Context} {s s1 : State} {ctx : Context} {f : CancelFunc}
    (hr : WithCancel (some p) s = .ok (ctx, f, s1) ∨
          (∃ t, WithTimeout (some p) t s = .ok (ctx, f, s1)) ∨
          (∃ d, WithDeadline (some p) d s = .ok (ctx, f, s1))) :
    (ctx = .cancelCtx p s.nextChan ∧ f = .cancelCtx_close s.nextChan) ∨
    (∃ d, ctx = .deadlineCtx p s.nextChan d ∧ f = .deadlineCtx_close s.nextChan) := by
  rcases hr with h | ⟨t, h⟩ | ⟨d, h⟩
  · left
    simp only [WithCancel, State.makeChan, Except.ok.injEq, Prod.mk.injEq] at h
    exact ⟨h.1.symm, h.2.1.symm⟩
  · right
    simp only [WithTimeout, State.makeChan, Except.ok.injEq, Prod.mk.injEq] at h
    exact ⟨_, h.1.symm, h.2.1.symm⟩
  · right
    unfold WithDeadline at h
    by_cases hd : d < s.now
    · simp only [hd, if_true, State.makeChan, Except.ok.injEq, Prod.mk.injEq] at h
      exact ⟨_, h.1.symm, h.2.1.symm⟩
    · simp only [hd, if_false, State.makeChan, Except.ok.injEq, Prod.mk.injEq] at h
      exact ⟨_, h.1.symm, h.2.1.symm⟩

/-- C3: for a context and cancel function returned by `WithCancel`,
`WithTimeout` or `WithDeadline`, in any state in which the context is unfired,
calling the cancel function closes `Done` and makes `Err()` return
`ErrCanceled`; and calling it `n + 1` times gives exactly the state that one
call gives. -/
theorem cancelFunc_fires_and_is_idempotent (p : Context) (s s1 s2 : State) (ctx : Context)
    (f : CancelFunc)
    (hr : WithCancel (some p) s = .ok (ctx, f, s1) ∨
          (∃ t, WithTimeout (some p) t s = .ok (ctx, f, s1)) ∨
          (∃ d, WithDeadline (some p) d s = .ok (ctx, f, s1)))
    (hunfired : ctx.fired s2 = false) :
    ctx.fired (f.call s2) = true ∧ ctx.Err (f.call s2) = some .ErrCanceled ∧
      ∀ n : Nat, f.call^[n + 1] s2 = f.call s2 := by
  refine ⟨?_, ?_, call_iterate f s2⟩
  · rcases derived_shape hr with ⟨hc, hf⟩ | ⟨d, hc, hf⟩ <;> subst hc hf
    · simp [Context.fired, Context.Done, chanReady, CancelFunc.call, cancelCtx_close_closed]
    · simp [Context.fired, Context.Done, chanReady, CancelFunc.call, deadlineCtx_close,
        closeErr_closed]
  · rcases derived_shape hr with ⟨hc, hf⟩ | ⟨d, hc, hf⟩ <;> subst hc hf
    · simp [Context.Err, CancelFunc.call, cancelCtx_close_closed]
    · simp only [Context.fired, Context.Done, chanReady] at hunfired
      simp [Context.Err, CancelFunc.call, deadlineCtx_close, closeErr_err, hunfired]

/-- Witness for C3: a fresh `WithTimeout(Background(), 5)` context, cancelled
three times. -/
theorem cancelFunc_fires_and_is_idempotent_witness :
    (Context.deadlineCtx .backgroundCtx 0 5).fired
        ((CancelFunc.deadlineCtx_close 0).call
          ((World.init 0).step (.withTimeout .backgroundCtx 5)).st) = true ∧
      (Context.deadlineCtx .backgroundCtx 0 5).Err
        ((CancelFunc.deadlineCtx_close 0).call
          ((World.init 0).step (.withTimeout .backgroundCtx 5)).st) = some .ErrCanceled ∧
      (CancelFunc.deadlineCtx_close 0).call^[2 + 1]
          ((World.init 0).step (.withTimeout .backgroundCtx 5)).st =
        (CancelFunc.deadlineCtx_close 0).call
          ((World.init 0).step (.withTimeout .backgroundCtx 5)).st :=
  have h := cancelFunc_fires_and_is_idempotent .backgroundCtx (World.init 0).st
    ((World.init 0).step (.withTimeout .backgroundCtx 5)).st
    ((World.init 0).step (.withTimeout .backgroundCtx 5)).st
    (.deadlineCtx .backgroundCtx 0 5) (.deadlineCtx_close 0)
    (Or.inr (Or.inl ⟨5, rfl⟩)) (by decide)
  ⟨h.1, h.2.1, h.2.2 2⟩

end GoCtx

namespace GoCtx

/-! ## Firing is permanent -/

theorem State.Extends.refl (s : State) : s.Extends s :=
  ⟨Nat.le_refl _, fun _ _ h => ⟨h, rfl⟩⟩

theorem State.Extends.trans {s1 s2 s3 : State} (h12 : s1.Extends s2) (h23 : s2.Extends s3) :
    s1.Extends s3 := by
  refine ⟨Nat.le_trans h12.1 h23.1, fun j hj hc => ?_⟩
  obtain ⟨h1, h2⟩ := h12.2 j hj hc
  obtain ⟨h3, h4⟩ := h23.2 j (Nat.lt_of_lt_of_le hj h12.1) h1
  exact ⟨h3, h4.trans h2⟩

theorem extends_cancelCtx_close (i : Nat) (s : State) : s.Extends (cancelCtx_close i s) := by
  refine ⟨by simp, fun j _ hc => ⟨?_, by simp⟩⟩
  rw [cancelCtx_close_closed]; split <;> simp [hc]

theorem extends_closeErr (i : Nat) (e : Option GoError) (s : State) :
    s.Extends (deadlineCtx_closeErr i e s) := by
  refine ⟨by simp, fun j _ hc => ⟨?_, ?_⟩⟩
  · rw [closeErr_closed]; split <;> simp [hc]
  · rw [closeErr_err]
    by_cases hj : j = i
    · subst hj; simp [hc]
    · simp [hj]

theorem extends_makeChan (s : State) : s.Extends s.makeChan.2 := by
  refine ⟨Nat.le_succ _, fun j hj hc => ?_⟩
  have hne : j ≠ s.nextChan := Nat.ne_of_lt hj
  simp [State.makeChan, hne, hc]

theorem extends_runCase (g : Goroutine) (c : SelectCase) (s : State) :
    s.Extends (g.runCase c s) := by
  cases g <;> cases c <;> simp only [Goroutine.runCase] <;>
    first
      | exact State.Extends.refl _
      | exact extends_cancelCtx_close _ _
      | exact extends_closeErr _ _ _

theorem extends_observe (s : State) (g : Goroutine) (pick : Nat) :
    s.Extends (s.observe g pick) := by
  unfold State.observe
  split
  · split
    · exact State.Extends.refl _
    · exact @State.Extends.trans s
        (State.mk s.now s.nextChan s.closed s.err (s.goroutines.erase g)) _
        ⟨Nat.le_refl _, fun _ _ h => ⟨h, rfl⟩⟩ (extends_runCase _ _ _)
  · exact State.Extends.refl _

theorem extends_withCancel (p : Context) (w : World) :
    w.st.Extends (w.record (WithCancel (some p) w.st)).st :=
  extends_makeChan w.st

theorem extends_withTimeout (p : Context) (t : Int) (w : World) :
    w.st.Extends (w.record (WithTimeout (some p) t w.st)).st :=
  extends_makeChan w.st

theorem extends_withDeadline (p : Context) (d : Int) (w : World) :
    w.st.Extends (w.record (WithDeadline (some p) d w.st)).st := by
  unfold WithDeadline
  by_cases hd : d < w.st.now
  · simp only [hd, if_true, World.record, State.makeChan]
    refine ⟨Nat.le_succ _, fun j hj hc => ?_⟩
    have hne : j ≠ w.st.nextChan := Nat.ne_of_lt hj
    simp [hne, hc]
  · simp only [hd, if_false]
    exact extends_makeChan w.st

theorem extends_step (w : World) (e : Event) : w.st.Extends (w.step e).st := by
  cases e with
  | withCancel p =>
    simp only [World.step]; split
    · exact extends_withCancel p w
    · exact State.Extends.refl _
  | withValue p k v =>
    simp only [World.step]; split
    · split <;> exact State.Extends.refl _
    · exact State.Extends.refl _
  | withDeadline p d =>
    simp only [World.step]; split
    · exact extends_withDeadline p d w
    · exact State.Extends.refl _
  | withTimeout p t =>
    simp only [World.step]; split
    · exact extends_withTimeout p t w
    · exact State.Extends.refl _
  | cancel f =>
    simp only [World.step]; split
    · cases f
      · exact extends_cancelCtx_close _ _
      · exact extends_closeErr _ _ _
    · exact State.Extends.refl _
  | observe g pick => exact extends_observe w.st g pick
  | tick dt => exact ⟨Nat.le_refl _, fun _ _ h => ⟨h, rfl⟩⟩

theorem extends_run (w : World) (evs : List Event) : w.st.Extends (w.run evs).st := by
  induction evs generalizing w with
  | nil => exact State.Extends.refl _
  | cons e evs ih => exact State.Extends.trans (extends_step w e) (ih (w.step e))

theorem ctxs_subset_step (w : World) (e : Event) : ∀ c ∈ w.ctxs, c ∈ (w.step e).ctxs := by
  intro c hc
  cases e <;> simp only [World.step] <;> (try split) <;> (try exact hc)
  · unfold World.record; split <;> simp_all
  · split <;> simp_all
  · unfold World.record; split <;> simp_all
  · unfold World.record; split <;> simp_all

theorem ctxs_subset_run (w : World) (evs : List Event) : ∀ c ∈ w.ctxs, c ∈ (w.run evs).ctxs := by
  induction evs generalizing w with
  | nil => exact fun _ h => h
  | cons e evs ih => exact fun c hc => ih (w.step e) c (ctxs_subset_step w e c hc)

/-- C4: once a deadline context of a reachable world has fired with error `e`,
any further `closeErr` call leaves the state as it is, and after any further
events, in any order (cancel calls, observers taking the parent or the timer
case, clock ticks, new derivations), `Err()` is still `e` and `Done` is still
closed. -/
theorem deadline_err_first_writer_wins (t0 : Int) (evs : List Event) (p : Context) (i : Nat)
    (d : Int) (e : GoError)
    (hc : Context.deadlineCtx p i d ∈ ((World.init t0).run evs).ctxs)
    (hfired : (Context.deadlineCtx p i d).Err ((World.init t0).run evs).st = some e) :
    (∀ e2, deadlineCtx_closeErr i e2 ((World.init t0).run evs).st =
        ((World.init t0).run evs).st) ∧
    ∀ evs2 : List Event,
      (Context.deadlineCtx p i d).Err (((World.init t0).run evs).run evs2).st = some e ∧
      (Context.deadlineCtx p i d).fired (((World.init t0).run evs).run evs2).st = true := by
  have hinv := inv_reachable t0 evs
  have hcl : ((World.init t0).run evs).st.closed i = true := by
    have h1 := hinv.err_iff p i d hc
    simp only [Context.Err] at hfired
    by_contra hne
    have := h1.2 (by simpa using hne)
    rw [this] at hfired; cases hfired
  refine ⟨fun e2 => closeErr_of_closed i e2 _ hcl, fun evs2 => ?_⟩
  have hlt := hinv.chan_lt _ hc i rfl
  obtain ⟨h1, h2⟩ := (extends_run ((World.init t0).run evs) evs2).2 i hlt hcl
  exact ⟨by simpa [Context.Err, h2] using hfired,
    by simpa [Context.fired, Context.Done, chanReady] using h1⟩

/-- Witness for C4: a timeout context whose timer case ran first keeps
`ErrDeadlineExceeded` when its cancel function is called afterwards. -/
theorem deadline_err_first_writer_wins_witness :
    (Context.deadlineCtx .backgroundCtx 0 5).Err
        (((World.init 0).run [.withTimeout .backgroundCtx 5, .tick 7,
            .observe (.deadlineObserver .backgroundCtx 0 5) 0]).run
          [.cancel (.deadlineCtx_close 0)]).st = some .ErrDeadlineExceeded ∧
      (Context.deadlineCtx .backgroundCtx 0 5).fired
        (((World.init 0).run [.withTimeout .backgroundCtx 5, .tick 7,
            .observe (.deadlineObserver .backgroundCtx 0 5) 0]).run
          [.cancel (.deadlineCtx_close 0)]).st = true :=
  (deadline_err_first_writer_wins 0 [.withTimeout .backgroundCtx 5, .tick 7,
      .observe (.deadlineObserver .backgroundCtx 0 5) 0] .backgroundCtx 0 5
    .ErrDeadlineExceeded (by decide) (by decide)).2 [.cancel (.deadlineCtx_close 0)]

end GoCtx

namespace GoCtx

/-! ## Deadline contexts: which error is recorded -/

theorem observe_of_select {s : State} {g : Goroutine} {pick : Nat} {c : SelectCase}
    (hg : g ∈ s.goroutines) (hsel : g.select pick s = some c) :
    s.observe g pick =
      g.runCase c (State.mk s.now s.nextChan s.closed s.err (s.goroutines.erase g)) := by
  simp [State.observe, hg, hsel]

/-- C5: in a reachable world, a deadline context that is still unfired (so it
was made by `WithTimeout` or by the future-deadline path of `WithDeadline`) has
its observer pending; if the case the observer's `select` runs is the parent's
`Done`, the context fires with `ErrCanceled` and keeps it whatever happens
later (the timer expiring included); if the case is the timer, it fires with
`ErrDeadlineExceeded` and keeps it. -/
theorem deadline_observer_first_event (t0 : Int) (evs : List Event) (p : Context) (i : Nat)
    (d : Int)
    (hc : Context.deadlineCtx p i d ∈ ((World.init t0).run evs).ctxs)
    (hunfired : (Context.deadlineCtx p i d).fired ((World.init t0).run evs).st = false) :
    ∃ tm, Goroutine.deadlineObserver p i tm ∈ ((World.init t0).run evs).st.goroutines ∧
      ∀ pick : Nat,
        ((Goroutine.deadlineObserver p i tm).select pick ((World.init t0).run evs).st =
            some .parentDone →
          ∀ evs2 : List Event,
            (Context.deadlineCtx p i d).fired ((((World.init t0).run evs).step
              (.observe (.deadlineObserver p i tm) pick)).run evs2).st = true ∧
            (Context.deadlineCtx p i d).Err ((((World.init t0).run evs).step
              (.observe (.deadlineObserver p i tm) pick)).run evs2).st = some .ErrCanceled) ∧
        ((Goroutine.deadlineObserver p i tm).select pick ((World.init t0).run evs).st =
            some .timer →
          ∀ evs2 : List Event,
            (Context.deadlineCtx p i d).fired ((((World.init t0).run evs).step
              (.observe (.deadlineObserver p i tm) pick)).run evs2).st = true ∧
            (Context.deadlineCtx p i d).Err ((((World.init t0).run evs).step
              (.observe (.deadlineObserver p i tm) pick)).run evs2).st =
                some .ErrDeadlineExceeded) := by
  have hinv := inv_reachable t0 evs
  generalize (World.init t0).run evs = w at hc hunfired hinv
  have hopen : w.st.closed i = false := by
    simpa [Context.fired, Context.Done, chanReady] using hunfired
  have hlt := hinv.chan_lt _ hc i rfl
  rcases hinv.pending_d p i d hc with hcl | ⟨tm, hg⟩
  · rw [hopen] at hcl; cases hcl
  refine ⟨tm, hg, fun pick => ?_⟩
  have key : ∀ (c : SelectCase) (e : GoError),
      (Goroutine.deadlineObserver p i tm).select pick w.st = some c →
      (Goroutine.deadlineObserver p i tm).runCase c
          (State.mk w.st.now w.st.nextChan w.st.closed w.st.err
            (w.st.goroutines.erase (.deadlineObserver p i tm))) =
        deadlineCtx_closeErr i (some e)
          (State.mk w.st.now w.st.nextChan w.st.closed w.st.err
            (w.st.goroutines.erase (.deadlineObserver p i tm))) →
      ∀ evs2 : List Event,
        (Context.deadlineCtx p i d).fired
          ((w.step (.observe (.deadlineObserver p i tm) pick)).run evs2).st = true ∧
        (Context.deadlineCtx p i d).Err
          ((w.step (.observe (.deadlineObserver p i tm) pick)).run evs2).st = some e := by
    intro c e hsel hrun evs2
    have hst : (w.step (.observe (.deadlineObserver p i tm) pick)).st =
        deadlineCtx_closeErr i (some e)
          (State.mk w.st.now w.st.nextChan w.st.closed w.st.err
            (w.st.goroutines.erase (.deadlineObserver p i tm))) := by
      simp only [World.step]
      rw [observe_of_select hg hsel, hrun]
    have h1 : (w.step (.observe (.deadlineObserver p i tm) pick)).st.closed i = true := by
      rw [hst]; simp [closeErr_closed]
    have h2 : (w.step (.observe (.deadlineObserver p i tm) pick)).st.err i = some e := by
      rw [hst]; simp [closeErr_err, hopen]
    have h3 : i < (w.step (.observe (.deadlineObserver p i tm) pick)).st.nextChan := by
      rw [hst]; simpa using hlt
    obtain ⟨h4, h5⟩ := (extends_run _ evs2).2 i h3 h1
    exact ⟨by simpa [Context.fired, Context.Done, chanReady] using h4,
      by simpa [Context.Err, h2] using h5⟩
  exact ⟨fun hsel => key _ _ hsel rfl, fun hsel => key _ _ hsel rfl⟩

/-- Witness for C5: the spec's race, `WithTimeout(P, 10)` with `P` cancelled at
time 1; the observer is scheduled at time 1 and takes the parent case. -/
theorem deadline_observer_first_event_witness :
    ∃ tm, Goroutine.deadlineObserver (.cancelCtx .backgroundCtx 0) 1 tm ∈
        ((World.init 0).run [.withCancel .backgroundCtx,
          .withTimeout (.cancelCtx .backgroundCtx 0) 10, .tick 1,
          .cancel (.cancelCtx_close 0)]).st.goroutines :=
  (deadline_observer_first_event 0 [.withCancel .backgroundCtx,
      .withTimeout (.cancelCtx .backgroundCtx 0) 10, .tick 1, .cancel (.cancelCtx_close 0)]
    (.cancelCtx .backgroundCtx 0) 1 10 (by decide) (by decide)).imp fun _ h => h.1

end GoCtx

namespace GoCtx

/-- The race of the spec replayed: `WithTimeout(P, 10)`, `P` cancelled at time
1, the observer scheduled, and the timer expiring afterwards. -/
theorem parent_cancel_preempts_timeout_example :
    (Context.deadlineCtx (.cancelCtx .backgroundCtx 0) 1 10).Err
      ((World.init 0).run [.withCancel .backgroundCtx,
        .withTimeout (.cancelCtx .backgroundCtx 0) 10, .tick 1, .cancel (.cancelCtx_close 0),
        .observe (.deadlineObserver (.cancelCtx .backgroundCtx 0) 1 10) 0,
        .tick 20]).st = some .ErrCanceled := by
  decide

/-! ## `WithDeadline` with a deadline in the past -/

/-- C6: for every non-nil parent and every `d` before the clock reading of the
call, `WithDeadline(parent, d)` returns (without panic) a context that is
already fired: `Done` is closed, `Err()` is `ErrDeadlineExceeded`, `Deadline()`
is `(d, true)`; no goroutine (hence no timer) is started and the clock is not
touched. -/
theorem withDeadline_past_is_prefired (p : Context) (d : Int) (s : State) (hd : d < s.now) :
    ∃ ctx f s1, WithDeadline (some p) d s = .ok (ctx, f, s1) ∧
      ctx.fired s1 = true ∧ ctx.Err s1 = some .ErrDeadlineExceeded ∧
      ctx.Deadline = (d, true) ∧ s1.goroutines = s.goroutines ∧ s1.now = s.now := by
  refine ⟨.deadlineCtx p s.nextChan d, .deadlineCtx_close s.nextChan,
    State.mk s.now (s.nextChan + 1) (setAt (setAt s.closed s.nextChan false) s.nextChan true)
      (setAt (setAt s.err s.nextChan none) s.nextChan (some .ErrDeadlineExceeded)) s.goroutines,
    ?_, ?_, ?_, rfl, rfl, rfl⟩
  · simp only [WithDeadline, hd, if_true, State.makeChan]
  · simp [Context.fired, Context.Done, chanReady]
  · simp [Context.Err]

/-- Witness for C6: the test's deadline one hour before now. -/
theorem withDeadline_past_is_prefired_witness :
    ∃ ctx f s1, WithDeadline (some .backgroundCtx) (-3600) (World.init 0).st = .ok (ctx, f, s1) ∧
      ctx.fired s1 = true ∧ ctx.Err s1 = some .ErrDeadlineExceeded ∧
      ctx.Deadline = (-3600, true) ∧ s1.goroutines = (World.init 0).st.goroutines ∧
      s1.now = (World.init 0).st.now :=
  withDeadline_past_is_prefired .backgroundCtx (-3600) (World.init 0).st (by decide)

/-! ## `WithTimeout` against `WithDeadline` -/

/-- C7 fails for a negative duration, where `WithTimeout` lacks the
past-deadline path of `WithDeadline`: at clock reading 0,
`WithTimeout(Background(), -1)` returns an unfired context with a nil `Err()`
and one pending observer, while `WithDeadline(Background(), 0 + -1)` returns a
context that is already fired with `ErrDeadlineExceeded` and no observer.  Each
result is shown as (context, fired, `Err()`, number of goroutines). -/
theorem withTimeout_negative_differs :
    (WithTimeout (some .backgroundCtx) (-1) (World.init 0).st).map
        (fun r => (r.1, r.1.fired r.2.2, r.1.Err r.2.2, r.2.2.goroutines.length)) =
      .ok (.deadlineCtx .backgroundCtx 0 (-1), false, none, 1) ∧
    (WithDeadline (some .backgroundCtx) ((World.init 0).st.now + -1) (World.init 0).st).map
        (fun r => (r.1, r.1.fired r.2.2, r.1.Err r.2.2, r.2.2.goroutines.length)) =
      .ok (.deadlineCtx .backgroundCtx 0 (-1), true, some .ErrDeadlineExceeded, 0) := by
  constructor <;> rfl

/-- Where the two derivations agree: for every non-nil parent, every duration
`t` that is not negative and every clock reading, `WithTimeout(parent, t)` and
`WithDeadline(parent, now + t)` return the same context, the same cancel
function and the same state (so the same `Deadline()`, fired state, `Err()`,
timer and observer, hence the same reaction to every later event); and for
every `t`, negative ones included, both return the same deadline context (same
parent, same channel), whose `Deadline()` is `(now + t, true)`. -/
theorem withTimeout_eq_withDeadline (p : Context) (t : Int) (s : State) :
    (0 ≤ t → WithTimeout (some p) t s = WithDeadline (some p) (s.now + t) s) ∧
    (WithTimeout (some p) t s).map (fun r => r.1) =
      .ok (.deadlineCtx p s.nextChan (s.now + t)) ∧
    (WithDeadline (some p) (s.now + t) s).map (fun r => r.1) =
      .ok (.deadlineCtx p s.nextChan (s.now + t)) ∧
    (Context.deadlineCtx p s.nextChan (s.now + t)).Deadline = (s.now + t, true) := by
  refine ⟨?_, rfl, ?_, rfl⟩
  · intro ht
    have hd : ¬ (s.now + t < s.now) := by omega
    have hsub : s.now + (s.now + t - s.now) = s.now + t := by omega
    simp only [WithTimeout, WithDeadline, hd, if_false, State.makeChan, hsub]
  · by_cases hd : s.now + t < s.now
    · simp only [WithDeadline, hd, if_true, State.makeChan]; rfl
    · simp only [WithDeadline, hd, if_false, State.makeChan]; rfl

/-- The two derivations agree for a timeout of 5 at clock reading 0. -/
theorem withTimeout_eq_withDeadline_witness :
    WithTimeout (some .backgroundCtx) 5 (World.init 0).st =
      WithDeadline (some .backgroundCtx) ((World.init 0).st.now + 5) (World.init 0).st :=
  (withTimeout_eq_withDeadline .backgroundCtx 5 (World.init 0).st).1 (by decide)

end GoCtx

namespace GoCtx

/-! ## Propagation down a chain of cancel contexts -/

theorem sublist_cons_split {α : Type} {a : α} {l evs : List α} (h : (a :: l).Sublist evs) :
    ∃ pre post, evs = pre ++ a :: post ∧ l.Sublist post := by
  induction evs with
  | nil => cases h
  | cons b evs ih =>
    cases h with
    | cons _ h2 =>
      obtain ⟨pre, post, he, hs⟩ := ih h2
      exact ⟨b :: pre, post, by simp [he], hs⟩
    | cons₂ _ h2 => exact ⟨[], evs, rfl, h2⟩

theorem done_lt {w : World} (h : Inv w) :
    ∀ c : Context, c ∈ w.ctxs → ∀ j, c.Done = some j → j < w.st.nextChan := by
  intro c
  induction c with
  | backgroundCtx => intro _ j hj; cases hj
  | cancelCtx p i ih => intro hc j hj; exact h.chan_lt _ hc j hj
  | valueCtx p k v ih => intro hc j hj; exact ih (h.parent_mem _ hc p rfl) j hj
  | deadlineCtx p i d ih => intro hc j hj; exact h.chan_lt _ hc j hj

theorem fired_stays {w : World} (h : Inv w) (c : Context) (hc : c ∈ w.ctxs)
    (hf : c.fired w.st = true) (evs : List Event) : c.fired (w.run evs).st = true := by
  unfold Context.fired chanReady at hf ⊢
  cases hd : c.Done with
  | none => simp [hd] at hf
  | some j =>
    simp only [hd] at hf ⊢
    exact ((extends_run w evs).2 j (done_lt h c hc j hd) hf).1

/-- Scheduling the observer of a cancel context whose parent has fired fires
the context (if it had not fired already). -/
theorem observe_fires_child {w : World} (h : Inv w) (P : Context) (i pick : Nat)
    (hc : Context.cancelCtx P i ∈ w.ctxs) (hP : P.fired w.st = true) :
    (w.step (.observe (.cancelObserver P i) pick)).st.closed i = true := by
  have hlt := h.chan_lt _ hc i rfl
  by_cases hcl : w.st.closed i = true
  · exact ((extends_step w _).2 i hlt hcl).1
  · rcases h.pending_c P i hc with h1 | hg
    · exact absurd h1 hcl
    · have hrc : (Goroutine.cancelObserver P i).readyCases w.st = [.parentDone] := by
        simp only [Context.fired] at hP
        simp [Goroutine.readyCases, Goroutine.ready, hP, hcl, List.filter]
      have hsel : (Goroutine.cancelObserver P i).select pick w.st = some .parentDone := by
        simp [Goroutine.select, hrc, Nat.mod_one]
      simp only [World.step]
      rw [observe_of_select hg hsel]
      simp [Goroutine.runCase, cancelCtx_close_closed]

theorem chain_fires {w : World} (h : Inv w) (P : Context) (ids picks : List Nat)
    (evs : List Event)
    (hmem : ∀ c ∈ chainNodes P ids, c ∈ w.ctxs)
    (hP : P.fired w.st = true)
    (hlen : picks.length = ids.length)
    (hsub : (chainSchedule P ids picks).Sublist evs) :
    ∀ c ∈ chainNodes P ids,
      c.fired (w.run evs).st = true ∧ c.Err (w.run evs).st = some .ErrCanceled := by
  induction ids generalizing P w picks evs with
  | nil => intro c hc; cases hc
  | cons i ids ih =>
    cases picks with
    | nil => simp at hlen
    | cons k picks =>
      have hC1 : Context.cancelCtx P i ∈ w.ctxs := hmem _ (List.mem_cons_self _ _)
      have hPm : P ∈ w.ctxs := h.parent_mem _ hC1 P rfl
      simp only [chainSchedule, chainObservers, List.zipWith_cons_cons] at hsub
      obtain ⟨pre, post, hev, hpost⟩ := sublist_cons_split hsub
      subst hev
      rw [World.run_append, World.run_cons]
      have h1 : Inv (w.run pre) := inv_run h pre
      have hP1 : P.fired (w.run pre).st = true := fired_stays h P hPm hP pre
      have hC1m : Context.cancelCtx P i ∈ (w.run pre).ctxs := ctxs_subset_run w pre _ hC1
      have hcl := observe_fires_child h1 P i k hC1m hP1
      have h2 : Inv ((w.run pre).step (.observe (.cancelObserver P i) k)) := inv_step h1 _
      have hC1m2 : Context.cancelCtx P i ∈
          ((w.run pre).step (.observe (.cancelObserver P i) k)).ctxs :=
        ctxs_subset_step _ _ _ hC1m
      have hf2 : (Context.cancelCtx P i).fired
          ((w.run pre).step (.observe (.cancelObserver P i) k)).st = true := by
        simpa [Context.fired, Context.Done, chanReady] using hcl
      intro c hc
      rcases List.mem_cons.1 hc with rfl | hc
      · have hf3 := fired_stays h2 _ hC1m2 hf2 post
        refine ⟨hf3, ?_⟩
        simp only [Context.fired, Context.Done, chanReady] at hf3
        simp [Context.Err, hf3]
      · refine ih h2 (.cancelCtx P i) picks post ?_ hf2 (by simpa using hlen) hpost c hc
        intro c2 hc2
        exact ctxs_subset_step _ _ _
          (ctxs_subset_run w pre _ (hmem _ (List.mem_cons_of_mem _ hc2)))

/-- C8: in a reachable world take a chain `P = C0, C1, ..., Cn` in which each
`Ci` (`i ≥ 1`) is the cancel context derived from `C(i-1)`, of any depth, and
let `P` have fired.  Then after any continuation in which, among whatever else
happens, the observers of `C1, ..., Cn` are each scheduled once in this order
(with any `select` choices), every `Ci` has `Done` closed and `Err()` equal to
`ErrCanceled`. -/
theorem cancel_propagates_down_chain (t0 : Int) (evs0 : List Event) (P : Context)
    (ids picks : List Nat) (evs : List Event)
    (hmem : ∀ c ∈ chainNodes P ids, c ∈ ((World.init t0).run evs0).ctxs)
    (hP : P.fired ((World.init t0).run evs0).st = true)
    (hlen : picks.length = ids.length)
    (hsub : (chainSchedule P ids picks).Sublist evs) :
    ∀ c ∈ chainNodes P ids,
      c.fired (((World.init t0).run evs0).run evs).st = true ∧
      c.Err (((World.init t0).run evs0).run evs).st = some .ErrCanceled :=
  chain_fires (inv_reachable t0 evs0) P ids picks evs hmem hP hlen hsub

/-- Witness for C8: a chain of depth two below a cancelled cancel context. -/
theorem cancel_propagates_down_chain_witness :
    (Context.cancelCtx (.cancelCtx (.cancelCtx .backgroundCtx 0) 1) 2).fired
        (((World.init 0).run [.withCancel .backgroundCtx, .withCancel (.cancelCtx .backgroundCtx 0),
            .withCancel (.cancelCtx (.cancelCtx .backgroundCtx 0) 1),
            .cancel (.cancelCtx_close 0)]).run
          (chainSchedule (.cancelCtx .backgroundCtx 0) [1, 2] [0, 0])).st = true ∧
      (Context.cancelCtx (.cancelCtx (.cancelCtx .backgroundCtx 0) 1) 2).Err
        (((World.init 0).run [.withCancel .backgroundCtx, .withCancel (.cancelCtx .backgroundCtx 0),
            .withCancel (.cancelCtx (.cancelCtx .backgroundCtx 0) 1),
            .cancel (.cancelCtx_close 0)]).run
          (chainSchedule (.cancelCtx .backgroundCtx 0) [1, 2] [0, 0])).st = some .ErrCanceled :=
  cancel_propagates_down_chain 0 [.withCancel .backgroundCtx,
      .withCancel (.cancelCtx .backgroundCtx 0),
      .withCancel (.cancelCtx (.cancelCtx .backgroundCtx 0) 1), .cancel (.cancelCtx_close 0)]
    (.cancelCtx .backgroundCtx 0) [1, 2] [0, 0]
    (chainSchedule (.cancelCtx .backgroundCtx 0) [1, 2] [0, 0])
    (by decide) (by decide) rfl (List.Sublist.refl _) _ (by decide)

end GoCtx

namespace GoCtx

/-! ## Observers return -/

@[simp] theorem runCase_goroutines (g : Goroutine) (c : SelectCase) (s : State) :
    (g.runCase c s).goroutines = s.goroutines := by
  cases g <;> cases c <;> simp [Goroutine.runCase]

theorem observe_goroutines (s : State) (g : Goroutine) (pick : Nat) :
    (s.observe g pick).goroutines =
      if g ∈ s.goroutines ∧ (g.select pick s).isSome = true then s.goroutines.erase g
      else s.goroutines := by
  unfold State.observe
  by_cases hg : g ∈ s.goroutines
  · cases hsel : g.select pick s <;> simp [hg]
  · simp [hg]

theorem goroutines_step (w : World) (e : Event) :
    ∀ g ∈ (w.step e).st.goroutines, g ∈ w.st.goroutines ∨ g.chan = w.st.nextChan := by
  intro g hg
  cases e with
  | withCancel p =>
    simp only [World.step] at hg
    split at hg
    · simp only [World.record, WithCancel, State.makeChan, State.spawn, List.mem_cons] at hg
      rcases hg with rfl | hg
      · right; rfl
      · left; exact hg
    · left; exact hg
  | withValue p k v =>
    simp only [World.step] at hg
    split at hg
    · split at hg <;> exact Or.inl hg
    · exact Or.inl hg
  | withDeadline p d =>
    simp only [World.step] at hg
    split at hg
    · unfold WithDeadline at hg
      by_cases hd : d < w.st.now
      · simp only [hd, if_true, World.record, State.makeChan] at hg
        exact Or.inl hg
      · simp only [hd, if_false, World.record, State.makeChan, State.spawn,
          List.mem_cons] at hg
        rcases hg with rfl | hg
        · right; rfl
        · left; exact hg
    · exact Or.inl hg
  | withTimeout p t =>
    simp only [World.step] at hg
    split at hg
    · simp only [World.record, WithTimeout, State.makeChan, State.spawn, List.mem_cons] at hg
      rcases hg with rfl | hg
      · right; rfl
      · left; exact hg
    · exact Or.inl hg
  | cancel f =>
    simp only [World.step] at hg
    split at hg
    · cases f
      · simp only [CancelFunc.call, cancelCtx_close_goroutines] at hg; exact Or.inl hg
      · simp only [CancelFunc.call, deadlineCtx_close, closeErr_goroutines] at hg
        exact Or.inl hg
    · exact Or.inl hg
  | observe g2 pick =>
    simp only [World.step, observe_goroutines] at hg
    split at hg
    · exact Or.inl (List.mem_of_mem_erase hg)
    · exact Or.inl hg
  | tick dt => exact Or.inl hg

theorem not_pending_run (w : World) (evs : List Event) (g : Goroutine)
    (hlt : g.chan < w.st.nextChan) (hg : g ∉ w.st.goroutines) :
    g ∉ (w.run evs).st.goroutines := by
  induction evs generalizing w with
  | nil => exact hg
  | cons e evs ih =>
    rw [World.run_cons]
    refine ih (w.step e) (Nat.lt_of_lt_of_le hlt (extends_step w e).1) ?_
    intro hm
    rcases goroutines_step w e g hm with h1 | h1
    · exact hg h1
    · exact Nat.ne_of_lt hlt h1

theorem select_isSome_of_closed (g : Goroutine) (pick : Nat) (s : State)
    (h : s.closed g.chan = true) : (g.select pick s).isSome = true := by
  have hmem : SelectCase.ownDone ∈ g.readyCases s := by
    rw [mem_readyCases]
    cases g <;> simpa [Goroutine.ready, Goroutine.chan] using h
  have hpos : 0 < (g.readyCases s).length := List.length_pos_of_mem hmem
  unfold Goroutine.select
  rw [List.get?_eq_getElem?, Option.isSome_iff_exists]
  exact ⟨_, List.getElem?_eq_getElem (Nat.mod_lt _ hpos)⟩

/-- C10: in a reachable world let a context made by `WithCancel`,
`WithTimeout` or `WithDeadline` have its own `done` channel closed, by whatever
path.  Then, whatever happens next, its observer is never blocked (while it is
pending, its `select` has a case that can proceed, for every choice), and
after any continuation in which it is scheduled once it has returned and it
never becomes pending again. -/
theorem observer_returns_once_fired (t0 : Int) (evs0 : List Event) (ctx : Context) (i : Nat)
    (g : Goroutine)
    (hc : ctx ∈ ((World.init t0).run evs0).ctxs) (hown : ctx.ownChan = some i)
    (hfired : ((World.init t0).run evs0).st.closed i = true) (hg : g.chan = i) :
    (∀ (evs1 : List Event) (pick : Nat),
      (g.select pick (((World.init t0).run evs0).run evs1).st).isSome = true) ∧
    (∀ (evs1 : List Event) (pick : Nat) (evs2 : List Event),
      g ∉ (((World.init t0).run evs0).run (evs1 ++ .observe g pick :: evs2)).st.goroutines) := by
  have hinv := inv_reachable t0 evs0
  generalize (World.init t0).run evs0 = w at hc hfired hinv
  have hlt : i < w.st.nextChan := hinv.chan_lt _ hc i hown
  have hcl : ∀ evs1, (w.run evs1).st.closed g.chan = true := fun evs1 => by
    rw [hg]; exact ((extends_run w evs1).2 i hlt hfired).1
  refine ⟨fun evs1 pick => select_isSome_of_closed g pick _ (hcl evs1), ?_⟩
  intro evs1 pick evs2
  rw [World.run_append, World.run_cons]
  have hlt1 : g.chan < (w.run evs1).st.nextChan := by
    rw [hg]; exact Nat.lt_of_lt_of_le hlt (extends_run w evs1).1
  refine not_pending_run _ evs2 g
    (Nat.lt_of_lt_of_le hlt1 (extends_step _ _).1) ?_
  simp only [World.step, observe_goroutines]
  by_cases hm : g ∈ (w.run evs1).st.goroutines
  · rw [if_pos ⟨hm, select_isSome_of_closed g pick _ (hcl evs1)⟩]
    exact fun h => ((inv_run hinv evs1).nodup.mem_erase_iff.1 h).1 rfl
  · simp [hm]

/-- Witness for C10: a cancel context cancelled directly; its observer takes
the own-`Done` case and returns. -/
theorem observer_returns_once_fired_witness :
    Goroutine.cancelObserver .backgroundCtx 0 ∉
      (((World.init 0).run [.withCancel .backgroundCtx, .cancel (.cancelCtx_close 0)]).run
        ([] ++ .observe (.cancelObserver .backgroundCtx 0) 0 :: [])).st.goroutines :=
  (observer_returns_once_fired 0 [.withCancel .backgroundCtx, .cancel (.cancelCtx_close 0)]
    (.cancelCtx .backgroundCtx 0) 0 (.cancelObserver .backgroundCtx 0)
    (by decide) rfl (by decide) rfl).2 [] 0 []

end GoCtx

namespace GoCtx

/-! ## Cancelling one child leaves its siblings and its parent alone -/

@[simp] theorem under_backgroundCtx (i : Nat) : Context.backgroundCtx.under i = false := by
  simp [Context.under, Context.ancestors, Context.ownChan]

@[simp] theorem under_cancelCtx (i : Nat) (p : Context) (j : Nat) :
    (Context.cancelCtx p j).under i = (decide (j = i) || p.under i) := by
  simp [Context.under, Context.ancestors, Context.ownChan]

@[simp] theorem under_valueCtx (i : Nat) (p : Context) (k v : GoAny) :
    (Context.valueCtx p k v).under i = p.under i := by
  simp [Context.under, Context.ancestors, Context.ownChan]

@[simp] theorem under_deadlineCtx (i : Nat) (p : Context) (j : Nat) (d : Int) :
    (Context.deadlineCtx p j d).under i = (decide (j = i) || p.under i) := by
  simp [Context.under, Context.ancestors, Context.ownChan]

theorem ancestors_mem {w : World} (h : Inv w) :
    ∀ c : Context, c ∈ w.ctxs → ∀ q ∈ c.ancestors, q ∈ w.ctxs := by
  intro c
  induction c with
  | backgroundCtx =>
    intro hc q hq
    simp only [Context.ancestors, List.mem_singleton] at hq
    rw [hq]; exact hc
  | cancelCtx p i ih =>
    intro hc q hq
    rcases List.mem_cons.1 hq with rfl | hq
    · exact hc
    · exact ih (h.parent_mem _ hc p rfl) q hq
  | valueCtx p k v ih =>
    intro hc q hq
    rcases List.mem_cons.1 hq with rfl | hq
    · exact hc
    · exact ih (h.parent_mem _ hc p rfl) q hq
  | deadlineCtx p i d ih =>
    intro hc q hq
    rcases List.mem_cons.1 hq with rfl | hq
    · exact hc
    · exact ih (h.parent_mem _ hc p rfl) q hq

theorem ancestors_sizeOf : ∀ c q : Context, q ∈ c.ancestors → sizeOf q ≤ sizeOf c := by
  intro c
  induction c with
  | backgroundCtx =>
    intro q hq
    simp only [Context.ancestors, List.mem_singleton] at hq
    rw [hq]
  | cancelCtx p i ih =>
    intro q hq
    rcases List.mem_cons.1 hq with rfl | hq
    · exact Nat.le_refl _
    · have := ih q hq
      simp only [Context.cancelCtx.sizeOf_spec]; omega
  | valueCtx p k v ih =>
    intro q hq
    rcases List.mem_cons.1 hq with rfl | hq
    · exact Nat.le_refl _
    · have := ih q hq
      simp only [Context.valueCtx.sizeOf_spec]; omega
  | deadlineCtx p i d ih =>
    intro q hq
    rcases List.mem_cons.1 hq with rfl | hq
    · exact Nat.le_refl _
    · have := ih q hq
      simp only [Context.deadlineCtx.sizeOf_spec]; omega

/-- The parent of a cancel context does not lie below it. -/
theorem parent_not_under {w : World} (h : Inv w) (P : Context) (i : Nat)
    (hc : Context.cancelCtx P i ∈ w.ctxs) : P.under i = false := by
  by_contra hne
  have hu : P.under i = true := by simpa using hne
  simp only [Context.under, List.any_eq_true, decide_eq_true_eq] at hu
  obtain ⟨q, hq, hown⟩ := hu
  have hP : P ∈ w.ctxs := h.parent_mem _ hc P rfl
  have hqm := ancestors_mem h P hP q hq
  have heq := h.chan_inj _ hc _ hqm i rfl hown
  have hsz := ancestors_sizeOf P q hq
  rw [← heq] at hsz
  simp only [Context.cancelCtx.sizeOf_spec] at hsz
  omega

theorem sim_fired {i : Nat} {a b : World} (h : Sim i a b) :
    ∀ c : Context, c ∈ a.ctxs → c.under i = false →
      c.fired a.st = c.fired b.st ∧ c.Err a.st = c.Err b.st := by
  intro c
  induction c with
  | backgroundCtx => intro _ _; exact ⟨rfl, rfl⟩
  | cancelCtx p j ih =>
    intro hc hu
    have := h.closed_eq _ hc hu j rfl
    simp [Context.fired, Context.Done, chanReady, Context.Err, this]
  | valueCtx p k v ih =>
    intro hc hu
    exact ih (h.inv_a.parent_mem _ hc p rfl) (by simpa using hu)
  | deadlineCtx p j d ih =>
    intro hc hu
    have h1 := h.closed_eq _ hc hu j rfl
    have h2 := h.err_eq _ hc hu j rfl
    simp [Context.fired, Context.Done, chanReady, Context.Err, h1, h2]

theorem runCase_other (g : Goroutine) (c : SelectCase) (s : State) (j : Nat)
    (hj : j ≠ g.chan) :
    (g.runCase c s).closed j = s.closed j ∧ (g.runCase c s).err j = s.err j := by
  cases g <;> cases c <;>
    simp_all [Goroutine.runCase, Goroutine.chan, cancelCtx_close_closed, closeErr_closed,
      closeErr_err]

theorem runCase_congr (g : Goroutine) (c : SelectCase) (s t : State) (j : Nat)
    (hc : s.closed j = t.closed j) (he : s.err j = t.err j) :
    (g.runCase c s).closed j = (g.runCase c t).closed j ∧
      (g.runCase c s).err j = (g.runCase c t).err j := by
  by_cases hj : j = g.chan
  · subst hj
    cases g <;> cases c <;>
      simp_all [Goroutine.runCase, Goroutine.chan, cancelCtx_close_closed, closeErr_closed,
        closeErr_err]
  · rw [(runCase_other g c s j hj).1, (runCase_other g c s j hj).2,
      (runCase_other g c t j hj).1, (runCase_other g c t j hj).2]
    exact ⟨hc, he⟩

theorem call_congr (f : CancelFunc) (s t : State) (j : Nat)
    (hc : s.closed j = t.closed j) (he : s.err j = t.err j) :
    (f.call s).closed j = (f.call t).closed j ∧ (f.call s).err j = (f.call t).err j := by
  cases f with
  | cancelCtx_close i =>
    simp [CancelFunc.call, cancelCtx_close_closed, hc, he]
  | deadlineCtx_close i =>
    by_cases hj : j = i
    · subst hj
      simp [CancelFunc.call, deadlineCtx_close, closeErr_closed, closeErr_err, hc, he]
    · simp [CancelFunc.call, deadlineCtx_close, closeErr_closed, closeErr_err, hc, he, hj]

end GoCtx

namespace GoCtx

@[simp] theorem runCase_nextChan (g : Goroutine) (c : SelectCase) (s : State) :
    (g.runCase c s).nextChan = s.nextChan := by
  cases g <;> cases c <;> simp [Goroutine.runCase]

@[simp] theorem runCase_now (g : Goroutine) (c : SelectCase) (s : State) :
    (g.runCase c s).now = s.now := by
  cases g <;> cases c <;> simp [Goroutine.runCase]

@[simp] theorem observe_nextChan (s : State) (g : Goroutine) (pick : Nat) :
    (s.observe g pick).nextChan = s.nextChan := by
  unfold State.observe; split
  · split <;> simp
  · rfl

@[simp] theorem observe_now (s : State) (g : Goroutine) (pick : Nat) :
    (s.observe g pick).now = s.now := by
  unfold State.observe; split
  · split <;> simp
  · rfl

@[simp] theorem call_nextChan (f : CancelFunc) (s : State) :
    (f.call s).nextChan = s.nextChan := by
  cases f <;> simp [CancelFunc.call, deadlineCtx_close]

@[simp] theorem call_now (f : CancelFunc) (s : State) : (f.call s).now = s.now := by
  cases f <;> simp [CancelFunc.call, deadlineCtx_close]

@[simp] theorem call_goroutines (f : CancelFunc) (s : State) :
    (f.call s).goroutines = s.goroutines := by
  cases f <;> simp [CancelFunc.call, deadlineCtx_close]

/-- The context node a pending goroutine observes is held by the program. -/
theorem goroutine_node {w : World} (h : Inv w) (g : Goroutine) (hg : g ∈ w.st.goroutines) :
    ∃ c ∈ w.ctxs, c.ownChan = some g.chan ∧ c.parent? = some g.parent ∧
      ∀ i, c.under i = g.under i := by
  cases g with
  | cancelObserver p j =>
    exact ⟨_, h.gor_c p j hg, rfl, rfl, fun i => by
      simp [Goroutine.under, Goroutine.chan, Goroutine.parent]⟩
  | deadlineObserver p j t =>
    obtain ⟨d, hd⟩ := h.gor_d p j t hg
    exact ⟨_, hd, rfl, rfl, fun i => by
      simp [Goroutine.under, Goroutine.chan, Goroutine.parent]⟩

/-- An observer inside the subtree touches nothing outside it. -/
theorem observe_frame {w : World} (h : Inv w) (i : Nat) (g : Goroutine) (pick : Nat)
    (hu : g.under i = true) (c : Context) (hc : c ∈ w.ctxs) (hcu : c.under i = false)
    (j : Nat) (hj : c.ownChan = some j) :
    (w.st.observe g pick).closed j = w.st.closed j ∧
      (w.st.observe g pick).err j = w.st.err j := by
  unfold State.observe
  by_cases hg : g ∈ w.st.goroutines
  · rw [if_pos hg]
    cases hsel : g.select pick w.st with
    | none => exact ⟨rfl, rfl⟩
    | some c2 =>
      dsimp only
      obtain ⟨n, hn, hown, _, hund⟩ := goroutine_node h g hg
      have hne : j ≠ g.chan := by
        intro he
        subst he
        have := h.chan_inj _ hc _ hn _ hj hown
        subst this
        rw [hund i, hu] at hcu
        cases hcu
      exact runCase_other g c2 _ j hne
  · rw [if_neg hg]; exact ⟨rfl, rfl⟩

theorem sim_select {i : Nat} {a b : World} (h : Sim i a b) (g : Goroutine) (pick : Nat)
    (hu : g.under i = false) (hg : g ∈ a.st.goroutines) :
    g.select pick a.st = g.select pick b.st := by
  obtain ⟨n, hn, hown, hpar, hund⟩ := goroutine_node h.inv_a g hg
  have hnu : n.under i = false := by rw [hund i, hu]
  have hp : g.parent ∈ a.ctxs := h.inv_a.parent_mem _ hn _ hpar
  have hpu : g.parent.under i = false := by
    simp only [Goroutine.under, Bool.or_eq_false_iff] at hu
    exact hu.2
  have h1 := (sim_fired h g.parent hp hpu).1
  have h2 := h.closed_eq n hn hnu _ hown
  have h3 := h.now_eq
  have hr : ∀ c, g.ready c a.st = g.ready c b.st := by
    intro c
    cases g <;> cases c <;>
      simp_all [Goroutine.ready, Goroutine.chan, Goroutine.parent, Context.fired]
  simp only [Goroutine.select, Goroutine.readyCases, hr]

end GoCtx

namespace GoCtx

theorem sim_observe {i : Nat} {a b : World} (h : Sim i a b) (g : Goroutine) (pick : Nat) :
    Sim i (a.step (.observe g pick)) (b.step (.observe g pick)) := by
  have ia := inv_step h.inv_a (.observe g pick)
  have ib := inv_step h.inv_b (.observe g pick)
  by_cases hu : g.under i = true
  · refine ⟨ia, ib, h.ctxs_eq, h.cancels_eq, ?_, ?_, ?_, ?_, ?_⟩
    · simpa [World.step] using h.next_eq
    · simpa [World.step] using h.now_eq
    · intro c hc hcu j hj
      have hcb : c ∈ b.ctxs := h.ctxs_eq ▸ hc
      simp only [World.step]
      rw [(observe_frame h.inv_a i g pick hu c hc hcu j hj).1,
        (observe_frame h.inv_b i g pick hu c hcb hcu j hj).1]
      exact h.closed_eq c hc hcu j hj
    · intro c hc hcu j hj
      have hcb : c ∈ b.ctxs := h.ctxs_eq ▸ hc
      simp only [World.step]
      rw [(observe_frame h.inv_a i g pick hu c hc hcu j hj).2,
        (observe_frame h.inv_b i g pick hu c hcb hcu j hj).2]
      exact h.err_eq c hc hcu j hj
    · intro g2 hg2
      have hne : g2 ≠ g := by
        intro he; rw [he, hu] at hg2; cases hg2
      simp only [World.step, observe_goroutines]
      have hm : ∀ l : List Goroutine, g2 ∈ l.erase g ↔ g2 ∈ l :=
        fun l => List.mem_erase_of_ne hne
      split <;> split <;> (try simp only [hm]) <;> exact h.gor_eq g2 hg2
  · have hu2 : g.under i = false := by simpa using hu
    by_cases hg : g ∈ a.st.goroutines
    · have hgb : g ∈ b.st.goroutines := (h.gor_eq g hu2).1 hg
      have hsel := sim_select h g pick hu2 hg
      cases hs : g.select pick a.st with
      | none =>
        have hsb : g.select pick b.st = none := by rw [← hsel, hs]
        have ea : a.step (.observe g pick) = a := by
          simp [World.step, State.observe, hg, hs]
        have eb : b.step (.observe g pick) = b := by
          simp [World.step, State.observe, hgb, hsb]
        rw [ea, eb]; exact h
      | some c2 =>
        have hsb : g.select pick b.st = some c2 := by rw [← hsel, hs]
        have ea : (a.step (.observe g pick)).st = g.runCase c2
            (State.mk a.st.now a.st.nextChan a.st.closed a.st.err (a.st.goroutines.erase g)) := by
          simp only [World.step]; exact observe_of_select hg hs
        have eb : (b.step (.observe g pick)).st = g.runCase c2
            (State.mk b.st.now b.st.nextChan b.st.closed b.st.err (b.st.goroutines.erase g)) := by
          simp only [World.step]; exact observe_of_select hgb hsb
        refine ⟨ia, ib, h.ctxs_eq, h.cancels_eq, ?_, ?_, ?_, ?_, ?_⟩
        · rw [ea, eb]; simpa using h.next_eq
        · rw [ea, eb]; simpa using h.now_eq
        · intro c hc hcu j hj
          rw [ea, eb]
          exact (runCase_congr g c2
            (State.mk a.st.now a.st.nextChan a.st.closed a.st.err (a.st.goroutines.erase g))
            (State.mk b.st.now b.st.nextChan b.st.closed b.st.err (b.st.goroutines.erase g))
            j (h.closed_eq c hc hcu j hj) (h.err_eq c hc hcu j hj)).1
        · intro c hc hcu j hj
          rw [ea, eb]
          exact (runCase_congr g c2
            (State.mk a.st.now a.st.nextChan a.st.closed a.st.err (a.st.goroutines.erase g))
            (State.mk b.st.now b.st.nextChan b.st.closed b.st.err (b.st.goroutines.erase g))
            j (h.closed_eq c hc hcu j hj) (h.err_eq c hc hcu j hj)).2
        · intro g2 hg2
          rw [ea, eb]
          simp only [runCase_goroutines]
          rw [h.inv_a.nodup.mem_erase_iff, h.inv_b.nodup.mem_erase_iff, h.gor_eq g2 hg2]
    · have hgb : g ∉ b.st.goroutines := fun hb => hg ((h.gor_eq g hu2).2 hb)
      have ea : a.step (.observe g pick) = a := by simp [World.step, State.observe, hg]
      have eb : b.step (.observe g pick) = b := by simp [World.step, State.observe, hgb]
      rw [ea, eb]; exact h

theorem sim_cancel {i : Nat} {a b : World} (h : Sim i a b) (f : CancelFunc) :
    Sim i (a.step (.cancel f)) (b.step (.cancel f)) := by
  have ia := inv_step h.inv_a (.cancel f)
  have ib := inv_step h.inv_b (.cancel f)
  by_cases hf : f ∈ a.cancels
  · have hfb : f ∈ b.cancels := h.cancels_eq ▸ hf
    have ea : a.step (.cancel f) = { a with st := f.call a.st } := by simp [World.step, hf]
    have eb : b.step (.cancel f) = { b with st := f.call b.st } := by simp [World.step, hfb]
    rw [ea] at ia
    rw [eb] at ib
    rw [ea, eb]
    refine ⟨ia, ib, h.ctxs_eq, h.cancels_eq, ?_, ?_, ?_, ?_, ?_⟩
    · simpa using h.next_eq
    · simpa using h.now_eq
    · intro c hc hcu j hj
      exact (call_congr f _ _ j (h.closed_eq c hc hcu j hj) (h.err_eq c hc hcu j hj)).1
    · intro c hc hcu j hj
      exact (call_congr f _ _ j (h.closed_eq c hc hcu j hj) (h.err_eq c hc hcu j hj)).2
    · intro g2 hg2
      simpa using h.gor_eq g2 hg2
  · have hfb : f ∉ b.cancels := fun hb => hf (h.cancels_eq ▸ hb)
    have ea : a.step (.cancel f) = a := by simp [World.step, hf]
    have eb : b.step (.cancel f) = b := by simp [World.step, hfb]
    rw [ea, eb]; exact h

theorem sim_tick {i : Nat} {a b : World} (h : Sim i a b) (dt : Nat) :
    Sim i (a.step (.tick dt)) (b.step (.tick dt)) := by
  have ia := inv_step h.inv_a (.tick dt)
  have ib := inv_step h.inv_b (.tick dt)
  refine ⟨ia, ib, h.ctxs_eq, h.cancels_eq, h.next_eq, ?_, h.closed_eq, h.err_eq, h.gor_eq⟩
  simp only [World.step]; rw [h.now_eq]

theorem sim_withValue {i : Nat} {a b : World} (h : Sim i a b) (p : Context) (k v : GoAny) :
    Sim i (a.step (.withValue p k v)) (b.step (.withValue p k v)) := by
  have ia := inv_step h.inv_a (.withValue p k v)
  have ib := inv_step h.inv_b (.withValue p k v)
  by_cases hp : p ∈ a.ctxs
  · have hpb : p ∈ b.ctxs := h.ctxs_eq ▸ hp
    cases hr : WithValue (some p) k v with
    | error e =>
      have ea : a.step (.withValue p k v) = a := by simp [World.step, hp, hr]
      have eb : b.step (.withValue p k v) = b := by simp [World.step, hpb, hr]
      rw [ea, eb]; exact h
    | ok c =>
      have ea : a.step (.withValue p k v) = { a with ctxs := c :: a.ctxs } := by
        simp [World.step, hp, hr]
      have eb : b.step (.withValue p k v) = { b with ctxs := c :: b.ctxs } := by
        simp [World.step, hpb, hr]
      have hown : c.ownChan = none := by
        unfold WithValue at hr
        simp only at hr
        split at hr
        · cases hr
        · split at hr
          · cases hr
          · cases hr; rfl
      rw [ea] at ia
      rw [eb] at ib
      rw [ea, eb]
      refine ⟨ia, ib, by simp [h.ctxs_eq], h.cancels_eq, h.next_eq, h.now_eq, ?_, ?_, h.gor_eq⟩
      · intro c2 hc2 hcu j hj
        rcases List.mem_cons.1 hc2 with rfl | hc2
        · rw [hown] at hj; cases hj
        · exact h.closed_eq c2 hc2 hcu j hj
      · intro c2 hc2 hcu j hj
        rcases List.mem_cons.1 hc2 with rfl | hc2
        · rw [hown] at hj; cases hj
        · exact h.err_eq c2 hc2 hcu j hj
  · have hpb : p ∉ b.ctxs := fun hb => hp (h.ctxs_eq ▸ hb)
    have ea : a.step (.withValue p k v) = a := by simp [World.step, hp]
    have eb : b.step (.withValue p k v) = b := by simp [World.step, hpb]
    rw [ea, eb]; exact h

end GoCtx

namespace GoCtx

/-- The same allocation in both worlds keeps them similar. -/
theorem sim_alloc {i : Nat} {a b : World} (h : Sim i a b) (a2 b2 : World)
    (ia : Inv a2) (ib : Inv b2) (c : Context) (gs : List Goroutine)
    (hca : a2.ctxs = c :: a.ctxs) (hcb : b2.ctxs = c :: b.ctxs)
    (hcan : a2.cancels = b2.cancels)
    (hna : a2.st.nextChan = a.st.nextChan + 1) (hnb : b2.st.nextChan = b.st.nextChan + 1)
    (hta : a2.st.now = a.st.now) (htb : b2.st.now = b.st.now)
    (hown : c.ownChan = some a.st.nextChan)
    (hcla : ∀ j, j ≠ a.st.nextChan →
      a2.st.closed j = a.st.closed j ∧ a2.st.err j = a.st.err j)
    (hclb : ∀ j, j ≠ a.st.nextChan →
      b2.st.closed j = b.st.closed j ∧ b2.st.err j = b.st.err j)
    (hnew : a2.st.closed a.st.nextChan = b2.st.closed a.st.nextChan ∧
      a2.st.err a.st.nextChan = b2.st.err a.st.nextChan)
    (hga : a2.st.goroutines = gs ++ a.st.goroutines)
    (hgb : b2.st.goroutines = gs ++ b.st.goroutines) : Sim i a2 b2 := by
  have key : ∀ c2 ∈ a2.ctxs, c2.under i = false → ∀ j, c2.ownChan = some j →
      a2.st.closed j = b2.st.closed j ∧ a2.st.err j = b2.st.err j := by
    intro c2 hc2 hcu j hj
    rw [hca] at hc2
    by_cases hjn : j = a.st.nextChan
    · rw [hjn]; exact hnew
    · rcases List.mem_cons.1 hc2 with rfl | hc2
      · rw [hown] at hj; cases hj; exact absurd rfl hjn
      · rw [(hcla j hjn).1, (hcla j hjn).2, (hclb j hjn).1, (hclb j hjn).2]
        exact ⟨h.closed_eq c2 hc2 hcu j hj, h.err_eq c2 hc2 hcu j hj⟩
  refine ⟨ia, ib, ?_, hcan, ?_, ?_, fun c2 hc2 hcu j hj => (key c2 hc2 hcu j hj).1,
    fun c2 hc2 hcu j hj => (key c2 hc2 hcu j hj).2, ?_⟩
  · rw [hca, hcb, h.ctxs_eq]
  · rw [hna, hnb, h.next_eq]
  · rw [hta, htb, h.now_eq]
  · intro g hg
    rw [hga, hgb, List.mem_append, List.mem_append, h.gor_eq g hg]

theorem sim_withCancel {i : Nat} {a b : World} (h : Sim i a b) (p : Context) :
    Sim i (a.step (.withCancel p)) (b.step (.withCancel p)) := by
  have ia := inv_step h.inv_a (.withCancel p)
  have ib := inv_step h.inv_b (.withCancel p)
  by_cases hp : p ∈ a.ctxs
  · have hpb : p ∈ b.ctxs := h.ctxs_eq ▸ hp
    simp only [World.step, if_pos hp, if_pos hpb] at ia ib ⊢
    have hn := h.next_eq
    refine sim_alloc h _ _ ia ib (.cancelCtx p a.st.nextChan)
      [.cancelObserver p a.st.nextChan] rfl ?_ ?_ rfl rfl rfl rfl rfl ?_ ?_ ?_ rfl ?_
    · simp [World.record, WithCancel, State.makeChan, hn]
    · simp [World.record, WithCancel, State.makeChan, hn, h.cancels_eq]
    · intro j hj; simp [World.record, WithCancel, State.makeChan, State.spawn, hj]
    · intro j hj; rw [hn] at hj
      simp [World.record, WithCancel, State.makeChan, State.spawn, hj]
    · simp [World.record, WithCancel, State.makeChan, State.spawn, hn]
    · simp [World.record, WithCancel, State.makeChan, State.spawn, hn]
  · have hpb : p ∉ b.ctxs := fun hb => hp (h.ctxs_eq ▸ hb)
    simp only [World.step, if_neg hp, if_neg hpb]
    exact h

theorem sim_withTimeout {i : Nat} {a b : World} (h : Sim i a b) (p : Context) (t : Int) :
    Sim i (a.step (.withTimeout p t)) (b.step (.withTimeout p t)) := by
  have ia := inv_step h.inv_a (.withTimeout p t)
  have ib := inv_step h.inv_b (.withTimeout p t)
  by_cases hp : p ∈ a.ctxs
  · have hpb : p ∈ b.ctxs := h.ctxs_eq ▸ hp
    simp only [World.step, if_pos hp, if_pos hpb] at ia ib ⊢
    have hn := h.next_eq
    have ht := h.now_eq
    refine sim_alloc h _ _ ia ib (.deadlineCtx p a.st.nextChan (a.st.now + t))
      [.deadlineObserver p a.st.nextChan (a.st.now + t)] rfl ?_ ?_ rfl rfl rfl rfl rfl ?_ ?_ ?_
      rfl ?_
    · simp [World.record, WithTimeout, State.makeChan, hn, ht]
    · simp [World.record, WithTimeout, State.makeChan, hn, h.cancels_eq]
    · intro j hj; simp [World.record, WithTimeout, State.makeChan, State.spawn, hj]
    · intro j hj; rw [hn] at hj
      simp [World.record, WithTimeout, State.makeChan, State.spawn, hj]
    · simp [World.record, WithTimeout, State.makeChan, State.spawn, hn]
    · simp [World.record, WithTimeout, State.makeChan, State.spawn, hn, ht]
  · have hpb : p ∉ b.ctxs := fun hb => hp (h.ctxs_eq ▸ hb)
    simp only [World.step, if_neg hp, if_neg hpb]
    exact h

theorem sim_withDeadline {i : Nat} {a b : World} (h : Sim i a b) (p : Context) (d : Int) :
    Sim i (a.step (.withDeadline p d)) (b.step (.withDeadline p d)) := by
  have ia := inv_step h.inv_a (.withDeadline p d)
  have ib := inv_step h.inv_b (.withDeadline p d)
  by_cases hp : p ∈ a.ctxs
  · have hpb : p ∈ b.ctxs := h.ctxs_eq ▸ hp
    simp only [World.step, if_pos hp, if_pos hpb] at ia ib ⊢
    have hn := h.next_eq
    have ht := h.now_eq
    by_cases hd : d < a.st.now
    · have hdb : d < b.st.now := ht ▸ hd
      refine sim_alloc h _ _ ia ib (.deadlineCtx p a.st.nextChan d) [] ?_ ?_ ?_ ?_ ?_ ?_ ?_
        rfl ?_ ?_ ?_ ?_ ?_
      · simp [World.record, WithDeadline, State.makeChan, hd]
      · simp [World.record, WithDeadline, State.makeChan, hdb, hn]
      · simp [World.record, WithDeadline, State.makeChan, hd, hdb, hn, h.cancels_eq]
      · simp [World.record, WithDeadline, State.makeChan, hd]
      · simp [World.record, WithDeadline, State.makeChan, hdb]
      · simp [World.record, WithDeadline, State.makeChan, hd]
      · simp [World.record, WithDeadline, State.makeChan, hdb]
      · intro j hj; simp [World.record, WithDeadline, State.makeChan, hd, hj]
      · intro j hj; rw [hn] at hj
        simp [World.record, WithDeadline, State.makeChan, hdb, hj]
      · simp [World.record, WithDeadline, State.makeChan, hd, hdb, hn]
      · simp [World.record, WithDeadline, State.makeChan, hd]
      · simp [World.record, WithDeadline, State.makeChan, hdb]
    · have hdb : ¬ d < b.st.now := ht ▸ hd
      refine sim_alloc h _ _ ia ib (.deadlineCtx p a.st.nextChan d)
        [.deadlineObserver p a.st.nextChan (a.st.now + (d - a.st.now))]
        ?_ ?_ ?_ ?_ ?_ ?_ ?_ rfl ?_ ?_ ?_ ?_ ?_
      · simp [World.record, WithDeadline, State.makeChan, hd]
      · simp [World.record, WithDeadline, State.makeChan, hdb, hn]
      · simp [World.record, WithDeadline, State.makeChan, hd, hdb, hn, h.cancels_eq]
      · simp [World.record, WithDeadline, State.makeChan, State.spawn, hd]
      · simp [World.record, WithDeadline, State.makeChan, State.spawn, hdb]
      · simp [World.record, WithDeadline, State.makeChan, State.spawn, hd]
      · simp [World.record, WithDeadline, State.makeChan, State.spawn, hdb]
      · intro j hj; simp [World.record, WithDeadline, State.makeChan, State.spawn, hd, hj]
      · intro j hj; rw [hn] at hj
        simp [World.record, WithDeadline, State.makeChan, State.spawn, hdb, hj]
      · simp [World.record, WithDeadline, State.makeChan, State.spawn, hd, hdb, hn]
      · simp [World.record, WithDeadline, State.makeChan, State.spawn, hd]
      · simp [World.record, WithDeadline, State.makeChan, State.spawn, hdb, hn, ht]
  · have hpb : p ∉ b.ctxs := fun hb => hp (h.ctxs_eq ▸ hb)
    simp only [World.step, if_neg hp, if_neg hpb]
    exact h

theorem sim_step {i : Nat} {a b : World} (h : Sim i a b) (e : Event) :
    Sim i (a.step e) (b.step e) := by
  cases e with
  | withCancel p => exact sim_withCancel h p
  | withValue p k v => exact sim_withValue h p k v
  | withDeadline p d => exact sim_withDeadline h p d
  | withTimeout p t => exact sim_withTimeout h p t
  | cancel f => exact sim_cancel h f
  | observe g pick => exact sim_observe h g pick
  | tick dt => exact sim_tick h dt

theorem sim_run {i : Nat} {a b : World} (h : Sim i a b) (evs : List Event) :
    Sim i (a.run evs) (b.run evs) := by
  induction evs generalizing a b with
  | nil => exact h
  | cons e evs ih => exact ih (sim_step h e)

end GoCtx

namespace GoCtx

theorem self_under (c : Context) (i : Nat) (h : c.ownChan = some i) : c.under i = true := by
  cases c <;> simp_all [Context.ownChan]

theorem sim_after_cancel {w : World} (h : Inv w) (P : Context) (i : Nat)
    (hc : Context.cancelCtx P i ∈ w.ctxs) :
    Sim i (w.call (.cancelCtx_close i)) w := by
  have ia : Inv (w.call (.cancelCtx_close i)) := by
    refine h.fire _ i (by simp [CancelFunc.call]) (cancelCtx_close_closed i w.st)
      (by simp [CancelFunc.call]) ?_ (by simp [CancelFunc.call])
      (fun g hg => Or.inl (by simpa [CancelFunc.call] using hg))
      (by simpa [CancelFunc.call] using h.nodup)
    intro p2 d hd
    have := h.chan_inj _ hc _ hd i rfl rfl
    cases this
  refine ⟨ia, h, rfl, rfl, by simp [World.call], by simp [World.call], ?_, ?_, ?_⟩
  · intro c _ hcu j hj
    have hne : j ≠ i := by
      intro he; subst he
      rw [self_under c j hj] at hcu; cases hcu
    simp [World.call, CancelFunc.call, cancelCtx_close_closed, hne]
  · intro c _ _ j _
    simp [World.call, CancelFunc.call]
  · intro g _
    simp [World.call]

/-- C9: in a reachable world let `C1` and `C2` be two cancel contexts derived
from the same parent `P`.  Calling `C1`'s cancel function changes only `C1`'s
own channel; and after any further events (observer steps with any choices,
and anything else), `P` and `C2` are fired exactly when they are fired after
the same events without the call, with the same `Err()`.  In particular they
are still unfired with a nil `Err()` whenever nothing else fired them. -/
theorem sibling_cancel_is_framed (t0 : Int) (evs0 : List Event) (P : Context) (i1 i2 : Nat)
    (evs : List Event)
    (h1 : Context.cancelCtx P i1 ∈ ((World.init t0).run evs0).ctxs)
    (h2 : Context.cancelCtx P i2 ∈ ((World.init t0).run evs0).ctxs)
    (hne : i1 ≠ i2) :
    ((∀ j, j ≠ i1 →
        (((World.init t0).run evs0).call (.cancelCtx_close i1)).st.closed j =
          ((World.init t0).run evs0).st.closed j) ∧
      (((World.init t0).run evs0).call (.cancelCtx_close i1)).st.err =
        ((World.init t0).run evs0).st.err ∧
      (((World.init t0).run evs0).call (.cancelCtx_close i1)).st.goroutines =
        ((World.init t0).run evs0).st.goroutines) ∧
    (P.fired ((((World.init t0).run evs0).call (.cancelCtx_close i1)).run evs).st =
        P.fired (((World.init t0).run evs0).run evs).st ∧
      P.Err ((((World.init t0).run evs0).call (.cancelCtx_close i1)).run evs).st =
        P.Err (((World.init t0).run evs0).run evs).st ∧
      (Context.cancelCtx P i2).fired
          ((((World.init t0).run evs0).call (.cancelCtx_close i1)).run evs).st =
        (Context.cancelCtx P i2).fired (((World.init t0).run evs0).run evs).st ∧
      (Context.cancelCtx P i2).Err
          ((((World.init t0).run evs0).call (.cancelCtx_close i1)).run evs).st =
        (Context.cancelCtx P i2).Err (((World.init t0).run evs0).run evs).st) ∧
    (P.fired (((World.init t0).run evs0).run evs).st = false →
      P.fired ((((World.init t0).run evs0).call (.cancelCtx_close i1)).run evs).st = false ∧
      P.Err ((((World.init t0).run evs0).call (.cancelCtx_close i1)).run evs).st = none) ∧
    ((Context.cancelCtx P i2).fired (((World.init t0).run evs0).run evs).st = false →
      (Context.cancelCtx P i2).fired
          ((((World.init t0).run evs0).call (.cancelCtx_close i1)).run evs).st = false ∧
      (Context.cancelCtx P i2).Err
          ((((World.init t0).run evs0).call (.cancelCtx_close i1)).run evs).st = none) := by
  have hinv := inv_reachable t0 evs0
  generalize (World.init t0).run evs0 = w at h1 h2 hinv
  have hsim := sim_run (sim_after_cancel hinv P i1 h1) evs
  have hP : P ∈ w.ctxs := hinv.parent_mem _ h1 P rfl
  have hPu : P.under i1 = false := parent_not_under hinv P i1 h1
  have hC2u : (Context.cancelCtx P i2).under i1 = false := by
    simp [hPu, hne.symm]
  have hPm : P ∈ ((w.call (.cancelCtx_close i1)).run evs).ctxs :=
    ctxs_subset_run _ evs P hP
  have hC2m : Context.cancelCtx P i2 ∈ ((w.call (.cancelCtx_close i1)).run evs).ctxs :=
    ctxs_subset_run _ evs _ h2
  have eP := sim_fired hsim P hPm hPu
  have eC := sim_fired hsim _ hC2m hC2u
  refine ⟨⟨?_, ?_, ?_⟩, ⟨eP.1, eP.2, eC.1, eC.2⟩, ?_, ?_⟩
  · intro j hj
    simp [World.call, CancelFunc.call, cancelCtx_close_closed, hj]
  · simp [World.call, CancelFunc.call]
  · simp [World.call, CancelFunc.call]
  · intro hf
    have hf2 : P.fired ((w.call (.cancelCtx_close i1)).run evs).st = false := by
      rw [eP.1]; exact hf
    exact ⟨hf2, (err_nil_iff_of_inv hsim.inv_a P hPm).2 hf2⟩
  · intro hf
    have hf2 : (Context.cancelCtx P i2).fired
        ((w.call (.cancelCtx_close i1)).run evs).st = false := by
      rw [eC.1]; exact hf
    exact ⟨hf2, (err_nil_iff_of_inv hsim.inv_a _ hC2m).2 hf2⟩

/-- Witness for C9: two children of one cancel context; the first is
cancelled, both observers are scheduled and the clock advances; the second
child is still unfired with a nil `Err()`. -/
theorem sibling_cancel_is_framed_witness :
    (Context.cancelCtx (.cancelCtx .backgroundCtx 0) 2).fired
        ((((World.init 0).run [.withCancel .backgroundCtx,
            .withCancel (.cancelCtx .backgroundCtx 0),
            .withCancel (.cancelCtx .backgroundCtx 0)]).call (.cancelCtx_close 1)).run
          [.observe (.cancelObserver (.cancelCtx .backgroundCtx 0) 1) 0,
           .observe (.cancelObserver (.cancelCtx .backgroundCtx 0) 2) 0, .tick 3]).st = false ∧
      (Context.cancelCtx (.cancelCtx .backgroundCtx 0) 2).Err
        ((((World.init 0).run [.withCancel .backgroundCtx,
            .withCancel (.cancelCtx .backgroundCtx 0),
            .withCancel (.cancelCtx .backgroundCtx 0)]).call (.cancelCtx_close 1)).run
          [.observe (.cancelObserver (.cancelCtx .backgroundCtx 0) 1) 0,
           .observe (.cancelObserver (.cancelCtx .backgroundCtx 0) 2) 0, .tick 3]).st = none :=
  (sibling_cancel_is_framed 0 [.withCancel .backgroundCtx,
      .withCancel (.cancelCtx .backgroundCtx 0), .withCancel (.cancelCtx .backgroundCtx 0)]
    (.cancelCtx .backgroundCtx 0) 1 2
    [.observe (.cancelObserver (.cancelCtx .backgroundCtx 0) 1) 0,
     .observe (.cancelObserver (.cancelCtx .backgroundCtx 0) 2) 0, .tick 3]
    (by decide) (by decide) (by decide)).2.2.2 (by decide)

end GoCtx

namespace GoCtx

/-! ## Roots, preconditions, deadlines -/

/-- C11: `Background()` and `TODO()` return the same root context, and for it,
in every state: `Deadline()` reports no deadline (`ok` is false), `Done()` is
the nil channel, which is never ready, `Err()` is nil, and `Value(k)` is nil
for every key `k`, nil included. -/
theorem roots_are_inert :
    Background = TODO ∧
    Background.Deadline = (0, false) ∧ TODO.Deadline = (0, false) ∧
    Background.Done = none ∧ TODO.Done = none ∧
    (∀ s : State, Background.fired s = false ∧ TODO.fired s = false) ∧
    (∀ s : State, Background.Err s = none ∧ TODO.Err s = none) ∧
    (∀ k : GoAny, Background.Value k = .ok .nil ∧ TODO.Value k = .ok .nil) :=
  ⟨rfl, rfl, rfl, rfl, rfl, fun _ => ⟨rfl, rfl⟩, fun _ => ⟨rfl, rfl⟩, fun _ => ⟨rfl, rfl⟩⟩

/-- C12: `WithCancel`, `WithTimeout` and `WithDeadline` panic exactly when the
parent is nil; `WithValue` panics exactly when the parent is nil, or the key is
nil, or the key's dynamic type is not comparable; in every other case the call
returns. -/
theorem derivations_panic_iff_precondition_violated :
    (∀ (p : Option Context) (s : State), panics (WithCancel p s) = true ↔ p = none) ∧
    (∀ (p : Option Context) (t : Int) (s : State),
      panics (WithTimeout p t s) = true ↔ p = none) ∧
    (∀ (p : Option Context) (d : Int) (s : State),
      panics (WithDeadline p d s) = true ↔ p = none) ∧
    (∀ (p : Option Context) (k v : GoAny),
      panics (WithValue p k v) = true ↔ (p = none ∨ k = .nil ∨ k.comparable = false)) := by
  refine ⟨?_, ?_, ?_, ?_⟩
  · intro p s
    cases p <;> simp [WithCancel, panics, State.makeChan]
  · intro p t s
    cases p <;> simp [WithTimeout, panics, State.makeChan]
  · intro p d s
    cases p with
    | none => simp [WithDeadline, panics]
    | some c =>
      by_cases hd : d < s.now <;> simp [WithDeadline, panics, State.makeChan, hd]
  · intro p k v
    cases p with
    | none => simp [WithValue, panics]
    | some c =>
      by_cases hk : k = .nil
      · simp [WithValue, panics, hk]
      · by_cases hc : k.comparable = true
        · simp [WithValue, panics, hk, hc]
        · simp [WithValue, panics, hk, hc]

/-- C13: the context returned by `WithCancel` reports no deadline (`ok` is
false) whatever its parent is, a deadline context included; the context
returned by `WithDeadline(parent, d)` reports `(d, true)`.  `Deadline()` reads
no mutable state, so this holds before and after the context fires. -/
theorem deadline_is_own_deadline :
    (∀ (p : Context) (s s1 : State) (ctx : Context) (f : CancelFunc),
      WithCancel (some p) s = .ok (ctx, f, s1) → ctx.Deadline = (0, false)) ∧
    (∀ (p : Context) (d : Int) (s s1 : State) (ctx : Context) (f : CancelFunc),
      WithDeadline (some p) d s = .ok (ctx, f, s1) → ctx.Deadline = (d, true)) := by
  constructor
  · intro p s s1 ctx f h
    simp only [WithCancel, State.makeChan, Except.ok.injEq, Prod.mk.injEq] at h
    rw [← h.1]; rfl
  · intro p d s s1 ctx f h
    unfold WithDeadline at h
    by_cases hd : d < s.now
    · simp only [hd, if_true, State.makeChan, Except.ok.injEq, Prod.mk.injEq] at h
      rw [← h.1]; rfl
    · simp only [hd, if_false, State.makeChan, Except.ok.injEq, Prod.mk.injEq] at h
      rw [← h.1]; rfl

/-- Witness for C13: a cancel context whose parent is a deadline context with
deadline 10 reports no deadline; the deadline context reports `(10, true)`. -/
theorem deadline_is_own_deadline_witness :
    (Context.cancelCtx (.deadlineCtx .backgroundCtx 0 10) 1).Deadline = (0, false) ∧
      (Context.deadlineCtx .backgroundCtx 0 10).Deadline = (10, true) :=
  ⟨deadline_is_own_deadline.1 (.deadlineCtx .backgroundCtx 0 10)
      ((World.init 0).step (.withDeadline .backgroundCtx 10)).st _ _ _ rfl,
    deadline_is_own_deadline.2 .backgroundCtx 10 (World.init 0).st _ _ _ rfl⟩

end GoCtx

namespace GoRing

open GoCtx (GoAny setAt)

/-! ## The ring built by `New` -/

theorem setAt_apply {α : Type} (f : Nat → α) (i j : Nat) (v : α) :
    setAt f i v j = if j = i then v else f j := rfl

theorem mem_setNext (h : Heap) (a : Nat) (v : Option Nat) (x : Nat) :
    (h.setNext a v).mem x = if x = a then { h.mem a with next := v } else h.mem x := rfl

theorem mem_setPrev (h : Heap) (a : Nat) (v : Option Nat) (x : Nat) :
    (h.setPrev a v).mem x = if x = a then { h.mem a with prev := v } else h.mem x := rfl

theorem setNext_Value (h : Heap) (a : Nat) (v : Option Nat) (x : Nat) :
    ((h.setNext a v).mem x).Value = (h.mem x).Value := by
  rw [mem_setNext]; split
  · next hx => rw [hx]
  · rfl

theorem setNext_next (h : Heap) (a : Nat) (v : Option Nat) (x : Nat) :
    ((h.setNext a v).mem x).next = if x = a then v else (h.mem x).next := by
  rw [mem_setNext]; split <;> rfl

theorem setNext_prev (h : Heap) (a : Nat) (v : Option Nat) (x : Nat) :
    ((h.setNext a v).mem x).prev = (h.mem x).prev := by
  rw [mem_setNext]; split
  · next hx => rw [hx]
  · rfl

theorem setPrev_Value (h : Heap) (a : Nat) (v : Option Nat) (x : Nat) :
    ((h.setPrev a v).mem x).Value = (h.mem x).Value := by
  rw [mem_setPrev]; split
  · next hx => rw [hx]
  · rfl

theorem setPrev_next (h : Heap) (a : Nat) (v : Option Nat) (x : Nat) :
    ((h.setPrev a v).mem x).next = (h.mem x).next := by
  rw [mem_setPrev]; split
  · next hx => rw [hx]
  · rfl

theorem setPrev_prev (h : Heap) (a : Nat) (v : Option Nat) (x : Nat) :
    ((h.setPrev a v).mem x).prev = if x = a then v else (h.mem x).prev := by
  rw [mem_setPrev]; split <;> rfl

theorem newLoop_spec (k : Nat) : ∀ (c : Nat) (h : Heap), h.nextAddr = c + 1 →
    (newLoop k c h).1 = c + k ∧ (newLoop k c h).2.nextAddr = c + k + 1 ∧
    (∀ x, x < c → (newLoop k c h).2.mem x = h.mem x) ∧
    ((newLoop k c h).2.mem c).Value = (h.mem c).Value ∧
    ((newLoop k c h).2.mem c).prev = (h.mem c).prev ∧
    ((newLoop k c h).2.mem c).next = (if k = 0 then (h.mem c).next else some (c + 1)) ∧
    ∀ i, 1 ≤ i → i ≤ k →
      ((newLoop k c h).2.mem (c + i)).Value = .nil ∧
      ((newLoop k c h).2.mem (c + i)).next = (if i < k then some (c + i + 1) else none) ∧
      ((newLoop k c h).2.mem (c + i)).prev = some (c + i - 1) := by
  induction k with
  | zero =>
    intro c h hn
    refine ⟨rfl, hn, fun _ _ => rfl, rfl, rfl, rfl, ?_⟩
    intro i h1 h2; omega
  | succ k ih =>
    intro c h hn
    have hstep : newLoop (k + 1) c h = newLoop k (c + 1)
        (((h.alloc).2.setPrev (c + 1) (some c)).setNext c (some (c + 1))) := by
      simp only [newLoop, Heap.alloc, hn]
    have hn3 : (((h.alloc).2.setPrev (c + 1) (some c)).setNext c (some (c + 1))).nextAddr =
        c + 1 + 1 := by
      simp [Heap.alloc, Heap.setPrev, Heap.setNext, hn]
    have hm : ∀ x, (((h.alloc).2.setPrev (c + 1) (some c)).setNext c (some (c + 1))).mem x =
        if x = c then { h.mem c with next := some (c + 1) }
        else if x = c + 1 then { zeroRing with prev := some c }
        else h.mem x := by
      intro x
      simp only [Heap.alloc, Heap.setPrev, Heap.setNext, setAt_apply, hn]
      by_cases h1 : x = c
      · subst h1; simp
      · by_cases h2 : x = c + 1
        · subst h2; simp
        · simp [h1, h2]
    obtain ⟨r1, r2, r3, r4, r5, r6, r7⟩ := ih (c + 1) _ hn3
    rw [hstep]
    refine ⟨by omega, by omega, ?_, ?_, ?_, ?_, ?_⟩
    · intro x hx
      rw [r3 x (by omega), hm x]
      have h1 : x ≠ c := by omega
      have h2 : x ≠ c + 1 := by omega
      simp [h1, h2]
    · rw [r3 c (by omega), hm c]; simp
    · rw [r3 c (by omega), hm c]; simp
    · rw [r3 c (by omega), hm c]; simp
    · intro i h1 h2
      by_cases hi : i = 1
      · subst hi
        rw [r4, r5, r6, hm (c + 1)]
        refine ⟨by simp [zeroRing], ?_, by simp⟩
        by_cases hk : k = 0
        · subst hk; simp [zeroRing]
        · have : 1 < k + 1 := by omega
          simp [hk, this]
      · obtain ⟨q1, q2, q3⟩ := r7 (i - 1) (by omega) (by omega)
        have e1 : c + 1 + (i - 1) = c + i := by omega
        rw [e1] at q1 q2 q3
        refine ⟨q1, ?_, ?_⟩
        · rw [q2]
          by_cases hk : i < k + 1
          · have : i - 1 < k := by omega
            simp only [hk, this, if_true]
          · have : ¬ (i - 1 < k) := by omega
            simp [hk, this]
        · rw [q3]

theorem empty_spec (h : Heap) :
    (empty h).1 = h.nextAddr ∧ (empty h).2.nextAddr = h.nextAddr + 1 ∧
    (∀ x, x < h.nextAddr → (empty h).2.mem x = h.mem x) ∧
    (empty h).2.mem h.nextAddr =
      { Value := .nil, next := some h.nextAddr, prev := some h.nextAddr } := by
  refine ⟨rfl, rfl, ?_, ?_⟩
  · intro x hx
    have : x ≠ h.nextAddr := by omega
    simp [empty, Heap.alloc, Heap.setNext, Heap.setPrev, setAt_apply, this]
  · simp [empty, Heap.alloc, Heap.setNext, Heap.setPrev, setAt_apply, zeroRing]

/-- What `New(m)` builds for `m ≥ 1`: the `m` fresh cells from the old
`nextAddr` on, linked into a ring, all with a nil `Value`; older cells are
untouched. -/
theorem New_spec (m : Nat) (hm : 1 ≤ m) (h : Heap) :
    (New (m : Int) h).1 = h.nextAddr ∧ (New (m : Int) h).2.nextAddr = h.nextAddr + m ∧
    (∀ x, x < h.nextAddr → (New (m : Int) h).2.mem x = h.mem x) ∧
    IsRing (New (m : Int) h).2 h.nextAddr m ∧
    ∀ k, k < m → ((New (m : Int) h).2.mem (h.nextAddr + k)).Value = .nil := by
  obtain ⟨k, rfl⟩ : ∃ k, m = k + 1 := ⟨m - 1, by omega⟩
  have hk : (((k + 1 : Nat) : Int) - 1).toNat = k := by omega
  obtain ⟨e1, e2, e3, e4⟩ := empty_spec h
  have hN : New ((k + 1 : Nat) : Int) h =
      ((empty h).1, ((newLoop k (empty h).1 (empty h).2).2.setNext
        (newLoop k (empty h).1 (empty h).2).1 (some (empty h).1)).setPrev (empty h).1
        (some (newLoop k (empty h).1 (empty h).2).1)) := by
    simp only [New, hk]
  obtain ⟨r1, r2, r3, r4, r5, r6, r7⟩ := newLoop_spec k (empty h).1 (empty h).2 (by rw [e1, e2])
  rw [e1] at r1 r2 r3 r4 r5 r6 r7 hN
  rw [e4] at r4 r5 r6
  generalize (newLoop k h.nextAddr (empty h).2) = res at r1 r2 r3 r4 r5 r6 r7 hN
  obtain ⟨cur, h2⟩ := res
  simp only at r1 r2 r3 r4 r5 r6 r7 hN
  subst r1
  have hV : ∀ x, ((New ((k + 1 : Nat) : Int) h).2.mem x).Value = (h2.mem x).Value := by
    intro x; rw [hN]; simp only [setPrev_Value, setNext_Value]
  have hNx : ∀ x, ((New ((k + 1 : Nat) : Int) h).2.mem x).next =
      if x = h.nextAddr + k then some h.nextAddr else (h2.mem x).next := by
    intro x; rw [hN]; simp only [setPrev_next, setNext_next]
  have hPv : ∀ x, ((New ((k + 1 : Nat) : Int) h).2.mem x).prev =
      if x = h.nextAddr then some (h.nextAddr + k) else (h2.mem x).prev := by
    intro x; rw [hN]; simp only [setPrev_prev, setNext_prev]
  refine ⟨by rw [hN], ?_, ?_, ?_, ?_⟩
  · rw [hN]; simp only [Heap.setNext, Heap.setPrev]; omega
  · intro x hx
    have h1 : x ≠ h.nextAddr := by omega
    have h2 : x ≠ h.nextAddr + k := by omega
    rw [hN]
    simp only [mem_setPrev, mem_setNext, h1, h2, if_false]
    rw [r3 x hx, e3 x hx]
  · intro j hj
    rw [hNx, hPv]
    by_cases hj0 : j = 0
    · subst hj0
      by_cases hk0 : k = 0
      · subst hk0; simp [succIdx, predIdx]
      · have hne : h.nextAddr ≠ h.nextAddr + k := by omega
        simp [succIdx, predIdx, hk0, r6, hne]
    · have h1 : h.nextAddr + j ≠ h.nextAddr := by omega
      obtain ⟨q1, q2, q3⟩ := r7 j (by omega) (by omega)
      by_cases hjk : j = k
      · subst hjk
        simp only [h1, if_false, if_true, q3]
        simp only [succIdx, predIdx, hj0, if_true, if_false, Nat.add_zero, Nat.add_sub_cancel,
          Option.some.injEq, true_and]
        omega
      · have h2 : h.nextAddr + j ≠ h.nextAddr + k := by omega
        have h3 : j < k := by omega
        have h4 : j + 1 ≠ k + 1 := by omega
        simp only [h1, h2, if_false, q2, q3, h3, if_true, succIdx, predIdx, hj0, h4,
          Option.some.injEq]
        constructor <;> omega
  · intro j hj
    rw [hV]
    by_cases hj0 : j = 0
    · subst hj0; exact r4
    · exact (r7 j (by omega) (by omega)).1

end GoRing

namespace GoRing

open GoCtx (GoAny setAt)

/-! ## Walking a ring -/

theorem succIdx_lt {n k : Nat} (hk : k < n) : succIdx n k < n := by
  unfold succIdx; split <;> omega

theorem predIdx_lt {n k : Nat} (hk : k < n) : predIdx n k < n := by
  unfold predIdx; split <;> omega

theorem pred_succ {n k : Nat} (_hk : k < n) : predIdx n (succIdx n k) = k := by
  unfold predIdx succIdx; split <;> split <;> omega

theorem succ_pred {n k : Nat} (hk : k < n) : succIdx n (predIdx n k) = k := by
  unfold predIdx succIdx; split <;> split <;> omega

theorem succIdx_iterate {n : Nat} (t : Nat) : ∀ j, j < n → (succIdx n)^[t] j = (j + t) % n := by
  induction t with
  | zero => intro j hj; simp [Nat.mod_eq_of_lt hj]
  | succ t ih =>
    intro j hj
    rw [Function.iterate_succ_apply', ih j hj]
    have hlt : (j + t) % n < n := Nat.mod_lt _ (by omega)
    have e : (j + (t + 1)) % n = ((j + t) % n + 1) % n := by
      rw [Nat.mod_add_mod, Nat.add_assoc]
    rw [e]
    generalize (j + t) % n = m at hlt
    unfold succIdx
    split
    · next h1 => rw [h1, Nat.mod_self]
    · next h1 => rw [Nat.mod_eq_of_lt (by omega)]

theorem Next_of_ring {h : Heap} {a n : Nat} (hr : IsRing h a n) {k : Nat} (hk : k < n) :
    Ring.Next (a + k) h = (a + succIdx n k, h) := by
  simp [Ring.Next, (hr k hk).1]

theorem Prev_of_ring {h : Heap} {a n : Nat} (hr : IsRing h a n) {k : Nat} (hk : k < n) :
    Ring.Prev (a + k) h = (a + predIdx n k, h) := by
  simp [Ring.Prev, (hr k hk).2]

theorem nextN_of_ring {h : Heap} {a n : Nat} (hr : IsRing h a n) (t : Nat) :
    ∀ k, k < n → nextN t (a + k) h = (a + (k + t) % n, h) := by
  induction t with
  | zero => intro k hk; simp [nextN, Nat.mod_eq_of_lt hk]
  | succ t ih =>
    intro k hk
    have hlt : (k + t) % n < n := Nat.mod_lt _ (by omega)
    have e := ih k hk
    unfold nextN at e ⊢
    rw [Function.iterate_succ_apply', e]
    simp only
    rw [Next_of_ring hr hlt]
    have := succIdx_iterate (n := n) (t + 1) k hk
    rw [Function.iterate_succ_apply', succIdx_iterate t k hk] at this
    rw [this]

theorem lenLoop_done (fuel : Nat) (h : Heap) (r count : Nat) :
    lenLoop fuel h r (some r) count = .done count := by
  unfold lenLoop; simp

theorem lenLoop_step (fuel : Nat) (h : Heap) (r x count : Nat) (hx : x ≠ r) :
    lenLoop (fuel + 1) h r (some x) count = lenLoop fuel h r (h.mem x).next (count + 1) := by
  rw [lenLoop]; simp [hx]

theorem lenLoop_of_ring {h : Heap} {a n : Nat} (hr : IsRing h a n) {j : Nat} (hj : j < n)
    (d : Nat) : ∀ (i fuel count : Nat), i < n →
      d = (if i ≤ j then j - i else n - i + j) → d ≤ fuel →
      lenLoop fuel h (a + j) (some (a + i)) count = .done (count + d) := by
  induction d with
  | zero =>
    intro i fuel count hi hd _
    have : i = j := by split at hd <;> omega
    subst this
    exact lenLoop_done _ _ _ _
  | succ d ih =>
    intro i fuel count hi hd hf
    have hne : i ≠ j := by
      intro he; subst he; simp at hd
    obtain ⟨fuel, rfl⟩ : ∃ f, fuel = f + 1 := ⟨fuel - 1, by omega⟩
    rw [lenLoop_step _ _ _ _ _ (by omega), (hr i hi).1,
      ih (succIdx n i) fuel (count + 1) (succIdx_lt hi) ?_ (by omega)]
    · congr 1; omega
    · unfold succIdx
      split at hd <;> split <;> split <;> omega

theorem Len_of_ring {h : Heap} {a n : Nat} (hr : IsRing h a n) {j : Nat} (hj : j < n)
    (fuel : Nat) (hf : n - 1 ≤ fuel) : Ring.Len (a + j) h fuel = .done n := by
  unfold Ring.Len
  rw [if_neg (by rw [(hr j hj).1]; simp), Next_of_ring hr hj]
  simp only
  rw [lenLoop_of_ring hr hj (n - 1) (succIdx n j) fuel 1 (succIdx_lt hj) ?_ hf]
  · congr 1; omega
  · unfold succIdx
    split <;> split <;> omega

/-- C17: for every `n ≥ 1`, on any element of the ring `New(n)` (any number `t`
of `Next` steps from the returned element) `Len()` returns `n` whenever the
step budget is at least `n`, and the element's `Value` is nil; `Next` on these
elements allocates nothing.  `Len()` on a zero-value `Ring` returns 1 with any
budget. -/
theorem ring_new_has_len_n (n : Nat) (h : Heap) (t fuel : Nat) (hn : 1 ≤ n) (hf : n ≤ fuel) :
    Ring.Len (nextN t (New (n : Int) h).1 (New (n : Int) h).2).1 (New (n : Int) h).2 fuel =
      .done n ∧
    ((New (n : Int) h).2.mem (nextN t (New (n : Int) h).1 (New (n : Int) h).2).1).Value = .nil ∧
    (nextN t (New (n : Int) h).1 (New (n : Int) h).2).2 = (New (n : Int) h).2 ∧
    Ring.Len h.alloc.1 h.alloc.2 0 = .done 1 ∧
    (∀ fuel2, Ring.Len h.alloc.1 h.alloc.2 fuel2 = .done 1) := by
  obtain ⟨e1, _, _, hr, hv⟩ := New_spec n hn h
  have hz : ∀ fuel2, Ring.Len h.alloc.1 h.alloc.2 fuel2 = .done 1 := by
    intro fuel2
    simp [Ring.Len, Heap.alloc, zeroRing]
  have hN := nextN_of_ring hr t 0 (by omega)
  rw [e1]
  rw [Nat.add_zero] at hN
  rw [hN]
  have hlt : (0 + t) % n < n := Nat.mod_lt _ (by omega)
  exact ⟨Len_of_ring hr hlt fuel (by omega), hv _ hlt, rfl, hz 0, hz⟩

/-- Witness for C17: the element two steps from the start of `New(5)`. -/
theorem ring_new_has_len_n_witness :
    Ring.Len (nextN 2 (New 5 Heap.init).1 (New 5 Heap.init).2).1 (New 5 Heap.init).2 7 =
      .done 5 :=
  (ring_new_has_len_n 5 Heap.init 2 7 (by decide) (by decide)).1

/-- C19: for every `n ≥ 1` and every element `r` of the ring `New(n)` (any
number `t` of `Next` steps from the returned element): `r.Next().Prev()` is `r`
and `r.Prev().Next()` is `r`; `n` calls of `Next` from `r` come back to `r`;
`r.Prev()` is the element `n - 1` calls of `Next` away; none of these calls
allocates; and for `n = 1`, `r.Next()` and `r.Prev()` are `r`. -/
theorem ring_new_is_circular (n : Nat) (h : Heap) (t : Nat) (hn : 1 ≤ n) :
    Ring.Prev (Ring.Next (nextN t (New (n : Int) h).1 (New (n : Int) h).2).1
        (New (n : Int) h).2).1 (New (n : Int) h).2 =
      ((nextN t (New (n : Int) h).1 (New (n : Int) h).2).1, (New (n : Int) h).2) ∧
    Ring.Next (Ring.Prev (nextN t (New (n : Int) h).1 (New (n : Int) h).2).1
        (New (n : Int) h).2).1 (New (n : Int) h).2 =
      ((nextN t (New (n : Int) h).1 (New (n : Int) h).2).1, (New (n : Int) h).2) ∧
    nextN n (nextN t (New (n : Int) h).1 (New (n : Int) h).2).1 (New (n : Int) h).2 =
      ((nextN t (New (n : Int) h).1 (New (n : Int) h).2).1, (New (n : Int) h).2) ∧
    Ring.Prev (nextN t (New (n : Int) h).1 (New (n : Int) h).2).1 (New (n : Int) h).2 =
      nextN (n - 1) (nextN t (New (n : Int) h).1 (New (n : Int) h).2).1 (New (n : Int) h).2 ∧
    (n = 1 →
      Ring.Next (nextN t (New (n : Int) h).1 (New (n : Int) h).2).1 (New (n : Int) h).2 =
        ((nextN t (New (n : Int) h).1 (New (n : Int) h).2).1, (New (n : Int) h).2) ∧
      Ring.Prev (nextN t (New (n : Int) h).1 (New (n : Int) h).2).1 (New (n : Int) h).2 =
        ((nextN t (New (n : Int) h).1 (New (n : Int) h).2).1, (New (n : Int) h).2)) := by
  obtain ⟨e1, _, _, hr, _⟩ := New_spec n hn h
  have hN := nextN_of_ring hr t 0 (by omega)
  rw [e1]
  rw [Nat.add_zero] at hN
  rw [hN]
  have hlt : (0 + t) % n < n := Nat.mod_lt _ (by omega)
  generalize (0 + t) % n = k at hlt
  generalize (New (n : Int) h).2 = H at hr
  simp only
  have hnx := Next_of_ring hr hlt
  have hpv := Prev_of_ring hr hlt
  have hn1 : nextN n (h.nextAddr + k) H = (h.nextAddr + k, H) := by
    rw [nextN_of_ring hr n k hlt, Nat.add_mod_right, Nat.mod_eq_of_lt hlt]
  have hn2 : nextN (n - 1) (h.nextAddr + k) H = (h.nextAddr + predIdx n k, H) := by
    rw [nextN_of_ring hr (n - 1) k hlt]
    congr 2
    unfold predIdx
    split
    · next h0 => subst h0; rw [Nat.zero_add, Nat.mod_eq_of_lt (by omega)]
    · next h0 =>
      have : k + (n - 1) = (k - 1) + n := by omega
      rw [this, Nat.add_mod_right, Nat.mod_eq_of_lt (by omega)]
  refine ⟨?_, ?_, hn1, ?_, ?_⟩
  · rw [hnx]; simp only
    rw [Prev_of_ring hr (succIdx_lt hlt), pred_succ hlt]
  · rw [hpv]; simp only
    rw [Next_of_ring hr (predIdx_lt hlt), succ_pred hlt]
  · rw [hpv, hn2]
  · intro h1
    subst h1
    have hk0 : k = 0 := by omega
    subst hk0
    rw [hnx, hpv]
    simp [succIdx, predIdx]

/-- Witness for C19: the element three steps from the start of `New(4)`. -/
theorem ring_new_is_circular_witness :
    nextN 4 (nextN 3 (New 4 Heap.init).1 (New 4 Heap.init).2).1 (New 4 Heap.init).2 =
      ((nextN 3 (New 4 Heap.init).1 (New 4 Heap.init).2).1, (New 4 Heap.init).2) :=
  (ring_new_is_circular 4 Heap.init 3 (by decide)).2.2.1

end GoRing

namespace GoRing

open GoCtx (GoAny setAt)

/-! ## `Do` -/

theorem doLoop_done {σ : Type} (f : GoAny → σ → σ) (fuel : Nat) (h : Heap) (r : Nat)
    (acc : σ) : doLoop f fuel h r (some r) acc = .done acc := by
  unfold doLoop; simp

theorem doLoop_step {σ : Type} (f : GoAny → σ → σ) (fuel : Nat) (h : Heap) (r x : Nat)
    (acc : σ) (hx : x ≠ r) :
    doLoop f (fuel + 1) h r (some x) acc =
      doLoop f fuel h r (h.mem x).next (f (h.mem x).Value acc) := by
  rw [doLoop]; simp [hx]

theorem succIdx_add_mod {n i : Nat} (_hi : i < n) (t : Nat) :
    (succIdx n i + t) % n = (i + (t + 1)) % n := by
  unfold succIdx
  split
  · next h1 =>
    have : i + (t + 1) = n + t := by omega
    rw [this, Nat.add_mod_left, Nat.zero_add]
  · congr 1; omega

theorem foldl_range_succ {σ : Type} (g : σ → Nat → σ) (acc : σ) (d : Nat) :
    (List.range (d + 1)).foldl g acc =
      (List.range d).foldl (fun a t => g a (t + 1)) (g acc 0) := by
  rw [List.range_succ_eq_map, List.foldl_cons, List.foldl_map]

theorem doLoop_of_ring {σ : Type} (f : GoAny → σ → σ) {h : Heap} {a n : Nat}
    (hr : IsRing h a n) {j : Nat} (hj : j < n) (d : Nat) :
    ∀ (i fuel : Nat) (acc : σ), i < n →
      d = (if i ≤ j then j - i else n - i + j) → d ≤ fuel →
      doLoop f fuel h (a + j) (some (a + i)) acc =
        .done ((List.range d).foldl (fun s t => f (h.mem (a + (i + t) % n)).Value s) acc) := by
  induction d with
  | zero =>
    intro i fuel acc hi hd _
    have : i = j := by split at hd <;> omega
    subst this
    simpa using doLoop_done f _ _ _ _
  | succ d ih =>
    intro i fuel acc hi hd hf
    have hne : i ≠ j := by
      intro he; subst he; simp at hd
    obtain ⟨fuel, rfl⟩ : ∃ f, fuel = f + 1 := ⟨fuel - 1, by omega⟩
    rw [doLoop_step _ _ _ _ _ _ (by omega), (hr i hi).1,
      ih (succIdx n i) fuel _ (succIdx_lt hi) ?_ (by omega), foldl_range_succ]
    · simp only [succIdx_add_mod hi, Nat.add_zero, Nat.mod_eq_of_lt hi]
    · unfold succIdx
      split at hd <;> split <;> split <;> omega

/-- On a ring of `n` cells, `Do` calls `f` once with each element's `Value`,
in `Next` order from `r`: `n` calls, as many as `Len()` reports. -/
theorem Do_of_ring {σ : Type} (f : GoAny → σ → σ) {h : Heap} {a n : Nat}
    (hr : IsRing h a n) {j : Nat} (hj : j < n) (acc : σ) (fuel : Nat) (hf : n ≤ fuel) :
    Ring.Do (a + j) h f acc fuel =
      .done ((ringValues h (a + j) n).foldl (fun s v => f v s) acc) ∧
    (ringValues h (a + j) n).length = n ∧ Ring.Len (a + j) h fuel = .done n := by
  refine ⟨?_, by simp [ringValues], Len_of_ring hr hj fuel (by omega)⟩
  unfold Ring.Do
  rw [if_neg (by rw [(hr j hj).1]; simp), Next_of_ring hr hj]
  simp only
  rw [doLoop_of_ring f hr hj (n - 1) (succIdx n j) fuel _ (succIdx_lt hj) ?_ (by omega)]
  · obtain ⟨m, rfl⟩ : ∃ m, n = m + 1 := ⟨n - 1, by omega⟩
    simp only [ringValues, List.foldl_map, Nat.add_sub_cancel]
    rw [foldl_range_succ]
    simp only [nextN_of_ring hr _ j hj, succIdx_add_mod hj, Nat.add_zero, Nat.mod_eq_of_lt hj]
  · unfold succIdx
    split <;> split <;> omega

/-- On the rings built by `New`, for `n ≥ 1` and any element of `New(n)`, `Do`
calls `f` once with each element's `Value` in `Next` order, `Len()` times. -/
theorem do_on_new_ring {σ : Type} (f : GoAny → σ → σ) (n : Nat) (h : Heap) (t fuel : Nat)
    (acc : σ) (hn : 1 ≤ n) (hf : n ≤ fuel) :
    Ring.Do (nextN t (New (n : Int) h).1 (New (n : Int) h).2).1 (New (n : Int) h).2 f acc fuel =
      .done ((ringValues (New (n : Int) h).2
        (nextN t (New (n : Int) h).1 (New (n : Int) h).2).1 n).foldl (fun s v => f v s) acc) := by
  obtain ⟨e1, _, _, hr, _⟩ := New_spec n hn h
  have hN := nextN_of_ring hr t 0 (by omega)
  rw [e1]
  rw [Nat.add_zero] at hN
  rw [hN]
  exact (Do_of_ring f hr (Nat.mod_lt _ (by omega)) acc fuel hf).1

/-- C18 fails on the zero-value `Ring`: `Do` returns at once, so `f` is not
called at all (the accumulator comes back as it went in, and a counting `f`
counts 0), although `Len()` reports 1 element. -/
theorem do_skips_zero_value_ring (h : Heap) (fuel : Nat) :
    (∀ (σ : Type) (f : GoAny → σ → σ) (acc : σ),
      Ring.Do h.alloc.1 h.alloc.2 f acc fuel = .done acc) ∧
    Ring.Do h.alloc.1 h.alloc.2 (fun _ (c : Nat) => c + 1) 0 fuel = .done 0 ∧
    Ring.Len h.alloc.1 h.alloc.2 fuel = .done 1 := by
  refine ⟨?_, ?_, ?_⟩ <;> intros <;> simp [Ring.Do, Ring.Len, Heap.alloc, zeroRing]

end GoRing

namespace GoList

open GoCtx (GoAny ifaceEq setAt)

/-! ## Lists: heap updates and walks -/

theorem elem_mem_setNext (h : Heap) (a : Nat) (v : Option Nat) (x : Nat) :
    (h.setNext a v).mem x = if x = a then { h.mem a with next := v } else h.mem x := rfl

theorem elem_mem_setPrev (h : Heap) (a : Nat) (v : Option Nat) (x : Nat) :
    (h.setPrev a v).mem x = if x = a then { h.mem a with prev := v } else h.mem x := rfl

theorem elem_setNext_Value (h : Heap) (a : Nat) (v : Option Nat) (x : Nat) :
    ((h.setNext a v).mem x).Value = (h.mem x).Value := by
  rw [elem_mem_setNext]; split
  · next hx => rw [hx]
  · rfl

theorem elem_setNext_next (h : Heap) (a : Nat) (v : Option Nat) (x : Nat) :
    ((h.setNext a v).mem x).next = if x = a then v else (h.mem x).next := by
  rw [elem_mem_setNext]; split <;> rfl

theorem elem_setNext_prev (h : Heap) (a : Nat) (v : Option Nat) (x : Nat) :
    ((h.setNext a v).mem x).prev = (h.mem x).prev := by
  rw [elem_mem_setNext]; split
  · next hx => rw [hx]
  · rfl

theorem elem_setPrev_Value (h : Heap) (a : Nat) (v : Option Nat) (x : Nat) :
    ((h.setPrev a v).mem x).Value = (h.mem x).Value := by
  rw [elem_mem_setPrev]; split
  · next hx => rw [hx]
  · rfl

theorem elem_setPrev_next (h : Heap) (a : Nat) (v : Option Nat) (x : Nat) :
    ((h.setPrev a v).mem x).next = (h.mem x).next := by
  rw [elem_mem_setPrev]; split
  · next hx => rw [hx]
  · rfl

theorem elem_setPrev_prev (h : Heap) (a : Nat) (v : Option Nat) (x : Nat) :
    ((h.setPrev a v).mem x).prev = if x = a then v else (h.mem x).prev := by
  rw [elem_mem_setPrev]; split <;> rfl

theorem mem_alloc (h : Heap) (v : GoAny) (x : Nat) :
    (h.alloc v).2.mem x =
      if x = h.nextAddr then { Value := v, next := none, prev := none } else h.mem x := rfl

theorem drop_of_getElem? {xs : List Nat} {k x : Nat} (h : xs[k]? = some x) :
    xs.drop k = x :: xs.drop (k + 1) := by
  obtain ⟨hk, rfl⟩ := List.getElem?_eq_some_iff.1 h
  exact List.drop_eq_getElem_cons hk

theorem IsList.idx_inj {l : LinkedList} {h : Heap} {xs : List Nat} (hl : IsList l h xs)
    {i j x : Nat} (hi : xs[i]? = some x) (hj : xs[j]? = some x) : i = j := by
  obtain ⟨h1, e1⟩ := List.getElem?_eq_some_iff.1 hi
  obtain ⟨h2, e2⟩ := List.getElem?_eq_some_iff.1 hj
  exact (hl.nodup.getElem_inj_iff).1 (e1.trans e2.symm)

theorem getElem?_some_of_lt (xs : List Nat) (k : Nat) (hk : k < xs.length) :
    ∃ x, xs[k]? = some x :=
  ⟨_, List.getElem?_eq_getElem hk⟩

theorem lt_of_getElem? {xs : List Nat} {k x : Nat} (h : xs[k]? = some x) : k < xs.length :=
  (List.getElem?_eq_some_iff.1 h).1

theorem walkNext_of_isList {l : LinkedList} {h : Heap} {xs : List Nat} (hl : IsList l h xs)
    (d : Nat) : ∀ (k fuel : Nat), d = xs.length - k → k ≤ xs.length → d ≤ fuel →
      walkNext fuel h xs[k]? = some (xs.drop k) := by
  induction d with
  | zero =>
    intro k fuel hd hk _
    have hk2 : k = xs.length := by omega
    subst hk2
    rw [List.getElem?_eq_none (Nat.le_refl _), List.drop_length]
    cases fuel <;> rfl
  | succ d ih =>
    intro k fuel hd hk hf
    obtain ⟨x, hx⟩ := getElem?_some_of_lt xs k (by omega)
    obtain ⟨fuel, rfl⟩ : ∃ f, fuel = f + 1 := ⟨fuel - 1, by omega⟩
    rw [hx, drop_of_getElem? hx]
    simp only [walkNext]
    rw [hl.next k x hx, ih (k + 1) fuel (by omega) (by omega) (by omega)]
    rfl

theorem walkPrev_of_isList {l : LinkedList} {h : Heap} {xs : List Nat} (hl : IsList l h xs)
    (k : Nat) : ∀ (fuel : Nat), k < xs.length → k < fuel →
      walkPrev fuel h xs[k]? = some (xs.take (k + 1)).reverse := by
  induction k with
  | zero =>
    intro fuel hk hf
    obtain ⟨x, hx⟩ := getElem?_some_of_lt xs 0 hk
    obtain ⟨fuel, rfl⟩ : ∃ f, fuel = f + 1 := ⟨fuel - 1, by omega⟩
    have hp := hl.prev 0 x hx
    simp only [if_true] at hp
    rw [hx]
    simp only [walkPrev, hp]
    rw [List.take_succ, hx]
    cases fuel <;> simp [walkPrev]
  | succ k ih =>
    intro fuel hk hf
    obtain ⟨x, hx⟩ := getElem?_some_of_lt xs (k + 1) hk
    obtain ⟨fuel, rfl⟩ : ∃ f, fuel = f + 1 := ⟨fuel - 1, by omega⟩
    have hp := hl.prev (k + 1) x hx
    simp only [Nat.succ_ne_zero, if_false, Nat.add_sub_cancel] at hp
    rw [hx]
    simp only [walkPrev, hp]
    rw [ih fuel (by omega) (by omega), List.take_succ (n := k + 1), hx]
    simp

theorem lenLoop_of_isList {l : LinkedList} {h : Heap} {xs : List Nat} (hl : IsList l h xs)
    (d : Nat) : ∀ (k fuel count : Nat), d = xs.length - k → k ≤ xs.length → d ≤ fuel →
      lenLoop fuel h xs[k]? count = .done (count + d) := by
  induction d with
  | zero =>
    intro k fuel count hd hk _
    have hk2 : k = xs.length := by omega
    subst hk2
    rw [List.getElem?_eq_none (Nat.le_refl _)]
    cases fuel <;> rfl
  | succ d ih =>
    intro k fuel count hd hk hf
    obtain ⟨x, hx⟩ := getElem?_some_of_lt xs k (by omega)
    obtain ⟨fuel, rfl⟩ : ∃ f, fuel = f + 1 := ⟨fuel - 1, by omega⟩
    rw [hx]
    simp only [lenLoop, Element.Next]
    rw [hl.next k x hx, ih (k + 1) fuel (count + 1) (by omega) (by omega) (by omega)]
    congr 1; omega

theorem Front_eq (l : LinkedList) : l.Front = l.front := by
  unfold LinkedList.Front; cases l.front <;> rfl

theorem Back_eq (l : LinkedList) : l.Back = l.back := by
  unfold LinkedList.Back; cases l.back <;> rfl

/-- What a well-formed list shows to its observers. -/
theorem IsList.observe {l : LinkedList} {h : Heap} {xs : List Nat} (hl : IsList l h xs)
    (fuel : Nat) (hf : xs.length ≤ fuel) :
    walkNext fuel h l.front = some xs ∧
    walkPrev fuel h l.back = some xs.reverse ∧
    l.values h fuel = some (xs.map (fun x => (h.mem x).Value)) ∧
    l.Len h fuel = .done xs.length := by
  have h1 : walkNext fuel h l.front = some xs := by
    rw [hl.front]
    simpa using walkNext_of_isList hl xs.length 0 fuel (by omega) (by omega) hf
  refine ⟨h1, ?_, ?_, ?_⟩
  · rw [hl.back]
    by_cases he : xs.length = 0
    · have : xs = [] := List.length_eq_zero.1 he
      subst this
      cases fuel <;> rfl
    · rw [walkPrev_of_isList hl (xs.length - 1) fuel (by omega) (by omega)]
      have : xs.length - 1 + 1 = xs.length := by omega
      rw [this, List.take_length]
  · simp [LinkedList.values, h1]
  · unfold LinkedList.Len
    rw [Front_eq, hl.front]
    simpa using lenLoop_of_isList hl xs.length 0 fuel 0 (by omega) (by omega) hf

end GoList

namespace GoList

open GoCtx (GoAny ifaceEq setAt)

/-! ## `PushBack` -/

theorem getElem?_append_single (xs : List Nat) (e k : Nat) :
    (xs ++ [e])[k]? = if k < xs.length then xs[k]? else if k = xs.length then some e else none := by
  rw [List.getElem?_append]
  split
  · rfl
  · next hk =>
    split
    · next h2 => subst h2; simp
    · next h2 =>
      have : 1 ≤ k - xs.length := by omega
      rw [List.getElem?_eq_none (by simpa using this)]

theorem PushBack_isList {l : LinkedList} {h : Heap} {xs : List Nat} (hl : IsList l h xs)
    (v : GoAny) :
    (l.PushBack v h).1 = h.nextAddr ∧
    IsList (l.PushBack v h).2.1 (l.PushBack v h).2.2 (xs ++ [h.nextAddr]) ∧
    (∀ x, x < h.nextAddr → ((l.PushBack v h).2.2.mem x).Value = (h.mem x).Value) ∧
    ((l.PushBack v h).2.2.mem h.nextAddr).Value = v ∧
    (l.PushBack v h).2.2.nextAddr = h.nextAddr + 1 := by
  have hfresh : ∀ (k x : Nat), xs[k]? = some x → x ≠ h.nextAddr := by
    intro k x hx he
    have := hl.lt x (List.getElem?_mem hx)
    omega
  cases hb : l.back with
  | none =>
    have hlen : xs.length = 0 := by
      have := hl.back
      rw [hb] at this
      have := List.getElem?_eq_none_iff.1 this.symm
      omega
    have hxs : xs = [] := List.length_eq_zero.1 hlen
    subst hxs
    have hP : l.PushBack v h = (h.nextAddr, { front := some h.nextAddr, back := some h.nextAddr },
        (h.alloc v).2) := by
      simp [LinkedList.PushBack, hb, Heap.alloc]
    rw [hP]
    refine ⟨rfl, ?_, ?_, ?_, rfl⟩
    · refine ⟨by simp, by simp, by simp, by simp [Heap.alloc], by simp [Heap.alloc], ?_, ?_⟩
      · intro k x hx
        cases k with
        | zero => simp at hx; subst hx; simp [mem_alloc]
        | succ k => simp at hx
      · intro k x hx
        cases k with
        | zero => simp at hx; subst hx; simp [mem_alloc]
        | succ k => simp at hx
    · intro x hx
      have : x ≠ h.nextAddr := by omega
      simp [mem_alloc, this]
    · simp [mem_alloc]
  | some b =>
    have hbx : xs[xs.length - 1]? = some b := by rw [← hl.back, hb]
    have hpos : 0 < xs.length := by
      have := lt_of_getElem? hbx; omega
    have hbne : b ≠ h.nextAddr := hfresh _ _ hbx
    have hP : l.PushBack v h = (h.nextAddr, { l with back := some h.nextAddr },
        (((h.alloc v).2.setPrev h.nextAddr (some b)).setNext b (some h.nextAddr))) := by
      simp [LinkedList.PushBack, hb, Heap.alloc]
    rw [hP]
    have hnx : ∀ x, ((((h.alloc v).2.setPrev h.nextAddr (some b)).setNext b
        (some h.nextAddr)).mem x).next =
        if x = b then some h.nextAddr else if x = h.nextAddr then none else (h.mem x).next := by
      intro x
      rw [elem_setNext_next, elem_setPrev_next, mem_alloc]
      split
      · rfl
      · split <;> rfl
    have hpv : ∀ x, ((((h.alloc v).2.setPrev h.nextAddr (some b)).setNext b
        (some h.nextAddr)).mem x).prev =
        if x = h.nextAddr then some b else (h.mem x).prev := by
      intro x
      rw [elem_setNext_prev, elem_setPrev_prev, mem_alloc]
      split
      · rfl
      · rfl
    have hvl : ∀ x, ((((h.alloc v).2.setPrev h.nextAddr (some b)).setNext b
        (some h.nextAddr)).mem x).Value =
        if x = h.nextAddr then v else (h.mem x).Value := by
      intro x
      rw [elem_setNext_Value, elem_setPrev_Value, mem_alloc]
      split <;> rfl
    refine ⟨rfl, ?_, ?_, ?_, rfl⟩
    · refine ⟨?_, ?_, ?_, ?_, ?_, ?_, ?_⟩
      · show l.front = _
        rw [getElem?_append_single, if_pos hpos]; exact hl.front
      · show some h.nextAddr = _
        rw [getElem?_append_single]
        simp
      · rw [List.nodup_append]
        refine ⟨hl.nodup, by simp, ?_⟩
        intro a ha hb2
        simp at hb2
        subst hb2
        have := hl.lt _ ha
        omega
      · intro x hx
        show x < h.nextAddr + 1
        rcases List.mem_append.1 hx with h1 | h1
        · have := hl.lt x h1; omega
        · simp at h1; omega
      · show (xs ++ [h.nextAddr]).length ≤ h.nextAddr + 1
        have := hl.len_le
        simp; omega
      · intro k x hx
        rw [hnx, getElem?_append_single]
        rw [getElem?_append_single] at hx
        by_cases hk : k < xs.length
        · rw [if_pos hk] at hx
          have hne := hfresh k x hx
          by_cases hxb : x = b
          · subst hxb
            have hk2 : k = xs.length - 1 := hl.idx_inj hx hbx
            have h1 : ¬ (k + 1 < xs.length) := by omega
            have h2 : k + 1 = xs.length := by omega
            simp [h1, h2]
          · have hk2 : k ≠ xs.length - 1 := by
              intro he; subst he
              rw [hbx] at hx
              exact hxb (Option.some.inj hx).symm
            have h1 : k + 1 < xs.length := by omega
            simp only [hxb, hne, if_false, h1, if_true]
            exact hl.next k x hx
        · rw [if_neg hk] at hx
          by_cases hk2 : k = xs.length
          · rw [if_pos hk2] at hx
            have hx2 : x = h.nextAddr := (Option.some.inj hx).symm
            subst hx2
            have h1 : ¬ (k + 1 < xs.length) := by omega
            have h2 : k + 1 ≠ xs.length := by omega
            simp [hbne.symm, h1, h2]
          · rw [if_neg hk2] at hx; cases hx
      · intro k x hx
        rw [hpv]
        rw [getElem?_append_single] at hx
        by_cases hk : k < xs.length
        · rw [if_pos hk] at hx
          have hne := hfresh k x hx
          rw [if_neg hne, hl.prev k x hx]
          split
          · rfl
          · rw [getElem?_append_single, if_pos (by omega)]
        · rw [if_neg hk] at hx
          by_cases hk2 : k = xs.length
          · rw [if_pos hk2] at hx
            have hx2 : x = h.nextAddr := (Option.some.inj hx).symm
            subst hx2
            have h0 : k ≠ 0 := by omega
            rw [if_pos rfl, if_neg h0, getElem?_append_single, if_pos (by omega), hk2, hbx]
          · rw [if_neg hk2] at hx; cases hx
    · intro x hx
      have : x ≠ h.nextAddr := by omega
      rw [hvl, if_neg this]
    · rw [hvl, if_pos rfl]

end GoList

namespace GoList

open GoCtx (GoAny ifaceEq setAt)

/-! ## `Remove` -/

/-- What `unlink` computes, in terms of the removed cell's own links. -/
theorem unlink_eq (l : LinkedList) (h : Heap) (ee : Nat) :
    (unlink l h ee).1 = (h.mem ee).Value ∧
    (unlink l h ee).2.1 =
      { front := if l.front = some ee then (h.mem ee).next else l.front,
        back := if l.back = some ee then (h.mem ee).prev else l.back } ∧
    (unlink l h ee).2.2.nextAddr = h.nextAddr ∧
    (∀ x, ((unlink l h ee).2.2.mem x).Value = (h.mem x).Value) ∧
    (∀ x, ((unlink l h ee).2.2.mem x).next =
      if (h.mem ee).prev = some x then (h.mem ee).next else (h.mem x).next) ∧
    (∀ x, ((unlink l h ee).2.2.mem x).prev =
      if (h.mem ee).next = some x then (h.mem ee).prev else (h.mem x).prev) := by
  cases hp : (h.mem ee).prev with
  | none =>
    cases hn : (h.mem ee).next with
    | none =>
      refine ⟨?_, ?_, ?_, ?_, ?_, ?_⟩ <;> simp only [unlink, hp, hn] <;> intros <;>
        (try split) <;> (try split) <;> simp_all
    | some n =>
      have e1 : ((h.setPrev n none).mem ee).prev = none := by
        rw [elem_setPrev_prev]; split <;> simp [hp]
      refine ⟨?_, ?_, ?_, ?_, ?_, ?_⟩
      · simp only [unlink, hp, hn]; rw [elem_setPrev_Value]
      · simp only [unlink, hp, hn, e1]
        cases l; simp only
        split <;> split <;> simp_all
      · simp only [unlink, hp, hn]; rfl
      · intro x; simp only [unlink, hp, hn]; rw [elem_setPrev_Value]
      · intro x; simp only [unlink, hp, hn]; rw [elem_setPrev_next]; simp
      · intro x; simp only [unlink, hp, hn]; rw [elem_setPrev_prev]
        by_cases hx : x = n
        · subst hx; simp
        · have : ¬ (some n = some x) := by simpa using fun e => hx e.symm
          simp [hx, this]
  | some p =>
    have e0 : ((h.setNext p (h.mem ee).next).mem ee).next = (h.mem ee).next := by
      rw [elem_setNext_next]; split <;> rfl
    have e0p : ((h.setNext p (h.mem ee).next).mem ee).prev = some p := by
      rw [elem_setNext_prev, hp]
    cases hn : (h.mem ee).next with
    | none =>
      rw [hn] at e0
      refine ⟨?_, ?_, ?_, ?_, ?_, ?_⟩
      · simp only [unlink, hp, hn, e0]; rw [elem_setNext_Value]
      · simp only [unlink, hp, hn, e0, e0p]
        cases l; simp only
        split <;> split <;> simp_all
      · simp only [unlink, hp, hn, e0]; rfl
      · intro x; simp only [unlink, hp, hn, e0]; rw [elem_setNext_Value]
      · intro x; simp only [unlink, hp, hn, e0]; rw [elem_setNext_next]
        by_cases hx : x = p
        · subst hx; simp
        · have : ¬ (some p = some x) := by simpa using fun e => hx e.symm
          simp [hx, this]
      · intro x; simp only [unlink, hp, hn, e0]; rw [elem_setNext_prev]; simp
    | some n =>
      rw [hn] at e0
      have e1 : (((h.setNext p (some n)).setPrev n (some p)).mem ee).prev = some p := by
        rw [elem_setPrev_prev, elem_setNext_prev]; split <;> simp [hp]
      refine ⟨?_, ?_, ?_, ?_, ?_, ?_⟩
      · simp only [unlink, hp, hn, e0, e0p]; rw [elem_setPrev_Value, elem_setNext_Value]
      · simp only [unlink, hp, hn, e0, e0p, e1]
        cases l; simp only
        split <;> split <;> simp_all
      · simp only [unlink, hp, hn, e0, e0p]; rfl
      · intro x; simp only [unlink, hp, hn, e0, e0p]; rw [elem_setPrev_Value, elem_setNext_Value]
      · intro x; simp only [unlink, hp, hn, e0, e0p]; rw [elem_setPrev_next, elem_setNext_next]
        by_cases hx : x = p
        · subst hx; simp
        · have : ¬ (some p = some x) := by simpa using fun e => hx e.symm
          simp [hx, this]
      · intro x; simp only [unlink, hp, hn, e0, e0p]; rw [elem_setPrev_prev, elem_setNext_prev]
        by_cases hx : x = n
        · subst hx; simp [elem_setNext_prev, hp]
        · have : ¬ (some n = some x) := by simpa using fun e => hx e.symm
          simp [hx, this, elem_setNext_prev]

end GoList

namespace GoList

open GoCtx (GoAny ifaceEq setAt)

theorem unlink_isList {l : LinkedList} {h : Heap} {xs : List Nat} (hl : IsList l h xs)
    {k ee : Nat} (hk : xs[k]? = some ee) :
    IsList (unlink l h ee).2.1 (unlink l h ee).2.2 (xs.eraseIdx k) := by
  obtain ⟨_, hL, hN, _, hnx, hpv⟩ := unlink_eq l h ee
  have hne := hl.next k ee hk
  have hpe := hl.prev k ee hk
  have hklt : k < xs.length := lt_of_getElem? hk
  have hlen : (xs.eraseIdx k).length = xs.length - 1 := List.length_eraseIdx_of_lt hklt
  refine ⟨?_, ?_, hl.nodup.eraseIdx k, ?_, ?_, ?_, ?_⟩
  · rw [hL, List.getElem?_eraseIdx]
    simp only
    by_cases h0 : k = 0
    · subst h0
      rw [hl.front, if_pos hk, hne]
      simp
    · have hf : l.front ≠ some ee := by
        rw [hl.front]
        intro he
        exact h0 (hl.idx_inj hk he)
      rw [if_neg hf, hl.front, if_pos (by omega)]
  · rw [hL, hlen, List.getElem?_eraseIdx]
    simp only
    by_cases h1 : k = xs.length - 1
    · rw [hl.back, ← h1, if_pos hk, hpe]
      by_cases h0 : k = 0
      · have : xs.length = 1 := by omega
        simp [h0, this]
      · rw [if_neg h0, if_pos (by omega)]
    · have hb : l.back ≠ some ee := by
        rw [hl.back]
        intro he
        exact h1 (hl.idx_inj hk he)
      have hge : ¬ (xs.length - 1 - 1 < k) := by omega
      have : xs.length - 1 - 1 + 1 = xs.length - 1 := by omega
      rw [if_neg hb, if_neg hge, this, hl.back]
  · intro x hx
    rw [hN]
    exact hl.lt x (List.mem_of_mem_eraseIdx hx)
  · rw [hN]
    exact Nat.le_trans (List.length_eraseIdx_le xs k) hl.len_le
  · intro j x hx
    rw [List.getElem?_eraseIdx] at hx
    rw [List.getElem?_eraseIdx, hnx, hpe, hne]
    by_cases hj : j < k
    · rw [if_pos hj] at hx
      have h0 : k ≠ 0 := by omega
      rw [if_neg h0]
      by_cases hj1 : j + 1 = k
      · have hc : xs[k - 1]? = some x := by
          have : k - 1 = j := by omega
          rw [this]; exact hx
        have hlt : ¬ (j + 1 < k) := by omega
        rw [if_pos hc, if_neg hlt, ← hj1]
      · have hc : ¬ (xs[k - 1]? = some x) := by
          intro he
          have := hl.idx_inj hx he
          omega
        rw [if_neg hc, if_pos (by omega)]
        exact hl.next j x hx
    · rw [if_neg hj] at hx
      have hc : ¬ ((if k = 0 then none else xs[k - 1]?) = some x) := by
        by_cases h0 : k = 0
        · simp [h0]
        · rw [if_neg h0]
          intro he
          have := hl.idx_inj hx he
          omega
      rw [if_neg hc, if_neg (by omega)]
      exact hl.next (j + 1) x hx
  · intro j x hx
    rw [List.getElem?_eraseIdx] at hx
    rw [hpv, hpe, hne]
    by_cases hj : j < k
    · rw [if_pos hj] at hx
      have hc : ¬ (xs[k + 1]? = some x) := by
        intro he
        have := hl.idx_inj hx he
        omega
      rw [if_neg hc, hl.prev j x hx]
      by_cases h0 : j = 0
      · rw [if_pos h0, if_pos h0]
      · rw [if_neg h0, if_neg h0, List.getElem?_eraseIdx, if_pos (by omega)]
    · rw [if_neg hj] at hx
      by_cases hjk : j = k
      · subst hjk
        rw [if_pos hx]
        by_cases h0 : j = 0
        · rw [if_pos h0, if_pos h0]
        · rw [if_neg h0, if_neg h0, List.getElem?_eraseIdx, if_pos (by omega)]
      · have hc : ¬ (xs[k + 1]? = some x) := by
          intro he
          have := hl.idx_inj hx he
          omega
        have h0 : j ≠ 0 := by omega
        have hp := hl.prev (j + 1) x hx
        simp only [Nat.succ_ne_zero, if_false, Nat.add_sub_cancel] at hp
        rw [if_neg hc, if_neg h0, List.getElem?_eraseIdx, if_neg (by omega), hp]
        congr 1; omega

end GoList

namespace GoList

open GoCtx (GoAny ifaceEq setAt)

theorem removeLoop_cases {l : LinkedList} {h : Heap} {xs : List Nat} (hl : IsList l h xs)
    (ea : Nat) (fuel : Nat) : ∀ k : Nat,
      removeLoop fuel l h ea xs[k]? = .done (.nil, l, h) ∨
      (∃ msg, removeLoop fuel l h ea xs[k]? = .panic msg) ∨
      removeLoop fuel l h ea xs[k]? = .outOfFuel ∨
      ∃ (m ee : Nat), xs[m]? = some ee ∧
        removeLoop fuel l h ea xs[k]? = .done (unlink l h ee) := by
  induction fuel with
  | zero =>
    intro k
    cases hx : xs[k]? with
    | none => left; rfl
    | some ee => right; right; left; rfl
  | succ fuel ih =>
    intro k
    cases hx : xs[k]? with
    | none => left; rfl
    | some ee =>
      simp only [removeLoop]
      cases hq : ifaceEq (h.mem ee).Value (h.mem ea).Value with
      | error msg => right; left; exact ⟨msg, rfl⟩
      | ok b =>
        cases b with
        | true => right; right; right; exact ⟨k, ee, hx, rfl⟩
        | false =>
          simp only [Element.Next]
          rw [hl.next k ee hx]
          exact ih (k + 1)

theorem Remove_cases {l : LinkedList} {h : Heap} {xs : List Nat} (hl : IsList l h xs)
    (e : Option Nat) (fuel : Nat) :
    l.Remove e h fuel = .done (.nil, l, h) ∨
    (∃ msg, l.Remove e h fuel = .panic msg) ∨
    l.Remove e h fuel = .outOfFuel ∨
    ∃ (m ee : Nat), xs[m]? = some ee ∧ l.Remove e h fuel = .done (unlink l h ee) := by
  cases e with
  | none => left; rfl
  | some ea =>
    simp only [LinkedList.Remove]
    split
    · left; rfl
    · rw [Front_eq, hl.front]
      exact removeLoop_cases hl ea fuel 0

/-- Every list a program can reach is well formed. -/
theorem isList_step {s : LState} (hs : ∃ xs, IsList s.l s.h xs) (op : ListOp) :
    ∃ xs, IsList (s.step op).l (s.step op).h xs := by
  obtain ⟨xs, hl⟩ := hs
  cases op with
  | pushBack v => exact ⟨_, (PushBack_isList hl v).2.1⟩
  | remove e =>
    simp only [LState.step]
    rcases Remove_cases hl e (s.h.nextAddr + 1) with h1 | ⟨msg, h1⟩ | h1 | ⟨m, ee, hm, h1⟩
    · rw [h1]; exact ⟨xs, hl⟩
    · rw [h1]; exact ⟨xs, hl⟩
    · rw [h1]; exact ⟨xs, hl⟩
    · rw [h1]; exact ⟨_, unlink_isList hl hm⟩
  | init =>
    refine ⟨[], ?_⟩
    exact ⟨rfl, rfl, List.nodup_nil, by simp, by simp, by simp, by simp⟩
  | newElement v =>
    refine ⟨xs, hl.front, hl.back, hl.nodup, ?_, ?_, ?_, ?_⟩
    · intro x hx
      have := hl.lt x hx
      show x < s.h.nextAddr + 1
      omega
    · have := hl.len_le
      show xs.length ≤ s.h.nextAddr + 1
      omega
    · intro k x hx
      have hne : x ≠ s.h.nextAddr := by
        have := hl.lt x (List.getElem?_mem hx); omega
      show ((s.h.alloc v).2.mem x).next = _
      rw [mem_alloc, if_neg hne]
      exact hl.next k x hx
    · intro k x hx
      have hne : x ≠ s.h.nextAddr := by
        have := hl.lt x (List.getElem?_mem hx); omega
      show ((s.h.alloc v).2.mem x).prev = _
      rw [mem_alloc, if_neg hne]
      exact hl.prev k x hx

theorem isList_init : IsList LState.init.l LState.init.h [] :=
  ⟨rfl, rfl, List.nodup_nil, by simp, by simp, by simp, by simp⟩

theorem isList_run (ops : List ListOp) :
    ∀ s : LState, (∃ xs, IsList s.l s.h xs) → ∃ xs, IsList (s.run ops).l (s.run ops).h xs := by
  induction ops with
  | nil => exact fun s hs => hs
  | cons op ops ih => exact fun s hs => ih (s.step op) (isList_step hs op)

theorem isList_reachable (ops : List ListOp) :
    ∃ xs, IsList (LState.init.run ops).l (LState.init.run ops).h xs :=
  isList_run ops _ ⟨[], isList_init⟩

end GoList

namespace GoList

open GoCtx (GoAny ifaceEq setAt)

/-! ## The claims about lists -/

/-- C14: for every list built from `New()` (which is the zero value) by
`PushBack`, `Remove` and `Init`, and every value `v`, `PushBack(v)` appends at
the back: the front-to-back sequence of `Value`s becomes the old one followed
by `v`, `Len()` grows by one, `Back()` is the returned element and holds `v`,
and `Front()` is unchanged unless the list was empty, in which case it is the
new element.  The walks finish within any step budget above the number of
cells. -/
theorem pushBack_appends (ops : List ListOp) (v : GoAny) (fuel : Nat)
    (hf : (LState.init.run ops).h.nextAddr < fuel) :
    zeroList = New ∧
    ∃ vs : List GoAny,
      (LState.init.run ops).l.values (LState.init.run ops).h fuel = some vs ∧
      (LState.init.run ops).l.Len (LState.init.run ops).h fuel = .done vs.length ∧
      (((LState.init.run ops).l.PushBack v (LState.init.run ops).h).2.1).values
        ((LState.init.run ops).l.PushBack v (LState.init.run ops).h).2.2 fuel =
          some (vs ++ [v]) ∧
      (((LState.init.run ops).l.PushBack v (LState.init.run ops).h).2.1).Len
        ((LState.init.run ops).l.PushBack v (LState.init.run ops).h).2.2 fuel =
          .done (vs.length + 1) ∧
      (((LState.init.run ops).l.PushBack v (LState.init.run ops).h).2.1).Back =
        some ((LState.init.run ops).l.PushBack v (LState.init.run ops).h).1 ∧
      ((((LState.init.run ops).l.PushBack v (LState.init.run ops).h).2.2).mem
        ((LState.init.run ops).l.PushBack v (LState.init.run ops).h).1).Value = v ∧
      ((LState.init.run ops).l.Front ≠ none →
        (((LState.init.run ops).l.PushBack v (LState.init.run ops).h).2.1).Front =
          (LState.init.run ops).l.Front) ∧
      ((LState.init.run ops).l.Front = none →
        (((LState.init.run ops).l.PushBack v (LState.init.run ops).h).2.1).Front =
          some ((LState.init.run ops).l.PushBack v (LState.init.run ops).h).1) := by
  refine ⟨rfl, ?_⟩
  obtain ⟨xs, hl⟩ := isList_reachable ops
  generalize LState.init.run ops = s at hl hf
  obtain ⟨he, hl2, hval, hv, _⟩ := PushBack_isList hl v
  have hlen := hl.len_le
  obtain ⟨_, _, o3, o4⟩ := hl.observe fuel (by omega)
  obtain ⟨_, _, p3, p4⟩ := hl2.observe fuel (by simp; omega)
  refine ⟨xs.map (fun x => (s.h.mem x).Value), o3, by simpa using o4, ?_, by simpa using p4,
    ?_, by rw [he]; exact hv, ?_, ?_⟩
  · rw [p3, List.map_append]
    congr 2
    · apply List.map_congr_left
      intro x hx
      exact hval x (hl.lt x hx)
    · simp [hv]
  · rw [Back_eq, hl2.back, he]
    simp
  · intro hne
    rw [Front_eq, Front_eq, hl2.front, hl.front]
    rw [Front_eq, hl.front] at hne
    have hpos : 0 < xs.length := by
      by_contra hc
      exact hne (List.getElem?_eq_none (by omega))
    rw [getElem?_append_single, if_pos hpos]
  · intro hn
    rw [Front_eq, hl.front] at hn
    have h0 : xs.length = 0 := by
      have := List.getElem?_eq_none_iff.1 hn; omega
    rw [Front_eq, hl2.front, he, getElem?_append_single]
    simp [h0]

/-- Witness for C14: pushing 3 onto the list holding 1 and 2. -/
theorem pushBack_appends_witness :
    ∃ vs : List GoAny,
      (LState.init.run [.pushBack (.int 1), .pushBack (.int 2)]).l.values
        (LState.init.run [.pushBack (.int 1), .pushBack (.int 2)]).h 5 = some vs ∧
      (((LState.init.run [.pushBack (.int 1), .pushBack (.int 2)]).l.PushBack (.int 3)
          (LState.init.run [.pushBack (.int 1), .pushBack (.int 2)]).h).2.1).values
        ((LState.init.run [.pushBack (.int 1), .pushBack (.int 2)]).l.PushBack (.int 3)
          (LState.init.run [.pushBack (.int 1), .pushBack (.int 2)]).h).2.2 5 =
          some (vs ++ [.int 3]) :=
  (pushBack_appends [.pushBack (.int 1), .pushBack (.int 2)] (.int 3) 5 (by decide)).2.imp
    fun _ h => ⟨h.1, h.2.2.1⟩

/-- C16: the zero value of `List` and `New()` are empty lists, and `Init()`
empties any list, in any heap: `Len()` is 0 (with any step budget), `Front()`
and `Back()` are nil. -/
theorem empty_lists_are_empty :
    (∀ (h : Heap) (fuel : Nat),
      zeroList.Len h fuel = .done 0 ∧ zeroList.Front = none ∧ zeroList.Back = none) ∧
    (∀ (h : Heap) (fuel : Nat),
      New.Len h fuel = .done 0 ∧ New.Front = none ∧ New.Back = none) ∧
    (∀ (l : LinkedList) (h : Heap) (fuel : Nat),
      l.Init.Len h fuel = .done 0 ∧ l.Init.Front = none ∧ l.Init.Back = none) := by
  refine ⟨?_, ?_, ?_⟩ <;> intros <;> refine ⟨?_, rfl, rfl⟩ <;>
    (rename_i fuel; cases fuel <;> rfl)

/-- C20: every list built from `New()` (the zero value) by `PushBack`,
`Remove` and `Init` is a well-formed doubly linked list: `front` is nil exactly
when `back` is nil; the front's `prev` and the back's `next` are nil; for
every element `x` of the list with a non-nil `next`, `x.next.prev` is `x`; and
the walk along `prev` from the back visits the elements of the walk along
`next` from the front, in reverse order.  Both walks finish within any step
budget of at least the number of cells. -/
theorem list_is_well_formed (ops : List ListOp) (fuel : Nat)
    (hf : (LState.init.run ops).h.nextAddr ≤ fuel) :
    ((LState.init.run ops).l.front = none ↔ (LState.init.run ops).l.back = none) ∧
    (∀ f, (LState.init.run ops).l.front = some f →
      ((LState.init.run ops).h.mem f).prev = none) ∧
    (∀ b, (LState.init.run ops).l.back = some b →
      ((LState.init.run ops).h.mem b).next = none) ∧
    ∃ xs : List Nat,
      walkNext fuel (LState.init.run ops).h (LState.init.run ops).l.front = some xs ∧
      walkPrev fuel (LState.init.run ops).h (LState.init.run ops).l.back = some xs.reverse ∧
      ∀ x ∈ xs, ∀ y, ((LState.init.run ops).h.mem x).next = some y →
        ((LState.init.run ops).h.mem y).prev = some x := by
  obtain ⟨xs, hl⟩ := isList_reachable ops
  generalize LState.init.run ops = s at hl hf
  have hlen := hl.len_le
  obtain ⟨o1, o2, _, _⟩ := hl.observe fuel (by omega)
  refine ⟨?_, ?_, ?_, xs, o1, o2, ?_⟩
  · rw [hl.front, hl.back, List.getElem?_eq_none_iff, List.getElem?_eq_none_iff]
    omega
  · intro f hfr
    rw [hl.front] at hfr
    simpa using hl.prev 0 f hfr
  · intro b hb
    rw [hl.back] at hb
    have := lt_of_getElem? hb
    rw [hl.next _ b hb]
    exact List.getElem?_eq_none (by omega)
  · intro x hx y hy
    obtain ⟨k, hk⟩ := List.mem_iff_getElem?.1 hx
    rw [hl.next k x hk] at hy
    have := hl.prev (k + 1) y hy
    simpa [hk] using this

/-- Witness for C20: the list of the `Remove` test after its first removal. -/
theorem list_is_well_formed_witness :
    (LState.init.run [.pushBack (.int 1), .pushBack (.int 2), .pushBack (.int 3),
        .newElement (.int 2), .remove (some 3)]).l.front = none ↔
      (LState.init.run [.pushBack (.int 1), .pushBack (.int 2), .pushBack (.int 3),
        .newElement (.int 2), .remove (some 3)]).l.back = none :=
  (list_is_well_formed [.pushBack (.int 1), .pushBack (.int 2), .pushBack (.int 3),
    .newElement (.int 2), .remove (some 3)] 4 (by decide)).1

end GoList

namespace GoList

open GoCtx (GoAny ifaceEq setAt)

theorem ifaceEq_true_eq : ∀ (a b : GoAny), ifaceEq a b = .ok true → a = b := by
  intro a
  induction a with
  | array1 x ih =>
    intro b h
    cases b <;> simp [ifaceEq] at h
    rw [ih _ h]
  | _ =>
    intro b h
    cases b <;> simp_all [ifaceEq]

theorem removeLoop_skip {l : LinkedList} {h : Heap} {xs : List Nat} (hl : IsList l h xs)
    (ea m : Nat) (hm : m ≤ xs.length) (d : Nat) :
    ∀ (k fuel : Nat), d = m - k → k ≤ m → d ≤ fuel →
      (∀ (i x : Nat), k ≤ i → i < m → xs[i]? = some x →
        ifaceEq (h.mem x).Value (h.mem ea).Value = .ok false) →
      removeLoop fuel l h ea xs[k]? = removeLoop (fuel - d) l h ea xs[m]? := by
  induction d with
  | zero =>
    intro k fuel hd hk _ _
    have : k = m := by omega
    subst this
    rfl
  | succ d ih =>
    intro k fuel hd hk hf hno
    obtain ⟨x, hx⟩ := getElem?_some_of_lt xs k (by omega)
    obtain ⟨fuel, rfl⟩ : ∃ f, fuel = f + 1 := ⟨fuel - 1, by omega⟩
    have hne := hno k x (Nat.le_refl _) (by omega) hx
    rw [hx]
    simp only [removeLoop, hne, Element.Next]
    rw [hl.next k x hx, Nat.add_sub_add_right]
    exact ih (k + 1) fuel (by omega) (by omega) (by omega)
      (fun i y h1 h2 h3 => hno i y (by omega) h2 h3)

theorem getElem?_of_map_split (xs : List Nat) (f : Nat → GoAny) (pre post : List GoAny)
    (a : GoAny) (h : xs.map f = pre ++ a :: post) :
    (∃ ee, xs[pre.length]? = some ee ∧ f ee = a) ∧
    (∀ (i x : Nat), i < pre.length → xs[i]? = some x → f x ∈ pre) := by
  constructor
  · have hget : (xs.map f)[pre.length]? = some a := by
      rw [h, List.getElem?_append_right (Nat.le_refl _)]
      simp
    rw [List.getElem?_map] at hget
    exact Option.map_eq_some'.1 hget
  · intro i x hi hx
    have h1 : (xs.map f)[i]? = some (f x) := by
      rw [List.getElem?_map, hx]; rfl
    rw [h, List.getElem?_append_left hi] at h1
    exact List.getElem?_mem h1

/-- C15, as stated, fails where `==` panics: with a slice in the list,
`Remove` of an element holding a slice panics in `ee.Value == e.Value` instead
of returning; and so does `Remove` of an element holding
`[1]any\x7b[]int\x7b1\x7d\x7d`, a value of a comparable type, from a list holding the
same. -/
theorem remove_panics_on_uncomparable_value :
    (LState.init.run [.pushBack (.slice [1]), .newElement (.slice [1])]).l.values
        (LState.init.run [.pushBack (.slice [1]), .newElement (.slice [1])]).h 5 =
      some [.slice [1]] ∧
    ((LState.init.run [.pushBack (.slice [1]), .newElement (.slice [1])]).h.mem 1).Value =
      .slice [1] ∧
    (LState.init.run [.pushBack (.slice [1]), .newElement (.slice [1])]).l.Remove (some 1)
        (LState.init.run [.pushBack (.slice [1]), .newElement (.slice [1])]).h 5 =
      .panic "runtime error: comparing uncomparable type []int" ∧
    (LState.init.run [.pushBack (.array1 (.slice [1])),
        .newElement (.array1 (.slice [1]))]).l.values
      (LState.init.run [.pushBack (.array1 (.slice [1])),
        .newElement (.array1 (.slice [1]))]).h 5 = some [.array1 (.slice [1])] ∧
    ((LState.init.run [.pushBack (.array1 (.slice [1])),
        .newElement (.array1 (.slice [1]))]).h.mem 1).Value = .array1 (.slice [1]) ∧
    (LState.init.run [.pushBack (.array1 (.slice [1])),
        .newElement (.array1 (.slice [1]))]).l.Remove (some 1)
      (LState.init.run [.pushBack (.array1 (.slice [1])),
        .newElement (.array1 (.slice [1]))]).h 5 =
      .panic "runtime error: comparing uncomparable type []int" := by
  refine ⟨by decide, by decide, rfl, by decide, by decide, rfl⟩

end GoList

namespace GoList

open GoCtx (GoAny ifaceEq setAt)

theorem map_eraseIdx_split (xs : List Nat) (f : Nat → GoAny) (pre post : List GoAny) (v : GoAny)
    (h : xs.map f = pre ++ v :: post) :
    (xs.eraseIdx pre.length).map f = pre ++ post := by
  have e : pre ++ v :: post = (pre ++ [v]) ++ post := by simp
  have hlen : pre.length + 1 = (pre ++ [v]).length := by simp
  rw [List.eraseIdx_eq_take_drop_succ, List.map_append, List.map_take, List.map_drop, h,
    List.take_left]
  rw [e, hlen, List.drop_left]

/-- C15, amended by the outcome of `==`: for every list built from `New()` by
`PushBack`, `Remove` and `Init`, and every element `e` (of the list or not)
whose `Value` `v` is not nil, `Remove(e)` compares the `Value`s front to back
with `v`.  If the `Value`s in front of some element compare unequal to `v`
and that element compares equal, `Remove(e)` returns `v` and deletes exactly
that element, the others keep their order and `Len()` drops by one; if every
`Value` of the list compares unequal to `v`, `Remove(e)` returns nil and
leaves list and heap as they are; if the `Value`s in front of some element
compare unequal to `v` and the comparison with that element panics,
`Remove(e)` panics with the same message.  The loops finish within any step
budget above the number of cells. -/
theorem remove_deletes_first_equal (ops : List ListOp) (ea fuel : Nat)
    (hf : (LState.init.run ops).h.nextAddr < fuel)
    (hnil : ((LState.init.run ops).h.mem ea).Value ≠ .nil) :
    ∃ vs : List GoAny,
      (LState.init.run ops).l.values (LState.init.run ops).h fuel = some vs ∧
      (LState.init.run ops).l.Len (LState.init.run ops).h fuel = .done vs.length ∧
      (∀ (pre : List GoAny) (a : GoAny) (post : List GoAny), vs = pre ++ a :: post →
        (∀ b ∈ pre, ifaceEq b ((LState.init.run ops).h.mem ea).Value = .ok false) →
        ifaceEq a ((LState.init.run ops).h.mem ea).Value = .ok true →
        ∃ (l2 : LinkedList) (h2 : Heap),
          (LState.init.run ops).l.Remove (some ea) (LState.init.run ops).h fuel =
            .done (((LState.init.run ops).h.mem ea).Value, l2, h2) ∧
          l2.values h2 fuel = some (pre ++ post) ∧
          l2.Len h2 fuel = .done (vs.length - 1)) ∧
      ((∀ b ∈ vs, ifaceEq b ((LState.init.run ops).h.mem ea).Value = .ok false) →
        (LState.init.run ops).l.Remove (some ea) (LState.init.run ops).h fuel =
          .done (.nil, (LState.init.run ops).l, (LState.init.run ops).h)) ∧
      (∀ (pre : List GoAny) (a : GoAny) (post : List GoAny) (msg : String),
        vs = pre ++ a :: post →
        (∀ b ∈ pre, ifaceEq b ((LState.init.run ops).h.mem ea).Value = .ok false) →
        ifaceEq a ((LState.init.run ops).h.mem ea).Value = .error msg →
        (LState.init.run ops).l.Remove (some ea) (LState.init.run ops).h fuel = .panic msg) := by
  obtain ⟨xs, hl⟩ := isList_reachable ops
  generalize LState.init.run ops = s at hl hf hnil
  have hlen := hl.len_le
  obtain ⟨_, _, o3, o4⟩ := hl.observe fuel (by omega)
  have hR : s.l.Remove (some ea) s.h fuel = removeLoop fuel s.l s.h ea xs[0]? := by
    simp only [LinkedList.Remove, if_neg hnil, Front_eq, hl.front]
  refine ⟨_, o3, by simpa using o4, ?_, ?_, ?_⟩
  · intro pre a post hvs hpre ha
    obtain ⟨⟨ee, hee, hval⟩, hin⟩ := getElem?_of_map_split xs _ pre post a hvs
    have hm := lt_of_getElem? hee
    have hskip := removeLoop_skip hl ea pre.length (by omega) pre.length 0 fuel (by omega)
      (by omega) (by omega) (fun i x _ hi hx => hpre _ (hin i x hi hx))
    obtain ⟨f2, hf2⟩ : ∃ f, fuel - pre.length = f + 1 := ⟨fuel - pre.length - 1, by omega⟩
    have hav : (s.h.mem ee).Value = (s.h.mem ea).Value := by
      rw [hval]; exact ifaceEq_true_eq _ _ ha
    have hfound : removeLoop fuel s.l s.h ea xs[0]? = .done (unlink s.l s.h ee) := by
      rw [hskip, hf2, hee]
      simp only [removeLoop, hval, ha]
    obtain ⟨u1, _, _, uV, _, _⟩ := unlink_eq s.l s.h ee
    have hl2 := unlink_isList hl hee
    have hlen2 : (xs.eraseIdx pre.length).length = xs.length - 1 :=
      List.length_eraseIdx_of_lt hm
    obtain ⟨_, _, p3, p4⟩ := hl2.observe fuel (by omega)
    refine ⟨(unlink s.l s.h ee).2.1, (unlink s.l s.h ee).2.2, ?_, ?_, ?_⟩
    · rw [hR, hfound, ← hav, ← u1]
    · rw [p3]
      congr 1
      have : (xs.eraseIdx pre.length).map (fun x => ((unlink s.l s.h ee).2.2.mem x).Value) =
          (xs.eraseIdx pre.length).map (fun x => (s.h.mem x).Value) :=
        List.map_congr_left (fun x _ => uV x)
      rw [this]
      exact map_eraseIdx_split xs _ pre post _ hvs
    · rw [p4, hlen2]; simp
  · intro hv
    rw [hR]
    have hskip := removeLoop_skip hl ea xs.length (Nat.le_refl _) xs.length 0 fuel (by omega)
      (by omega) (by omega)
      (fun i x _ _ hx => hv _ (List.mem_map.2 ⟨x, List.getElem?_mem hx, rfl⟩))
    rw [hskip, List.getElem?_eq_none (Nat.le_refl _)]
    cases fuel - xs.length <;> rfl
  · intro pre a post msg hvs hpre ha
    obtain ⟨⟨ee, hee, hval⟩, hin⟩ := getElem?_of_map_split xs _ pre post a hvs
    have hm := lt_of_getElem? hee
    have hskip := removeLoop_skip hl ea pre.length (by omega) pre.length 0 fuel (by omega)
      (by omega) (by omega) (fun i x _ hi hx => hpre _ (hin i x hi hx))
    obtain ⟨f2, hf2⟩ : ∃ f, fuel - pre.length = f + 1 := ⟨fuel - pre.length - 1, by omega⟩
    rw [hR, hskip, hf2, hee]
    simp only [removeLoop, hval, ha]

/-- Witness for C15: the `Remove` test, removing by a fresh element that
holds 2: the list 1, 2, 3 becomes 1, 3. -/
theorem remove_deletes_first_equal_witness :
    ∃ vs : List GoAny,
      (LState.init.run [.pushBack (.int 1), .pushBack (.int 2), .pushBack (.int 3),
          .newElement (.int 2)]).l.values
        (LState.init.run [.pushBack (.int 1), .pushBack (.int 2), .pushBack (.int 3),
          .newElement (.int 2)]).h 5 = some vs :=
  (remove_deletes_first_equal [.pushBack (.int 1), .pushBack (.int 2), .pushBack (.int 3),
    .newElement (.int 2)] 3 5 (by decide) (by decide)).imp fun _ h => h.1

/-- The `Remove` test replayed: removing the element that holds 2, then the
front, then the back. -/
theorem remove_test_example :
    (LState.init.run [.pushBack (.int 1), .pushBack (.int 2), .pushBack (.int 3),
        .newElement (.int 2), .remove (some 3)]).l.values
      (LState.init.run [.pushBack (.int 1), .pushBack (.int 2), .pushBack (.int 3),
        .newElement (.int 2), .remove (some 3)]).h 5 = some [.int 1, .int 3] ∧
    (LState.init.run [.pushBack (.int 1), .pushBack (.int 2), .pushBack (.int 3),
        .newElement (.int 2), .remove (some 3), .remove (some 0), .remove (some 2)]).l.Len
      (LState.init.run [.pushBack (.int 1), .pushBack (.int 2), .pushBack (.int 3),
        .newElement (.int 2), .remove (some 3), .remove (some 0), .remove (some 2)]).h 5 =
      .done 0 := by
  constructor <;> decide

end GoList

namespace GoCtx

/-! ## `Value(nil)` -/

/-- C21: for every context (each is built from the root by `WithValue`,
`WithCancel`, `WithDeadline` and `WithTimeout` nodes), `Value(nil)` panics
exactly when at least one value context lies on the path from the node to the
root, the node itself included; when there is none, `Value(nil)` returns nil. -/
theorem value_nil_panics_iff_value_ctx_on_path (c : Context) :
    (panics (c.Value .nil) = true ↔ c.bindings ≠ []) ∧
    (c.bindings = [] → c.Value .nil = .ok .nil) := by
  induction c with
  | backgroundCtx => simp [Context.Value, Context.bindings, panics]
  | cancelCtx p i ih => simpa [Context.Value, Context.bindings] using ih
  | valueCtx p k v ih => simp [Context.Value, Context.bindings, panics]
  | deadlineCtx p i d ih => simpa [Context.Value, Context.bindings] using ih

/-- Witness for C21: a cancel context below a deadline context below the root
has no value context on its path, and `Value(nil)` returns nil. -/
theorem value_nil_panics_iff_value_ctx_on_path_witness :
    (Context.cancelCtx (.deadlineCtx .backgroundCtx 0 10) 1).Value .nil = .ok .nil :=
  (value_nil_panics_iff_value_ctx_on_path
    (.cancelCtx (.deadlineCtx .backgroundCtx 0 10) 1)).2 rfl

/-- A value context anywhere on the path makes `Value(nil)` panic, also when
the lookup starts at a cancel context below it. -/
theorem value_nil_panics_example :
    panics ((Context.cancelCtx (.valueCtx .backgroundCtx (.str "a") (.int 1)) 0).Value .nil) =
      true := by
  decide

end GoCtx
